import Mathlib

/-!
# soma: windows, statistics, finger counter, hand shape and hand position

A shallow embedding of `src/soma.h`, of the finger counter of `src/soma_mouse.h` and of
`src/hand_shape_classifier.h`.

* `std::deque` is a `List` whose head is the deque's front; `back ()` is the last element.
* `uint64_t` timestamps and durations are natural numbers; the only subtraction the window
  performs on them (`ts - timestamps.back ()`) is guarded by `assert (ts >= timestamps.back ())`,
  so it never wraps.
* A failed `assert` is `none`.
* `double` and `float` values are exact rationals.
-/

namespace soma

/-- The class `sliding_time_window<T>`: the constant `duration` and the two deques. -/
structure sliding_time_window (T : Type) where
  duration : Nat
  timestamps : List Nat
  samples : List T
deriving DecidableEq, Repr

namespace sliding_time_window

variable {T : Type}

/-- The constructor `sliding_time_window (uint64_t duration)`: both deques start empty. -/
def mk_empty (T : Type) (duration : Nat) : sliding_time_window T :=
  { duration := duration, timestamps := [], samples := [] }

/-- The method `clear ()`. -/
def clear (w : sliding_time_window T) : sliding_time_window T :=
  { w with timestamps := [], samples := [] }

/-- The private method `update (ts)`: the `while (!timestamps.empty ())` loop, with `fuel`
bounding the number of iterations.  Each iteration checks the two assertions and then either
pops the back of both deques or leaves the loop. -/
def update_loop (ts : Nat) : Nat → sliding_time_window T → Option (sliding_time_window T)
  | 0, w => if w.timestamps.isEmpty then some w else none
  | fuel + 1, w =>
    match w.timestamps.getLast? with
    | none => some w
    | some back =>
      if w.samples.length ≠ w.timestamps.length then none
      else if ¬ (ts ≥ back) then none
      else if ts - back > w.duration then
        update_loop ts fuel
          { w with timestamps := w.timestamps.dropLast, samples := w.samples.dropLast }
      else some w

/-- The private method `update (ts)`.  An iteration that does not leave the loop pops one
timestamp, so `timestamps.size ()` iterations always suffice. -/
def update (ts : Nat) (w : sliding_time_window T) : Option (sliding_time_window T) :=
  update_loop ts w.timestamps.length w

/-- The method `add_sample (ts, n)`: evict, check that the front timestamp is not `ts`, then
push `ts` and `n` at the front. -/
def add_sample (ts : Nat) (n : T) (w : sliding_time_window T) :
    Option (sliding_time_window T) :=
  match update ts w with
  | none => none
  | some w1 =>
    if ¬ (w1.timestamps.isEmpty ∨ w1.timestamps.head? ≠ some ts) then none
    else some { w1 with timestamps := ts :: w1.timestamps, samples := n :: w1.samples }

/-- The method `get_samples ()`. -/
def get_samples (w : sliding_time_window T) : List T := w.samples

/-- The method `get_timestamps ()`. -/
def get_timestamps (w : sliding_time_window T) : List Nat := w.timestamps

/-- The method `fullness (ts)`.  The `double` result is an exact rational: `start` is the back
timestamp, both assertions are checked, and the quotient is `(ts - start) / duration` computed
in `double`, so a true division. -/
def fullness (ts : Nat) (w : sliding_time_window T) : Option ℚ :=
  match w.timestamps.getLast? with
  | none => some 0
  | some start =>
    if ¬ (start ≤ ts) then none
    else if ¬ (w.duration ≠ 0) then none
    else some (((ts : ℚ) - (start : ℚ)) / (w.duration : ℚ))

/-- The contract's description of eviction: the entries `(t, s)` of a window, paired up, whose
age `ts - t` is at most `D`, in their order. -/
def kept (ts D : Nat) (l : List Nat) (s : List T) : List (Nat × T) :=
  (l.zip s).filter (fun p => decide (ts - p.1 ≤ D))

/-- The state a window is in between calls when its timestamps arrive in strictly increasing
order: the deques have equal sizes, the timestamps decrease strictly from front to back, and
no entry is older than `duration` relative to the front. -/
def ordered (w : sliding_time_window T) : Prop :=
  w.samples.length = w.timestamps.length ∧
  w.timestamps.Pairwise (fun a b => a > b) ∧
  ∀ f ∈ w.timestamps.head?, ∀ t ∈ w.timestamps, f - t ≤ w.duration

instance (w : sliding_time_window T) : Decidable (ordered w) := by
  unfold ordered
  infer_instance

/-- A sequence of `add_sample` calls, applied from left to right, stopping at the first failed
assertion. -/
def add_samples : List (Nat × T) → sliding_time_window T → Option (sliding_time_window T)
  | [], w => some w
  | (ts, n) :: rest, w =>
    match add_sample ts n w with
    | none => none
    | some w1 => add_samples rest w1

end sliding_time_window

/-! ## Running statistics

`double` results are exact: a finite value is a rational, and the three non-finite results of
IEEE 754 arithmetic (the infinities and NaN) are kept apart, because a division by a zero count
produces them instead of failing. -/

/-- The value of a `double` expression: a finite number, an infinity or NaN. -/
inductive double where
  | fin (q : ℚ)
  | pinf
  | ninf
  | nan
deriving DecidableEq

namespace double

/-- The quotient `x / n` of a `double` by a count (`size_t`, converted to a non-negative
`double`): a finite non-zero value over `0` is an infinity, `0 / 0` is NaN. -/
def div_count : double → Nat → double
  | fin a, n =>
    if n ≠ 0 then fin (a / (n : ℚ))
    else if a = 0 then nan
    else if 0 < a then pinf
    else ninf
  | pinf, _ => pinf
  | ninf, _ => ninf
  | nan, _ => nan

/-- The product `x * y`: an infinity times `0` is NaN. -/
def mul : double → double → double
  | fin a, fin b => fin (a * b)
  | nan, _ => nan
  | _, nan => nan
  | pinf, pinf => pinf
  | ninf, ninf => pinf
  | pinf, ninf => ninf
  | ninf, pinf => ninf
  | pinf, fin b => if b = 0 then nan else if 0 < b then pinf else ninf
  | ninf, fin b => if b = 0 then nan else if 0 < b then ninf else pinf
  | fin a, pinf => if a = 0 then nan else if 0 < a then pinf else ninf
  | fin a, ninf => if a = 0 then nan else if 0 < a then ninf else pinf

/-- The difference `x - y`: an infinity minus itself is NaN. -/
def sub : double → double → double
  | fin a, fin b => fin (a - b)
  | nan, _ => nan
  | _, nan => nan
  | pinf, pinf => nan
  | ninf, ninf => nan
  | pinf, _ => pinf
  | ninf, _ => ninf
  | fin _, pinf => ninf
  | fin _, ninf => pinf

/-- The comparison `x >= y`: false as soon as one side is NaN. -/
def ge : double → double → Bool
  | fin a, fin b => decide (b ≤ a)
  | nan, _ => false
  | _, nan => false
  | pinf, _ => true
  | _, ninf => true
  | ninf, _ => false
  | fin _, pinf => false

end double

/-- The class `stats<T,N>` with `T = double`: the count `total` and the arrays `u1` (sums)
and `u2` (sums of squares).  The accumulated entries are finite. -/
structure stats (N : Nat) where
  total : Nat
  u1 : Fin N → ℚ
  u2 : Fin N → ℚ

namespace stats

variable {N : Nat}

/-- A zero-initialised accumulator, as `mhps[hp]` creates it on first access. -/
def zero (N : Nat) : stats N :=
  { total := 0, u1 := fun _ => 0, u2 := fun _ => 0 }

/-- The method `update (v)`: the size of `v` is asserted to be `N`, then the count is
incremented and `v[i]` and `v[i] * v[i]` are added to `u1[i]` and `u2[i]`. -/
def update (v : List ℚ) (s : stats N) : Option (stats N) :=
  if h : v.length = N then
    some
      { total := s.total + 1
        u1 := fun i => s.u1 i + v.get ⟨i.val, h ▸ i.isLt⟩
        u2 := fun i => s.u2 i + v.get ⟨i.val, h ▸ i.isLt⟩ * v.get ⟨i.val, h ▸ i.isLt⟩ }
  else none

/-- The method `mean (i)`: `u1[i] / total`, with no check on `total`. -/
def mean (s : stats N) (i : Fin N) : double :=
  double.div_count (double.fin (s.u1 i)) s.total

/-- The method `variance (i)`: the assertion `u2[i] / total >= u * u`, then their difference. -/
def variance (s : stats N) (i : Fin N) : Option double :=
  let u := mean s i
  if double.ge (double.div_count (double.fin (s.u2 i)) s.total) (double.mul u u) then
    some (double.sub (double.div_count (double.fin (s.u2 i)) s.total) (double.mul u u))
  else none

/-- Observations fed one by one through `update`, stopping at the first failed assertion. -/
def updates : List (List ℚ) → stats N → Option (stats N)
  | [], s => some s
  | v :: rest, s =>
    match update v s with
    | none => none
    | some s1 => updates rest s1

/-- The arithmetic mean of a list of numbers. -/
def arithmetic_mean (xs : List ℚ) : ℚ :=
  xs.sum / (xs.length : ℚ)

/-- The population variance `(1/n)·Σ(x − mean)²` of a list of numbers. -/
def population_variance (xs : List ℚ) : ℚ :=
  (xs.map (fun x => (x - arithmetic_mean xs) ^ 2)).sum / (xs.length : ℚ)

end stats

/-! ## Finger counter (`src/soma_mouse.h`)

The raw counts are `unsigned`, natural numbers here.  `fullness` is a `double` and `certainty`
a `float`; both comparisons are made on exact rationals against the decimal values of the two
thresholds.  On the window of 200000 microseconds this decides the same way as the rounded
arithmetic: the fullness values are multiples of 1/200000 and the certainty values are
fractions with at most 200001 in the denominator, far coarser than the rounding of `0.85f` and
`0.8f`. -/

/-- The constant `FINGER_COUNTER_WINDOW_DURATION`. -/
def FINGER_COUNTER_WINDOW_DURATION : Nat := 200000

/-- The constant `FINGER_COUNTER_WINDOW_FULLNESS`, `0.85f`. -/
def FINGER_COUNTER_WINDOW_FULLNESS : ℚ := 85 / 100

/-- The constant `FINGER_COUNTER_CERTAINTY`, `0.8f`. -/
def FINGER_COUNTER_CERTAINTY : ℚ := 8 / 10

/-- The class `finger_counter`: the window of raw counts and the debounced count. -/
structure finger_counter where
  w : sliding_time_window Nat
  current_count : Nat

namespace finger_counter

/-- The value `~0` of an `unsigned`: all 32 bits set. -/
def unknown_count : Nat := 2 ^ 32 - 1

/-- The constructor `finger_counter ()`. -/
def new : finger_counter :=
  { w := sliding_time_window.mk_empty Nat FINGER_COUNTER_WINDOW_DURATION
    current_count := unknown_count }

/-- The loop `for (auto i : s) if (i == count) ++total;`. -/
def count_equal (s : List Nat) (count : Nat) : Nat :=
  s.foldl (fun total i => if i = count then total + 1 else total) 0

/-- The method `update (ts, count)`.  The free function `mode` comes from `stats.h`, which is
not part of the sources; it is the parameter `mode`. -/
def update (mode : List Nat → Nat) (ts count : Nat) (fc : finger_counter) :
    Option finger_counter :=
  match sliding_time_window.add_sample ts count fc.w with
  | none => none
  | some w1 =>
    match sliding_time_window.fullness ts w1 with
    | none => none
    | some f =>
      if f > FINGER_COUNTER_WINDOW_FULLNESS then
        let s := sliding_time_window.get_samples w1
        if ¬ (s.length > 0) then none
        else
          let count := mode s
          let total := count_equal s count
          let certainty : ℚ := (total : ℚ) / (s.length : ℚ)
          if certainty < FINGER_COUNTER_CERTAINTY then some { fc with w := w1 }
          else some { w := w1, current_count := count }
      else some { fc with w := w1 }

/-- The method `get_count ()`. -/
def get_count (fc : finger_counter) : Nat := fc.current_count

/-- A sequence of `update` calls, applied from left to right, stopping at the first failed
assertion. -/
def updates (mode : List Nat → Nat) : List (Nat × Nat) → finger_counter → Option finger_counter
  | [], fc => some fc
  | (ts, count) :: rest, fc =>
    match update mode ts count fc with
    | none => none
    | some fc1 => updates mode rest fc1

/-- Modelled from the spec: the free function `mode` of `stats.h` is not under the sources; the
spec calls it the statistical mode of the window's counts, that is, a value of the list that
occurs in it at least as often as every other value, ties broken in an unspecified way. -/
def is_mode (mode : List Nat → Nat) : Prop :=
  ∀ l : List Nat, l ≠ [] → mode l ∈ l ∧ ∀ x, l.count x ≤ l.count (mode l)

/-- Modelled from the spec: one statistical mode, the first value of the list among those that
occur most often. -/
def first_mode (l : List Nat) : Nat :=
  (l.argmax (fun x => l.count x)).getD 0

/-- The state along a run in which every raw count is `c`: the window is ordered with a
non-zero duration and holds only `c`, the calls still to come pass `c` at strictly increasing
timestamps above the held ones, and the debounced count satisfies `Q`. -/
def constant_run_state (c : Nat) (Q : Nat → Prop) (fc : finger_counter)
    (calls : List (Nat × Nat)) : Prop :=
  sliding_time_window.ordered fc.w ∧ fc.w.duration ≠ 0 ∧
  (calls.map Prod.fst).Pairwise (fun a b => a < b) ∧
  (∀ p ∈ calls, ∀ t ∈ fc.w.timestamps, t < p.1) ∧
  (∀ x ∈ fc.w.samples, x = c) ∧ (∀ p ∈ calls, p.2 = c) ∧ Q (get_count fc)

/-- The frames of the spec's example: 100 frames with raw count 3, spaced 2000 microseconds
apart. -/
def hundred_frames : List (Nat × Nat) :=
  (List.range 100).map (fun i => (2000 * i, 3))

end finger_counter

/-! ## Hand shape classifier (`src/hand_shape_classifier.h`)

The header includes `finger_counter.h` and `hand_sample.h` and uses `sliding_window`, none of
which is part of the sources: the classifier's finger counter is constructed with a duration
and fed through `add`, unlike the `finger_counter` of `soma_mouse.h`.  Those members and the
library function `atan2` are parameters of the model.  Coordinates and angles are exact
rationals. -/

/-- The enum `hand_shape`. -/
inductive hand_shape where
  | unknown
  | zero
  | pointing
  | scrolling
  | stopping
deriving DecidableEq, Repr

/-- Modelled from the spec: the type `vec3` comes from a header that is not under the sources;
it is a 3-D vector with the members `x`, `y`, `z` that the classifier reads. -/
structure vec3 where
  x : ℚ
  y : ℚ
  z : ℚ
deriving DecidableEq

/-- The struct `finger` of `soma.h`: position, velocity and direction. -/
structure finger where
  position : vec3
  velocity : vec3
  direction : vec3
deriving DecidableEq

/-- Modelled from the spec: `hand_sample.h` is not under the sources; a sample is the sequence
of the finger descriptors seen in a frame, indexed from 0, of which the classifier reads
`size ()` and the positions. -/
abbrev hand_sample : Type := List finger

/-- What the classifier uses and the sources do not define, for a finger counter of type `FC`
and a sample window of type `SW`: `fc.add (ts, n)` and `swhs.add (ts, s)` (`none` when they
fail), `fc.get_count ()`, and `slope_deg dy dx` for `atan2 (dy, dx) * 180 / M_PI` stored in a
`float`. -/
structure hand_shape_env (FC SW : Type) where
  fc_add : Nat → Nat → FC → Option FC
  fc_get_count : FC → Nat
  swhs_add : Nat → hand_sample → SW → Option SW
  slope_deg : ℚ → ℚ → ℚ

/-- The class `hand_shape_classifier`: the finger counter, the sample window, the current
shape and the changed flag. -/
structure hand_shape_classifier (FC SW : Type) where
  fc : FC
  swhs : SW
  current : hand_shape
  changed : Bool

namespace hand_shape_classifier

variable {FC SW : Type}

/-- The constructor, given the two members as their own constructors leave them: the shape
starts as `unknown` and the flag as `false`. -/
def new (fc : FC) (swhs : SW) : hand_shape_classifier FC SW :=
  { fc := fc, swhs := swhs, current := hand_shape.unknown, changed := false }

/-- The private method `update_finger_count2 (s)`: the new value of `current`. -/
def update_finger_count2 (env : hand_shape_env FC SW) (s : hand_sample)
    (current : hand_shape) : hand_shape :=
  match s with
  | [s0, s1] =>
    let p0 := s0.position
    let p1 := s1.position
    let (p0, p1) := if p0.y > p1.y then (p1, p0) else (p0, p1)
    let dx := |p0.x - p1.x|
    let dy := |p0.y - p1.y|
    let xy_slope := env.slope_deg dy dx
    let (p0, p1) := if p0.z > p1.z then (p1, p0) else (p0, p1)
    let dz := |p0.z - p1.z|
    let xz_slope := env.slope_deg dz dx
    if xy_slope < 20 ∧ xz_slope < 15 then hand_shape.scrolling else hand_shape.pointing
  | _ => current

/-- The private method `update (s)`: the switch on `fc.get_count ()`. -/
def update (env : hand_shape_env FC SW) (s : hand_sample) (h : hand_shape_classifier FC SW) :
    hand_shape_classifier FC SW :=
  match env.fc_get_count h.fc with
  | 0 => { h with current := hand_shape.zero }
  | 1 => { h with current := hand_shape.pointing }
  | 2 => { h with current := update_finger_count2 env s h.current }
  | 3 => { h with current := hand_shape.unknown }
  | 4 => { h with current := hand_shape.stopping }
  | 5 => { h with current := hand_shape.stopping }
  | _ => { h with current := hand_shape.unknown }

/-- The method `add (ts, s)`. -/
def add (env : hand_shape_env FC SW) (ts : Nat) (s : hand_sample)
    (h : hand_shape_classifier FC SW) : Option (hand_shape_classifier FC SW) :=
  let last := h.current
  match env.fc_add ts s.length h.fc with
  | none => none
  | some fc1 =>
    match env.swhs_add ts s h.swhs with
    | none => none
    | some swhs1 =>
      let h1 := update env s { h with fc := fc1, swhs := swhs1 }
      some { h1 with changed := decide (last ≠ h1.current) }

/-- The method `get_shape ()`. -/
def get_shape (h : hand_shape_classifier FC SW) : hand_shape := h.current

/-- The method `has_changed ()`. -/
def has_changed (h : hand_shape_classifier FC SW) : Bool := h.changed

/-- A call of one of the public methods. -/
inductive method_call where
  | add (ts : Nat) (s : hand_sample)
  | get_shape
  | has_changed

/-- What a call returns to the caller. -/
inductive returned where
  | nothing
  | shape (s : hand_shape)
  | flag (b : Bool)
deriving DecidableEq

/-- One call on a classifier: the value returned and the classifier after the call, `none`
when the call fails.  The two accessors are `const` methods whose body is a `return`. -/
def call (env : hand_shape_env FC SW) :
    method_call → hand_shape_classifier FC SW → Option (returned × hand_shape_classifier FC SW)
  | method_call.add ts s, h =>
    match add env ts s h with
    | none => none
    | some h1 => some (returned.nothing, h1)
  | method_call.get_shape, h => some (returned.shape (get_shape h), h)
  | method_call.has_changed, h => some (returned.flag (has_changed h), h)

/-- A slope function that agrees with `atan2 (dy, dx) * 180 / M_PI` for non-negative
arguments on the two axes and on the diagonal, where that value is 0, 90 or 45. -/
def axis_slope (dy dx : ℚ) : ℚ :=
  if dy = 0 then 0 else if dx = 0 then 90 else if dy = dx then 45 else 90

/-- An environment to run the classifier in: the finger counter of `soma_mouse.h` with
`first_mode`, a `sliding_time_window` of samples, and `axis_slope`. -/
def mouse_env : hand_shape_env finger_counter (sliding_time_window hand_sample) :=
  { fc_add := finger_counter.update finger_counter.first_mode
    fc_get_count := finger_counter.get_count
    swhs_add := sliding_time_window.add_sample
    slope_deg := axis_slope }

end hand_shape_classifier

/-! ## Hand position classifier (`src/soma.h`) -/

namespace double

/-- The quotient `x / y`; a zero divisor is taken as `+0`. -/
def div : double → double → double
  | fin a, fin b =>
    if b ≠ 0 then fin (a / b)
    else if a = 0 then nan
    else if 0 < a then pinf
    else ninf
  | nan, _ => nan
  | _, nan => nan
  | fin _, pinf => fin 0
  | fin _, ninf => fin 0
  | pinf, fin b => if 0 ≤ b then pinf else ninf
  | ninf, fin b => if 0 ≤ b then ninf else pinf
  | pinf, pinf => nan
  | pinf, ninf => nan
  | ninf, pinf => nan
  | ninf, ninf => nan

/-- The comparison `x != 0.0f`: true for NaN and the infinities. -/
def ne_zero : double → Bool
  | fin a => decide (a ≠ 0)
  | _ => true

/-- The comparison `x > y`: false as soon as one side is NaN. -/
def gt : double → double → Bool
  | fin a, fin b => decide (b < a)
  | nan, _ => false
  | _, nan => false
  | pinf, pinf => false
  | pinf, _ => true
  | ninf, _ => false
  | fin _, ninf => true
  | fin _, pinf => false

end double

/-- The constant `FVN`. -/
def FVN : Nat :=
  5 * 3 + 5 * 3 + 4 * 1 + 4 * 3

/-- The class `feature_vector`: a `std::array<double,FVN>` of finite values. -/
abbrev feature_vector : Type := Fin FVN → ℚ

/-- The assignment `z[i] = v` on an array. -/
def array_set {n : Nat} (z : Fin n → ℚ) (i : Nat) (v : ℚ) : Fin n → ℚ :=
  fun k => if k.val = i then v else z k

/-- One round of the loop of `zero_movement`: `z[i++] = 0.0` three times. -/
def zero_movement_round (st : feature_vector × Nat) : feature_vector × Nat :=
  let (z, i) := st
  let z := array_set z i 0
  let z := array_set z (i + 1) 0
  let z := array_set z (i + 2) 0
  (z, i + 3)

/-- The function `zero_movement (f)`: a copy of `f` on which the loop over `j < 5` has run,
`i` starting at 0. -/
def zero_movement (f : feature_vector) : feature_vector :=
  ((List.range 5).foldl (fun st _ => zero_movement_round st) (f, 0)).1

/-- The enum `hand_position`. -/
inductive hand_position where
  | unknown
  | pointing
  | clicking
  | scrolling
  | centering
deriving DecidableEq, Repr

/-- The class `hand_position_classifier`: the map `mhps` from labels to statistics. -/
structure hand_position_classifier where
  mhps : hand_position → Option (stats FVN)

namespace hand_position_classifier

/-- The local map `l` of `classify`, a `std::map<hand_position,double>`. -/
abbrev scores : Type := hand_position → Option double

/-- The statement `l[h] -= d`: `operator[]` inserts `0.0` when `h` has no entry yet. -/
def scores_sub (l : scores) (h : hand_position) (d : double) : scores :=
  fun k => if k = h then some (double.sub ((l h).getD (double.fin 0)) d) else l k

/-- The body of the loop over `j` in `classify`: `find` with its assertion, mean, variance
(with its assertion), and the update of `l[h]` when the variance is not zero. -/
def classify_dimension (c : hand_position_classifier) (h : hand_position)
    (z : feature_vector) (l : scores) (j : Fin FVN) : Option scores :=
  let x := double.fin (z j)
  match c.mhps h with
  | none => none
  | some s =>
    let m := stats.mean s j
    match stats.variance s j with
    | none => none
    | some v =>
      if double.ne_zero v then
        some (scores_sub l h
          (double.div (double.mul (double.sub x m) (double.sub x m))
            (double.mul (double.fin 2) v)))
      else some l

/-- The body of the loop over the vectors `i` of the batch: zero the movement, then loop over
the dimensions. -/
def classify_vector (c : hand_position_classifier) (h : hand_position) (l : scores)
    (i : feature_vector) : Option scores :=
  (List.finRange FVN).foldlM (fun l j => classify_dimension c h (zero_movement i) l j) l

/-- The body of the loop over the labels `h`: loop over the batch. -/
def classify_label (c : hand_position_classifier) (fvs : List feature_vector) (l : scores)
    (h : hand_position) : Option scores :=
  fvs.foldlM (fun l i => classify_vector c h l i) l

/-- The first part of `classify`: the map `l` after the loop over the four labels. -/
def classify_scores (c : hand_position_classifier) (fvs : List feature_vector) :
    Option scores :=
  [hand_position.pointing, hand_position.clicking, hand_position.scrolling,
    hand_position.centering].foldlM (fun l h => classify_label c fvs l h) (fun _ => none)

/-- The entries of the map `l` in the order of iteration, the order of the keys. -/
def entries (l : scores) : List (hand_position × double) :=
  [hand_position.unknown, hand_position.pointing, hand_position.clicking,
    hand_position.scrolling, hand_position.centering].filterMap
    (fun h => (l h).map (fun v => (h, v)))

/-- The body of the loop over `l`: `(best_hp, best_value)` is replaced when `i.second` is
greater than `best_value`. -/
def best_step (best : hand_position × double) (i : hand_position × double) :
    hand_position × double :=
  if double.gt i.2 best.2 then i else best

/-- The method `classify (fvs, ts, hp, p)`: the pair `(hp, p)` written to the two output
parameters; `ts` is not used.  `best_value` starts at `std::numeric_limits<int>::min ()`. -/
def classify (c : hand_position_classifier) (fvs : List feature_vector) (_ts : List Nat) :
    Option (hand_position × double) :=
  match classify_scores c fvs with
  | none => none
  | some l =>
    some ((entries l).foldl best_step (hand_position.unknown, double.fin (-2147483648)))

/-- The mean of dimension `j` as a rational, `u1[j] / total`. -/
def mean_q (s : stats FVN) (j : Fin FVN) : ℚ :=
  s.u1 j / (s.total : ℚ)

/-- The variance of dimension `j` as a rational, `u2[j] / total - mean^2`. -/
def variance_q (s : stats FVN) (j : Fin FVN) : ℚ :=
  s.u2 j / (s.total : ℚ) - mean_q s j * mean_q s j

/-- Statistics that have received observations: the count is not zero and the assertion of
`variance` holds in every dimension. -/
def observed (s : stats FVN) : Prop :=
  s.total ≠ 0 ∧ ∀ j : Fin FVN, mean_q s j * mean_q s j ≤ s.u2 j / (s.total : ℚ)

/-- The terms of the log-likelihood of a motion-zeroed vector `z` under the statistics `s`:
`(z_j − mean_j)^2 / (2·v_j)` for the dimensions `j` whose variance `v_j` is not zero. -/
def likelihood_terms (s : stats FVN) (z : feature_vector) : List ℚ :=
  ((List.finRange FVN).filter (fun j => decide (variance_q s j ≠ 0))).map
    (fun j => (z j - mean_q s j) * (z j - mean_q s j) / (2 * variance_q s j))

/-- The terms of a whole batch, vector after vector. -/
def batch_terms (s : stats FVN) (fvs : List feature_vector) : List ℚ :=
  (fvs.map (fun x => likelihood_terms s (zero_movement x))).flatten

/-- The entry of a label after its terms have been subtracted one by one from an entry that
starts absent. -/
def entry_after (e : Option ℚ) (terms : List ℚ) : Option ℚ :=
  terms.foldl (fun e t => some (e.getD 0 - t)) e

/-- The score a label has accumulated when `classify` has gone through the batch, absent when
nothing was subtracted; `unknown` is not among the labels `classify` goes through. -/
def label_score (c : hand_position_classifier) (fvs : List feature_vector)
    (h : hand_position) : Option ℚ :=
  if h = hand_position.unknown then none
  else
    match c.mhps h with
    | none => none
    | some s => entry_after none (batch_terms s fvs)

/-- A classifier in which each of the four labels has statistics with observations. -/
def fully_trained (c : hand_position_classifier) : Prop :=
  ∀ h : hand_position, h ≠ hand_position.unknown → ∃ s, c.mhps h = some s ∧ observed s

/-- Statistics of two observations whose only spread is in dimension 20: sum 0 everywhere,
sum of squares 2 in dimension 20 and 0 elsewhere. -/
def two_point_stats : stats FVN :=
  { total := 2, u1 := fun _ => 0, u2 := fun j => if j.val = 20 then 2 else 0 }

/-- A classifier in which each of the four labels has the statistics `two_point_stats`. -/
def two_point_classifier : hand_position_classifier :=
  { mhps := fun h => if h = hand_position.unknown then none else some two_point_stats }

/-- The finite entries of a map of scores, in the order of the keys. -/
def finite_entries (sc : hand_position → Option ℚ) : List (hand_position × ℚ) :=
  [hand_position.unknown, hand_position.pointing, hand_position.clicking,
    hand_position.scrolling, hand_position.centering].filterMap
    (fun h => (sc h).map (fun v => (h, v)))

/-- The position of a label in the enumeration. -/
def rank : hand_position → Nat
  | hand_position.unknown => 0
  | hand_position.pointing => 1
  | hand_position.clicking => 2
  | hand_position.scrolling => 3
  | hand_position.centering => 4

/-- The constructor `hand_position_classifier ()`: the map `mhps` starts empty. -/
def new : hand_position_classifier :=
  { mhps := fun _ => none }

/-- The map `mhps` with the entry of `hp` set to `s`. -/
def set_entry (c : hand_position_classifier) (hp : hand_position) (s : stats FVN) :
    hand_position_classifier :=
  { mhps := fun k => if k = hp then some s else c.mhps k }

/-- The statement `mhps[hp].update (zero_movement (i))`: `operator[]` inserts zero-initialised
statistics when `hp` has no entry yet. -/
def train_vector (hp : hand_position) (c : hand_position_classifier) (i : feature_vector) :
    Option hand_position_classifier :=
  match stats.update (List.ofFn (zero_movement i)) ((c.mhps hp).getD (stats.zero FVN)) with
  | none => none
  | some s => some (set_entry c hp s)

/-- The logging of one entry of `mhps` in `update`: for every dimension the mean and the
variance are computed, the variance with its assertion; what is printed is not modelled. -/
def log_entry (s : stats FVN) : Option Unit :=
  (List.finRange FVN).foldlM
    (fun _ j =>
      match stats.variance s j with
      | none => none
      | some _ => some ())
    ()

/-- The logging loop `for (auto s : mhps)` of `update`, over the entries in key order. -/
def log_entries (c : hand_position_classifier) : Option Unit :=
  [hand_position.unknown, hand_position.pointing, hand_position.clicking,
    hand_position.scrolling, hand_position.centering].foldlM
    (fun _ h =>
      match c.mhps h with
      | none => some ()
      | some s => log_entry s)
    ()

/-- The method `update (hp, fvs)`: every vector of the batch is motion-zeroed and fed to the
statistics of `hp`, then all statistics are logged. -/
def update (hp : hand_position) (fvs : List feature_vector) (c : hand_position_classifier) :
    Option hand_position_classifier :=
  match fvs.foldlM (fun c i => train_vector hp c i) c with
  | none => none
  | some c1 =>
    match log_entries c1 with
    | none => none
    | some _ => some c1

/-- A classifier in which every entry of `mhps` holds statistics with observations, as every
classifier built by `update` calls does. -/
def well_formed (c : hand_position_classifier) : Prop :=
  ∀ h s, c.mhps h = some s → observed s

/-- The statistics `base` after the vectors of a batch, motion-zeroed, have been fed to them:
the count grows by the size of the batch and the sums by the entries and their squares. -/
def train_stats (base : stats FVN) (fvs : List feature_vector) : stats FVN :=
  { total := base.total + fvs.length
    u1 := fun j => base.u1 j + (fvs.map (fun x => zero_movement x j)).sum
    u2 := fun j => base.u2 j + (fvs.map (fun x => zero_movement x j * zero_movement x j)).sum }

/-- The mean vector of a batch. -/
def batch_mean (fvs : List feature_vector) : feature_vector :=
  fun j => (fvs.map (fun x => x j)).sum / (fvs.length : ℚ)

/-- A batch of two vectors that are `m + 1` and `m - 1` in dimension 20 and 0 elsewhere: its
mean vector is `m` in dimension 20, and its only spread is there. -/
def batch_around (m : ℚ) : List feature_vector :=
  [fun k => if k.val = 20 then m + 1 else 0, fun k => if k.val = 20 then m - 1 else 0]

/-- A classifier in which each of the four labels holds the statistics of a training on
`batch_around`, around the rank of the label. -/
def spread_classifier : hand_position_classifier :=
  { mhps := fun h =>
      if h = hand_position.unknown then none
      else some (train_stats (stats.zero FVN) (batch_around (rank h))) }

end hand_position_classifier

/-! ## Feature vector of a hand (`src/soma.h`) -/

/-- The class `hand`: a `std::array<finger,5>`. -/
abbrev hand : Type := Fin 5 → finger

/-- The difference of two vectors, `operator-` of `Leap::Vector`. -/
def vec3.sub (a b : vec3) : vec3 :=
  { x := a.x - b.x, y := a.y - b.y, z := a.z - b.z }

/-- The state of the constructor `feature_vector (const hand &h)`: the array, the index `i`,
and, as a history variable that the source does not have, the indices assigned so far. -/
structure feature_fill where
  data : feature_vector
  i : Nat
  assigned : List Nat

namespace feature_fill

/-- The statement `data ()[i++] = v`. -/
def put (st : feature_fill) (v : ℚ) : feature_fill :=
  { data := array_set st.data st.i v, i := st.i + 1, assigned := st.assigned ++ [st.i] }

/-- The entry of index `k` of an array, for `k` below its size. -/
def entry (z : feature_vector) (k : Nat) : ℚ :=
  if h : k < FVN then z ⟨k, h⟩ else 0

/-- The first loop of the constructor: the velocity of each finger. -/
def fill_velocities (h : hand) (st : feature_fill) : Option feature_fill :=
  (List.range 5).foldlM
    (fun st j =>
      if ¬ (st.i < FVN) then none
      else if hj : j < 5 then
        some (((st.put (h ⟨j, hj⟩).velocity.x).put (h ⟨j, hj⟩).velocity.y).put
          (h ⟨j, hj⟩).velocity.z)
      else none)
    st

/-- The second loop of the constructor: the direction of each finger. -/
def fill_directions (h : hand) (st : feature_fill) : Option feature_fill :=
  (List.range 5).foldlM
    (fun st j =>
      if ¬ (st.i < FVN) then none
      else if hj : j < 5 then
        some (((st.put (h ⟨j, hj⟩).direction.x).put (h ⟨j, hj⟩).direction.y).put
          (h ⟨j, hj⟩).direction.z)
      else none)
    st

/-- The third loop of the constructor: the distance between each finger and the next;
`distance_to` stands for `Leap::Vector::distanceTo`, which the sources do not define. -/
def fill_distances (distance_to : vec3 → vec3 → ℚ) (h : hand) (st : feature_fill) :
    Option feature_fill :=
  (List.range 4).foldlM
    (fun st j =>
      if ¬ (st.i < FVN) then none
      else if hj : j + 1 < 5 then
        some (st.put (distance_to (h ⟨j, by omega⟩).position (h ⟨j + 1, hj⟩).position))
      else none)
    st

/-- The fourth loop of the constructor: the difference between the positions of each finger
and the next. -/
def fill_differences (h : hand) (st : feature_fill) : Option feature_fill :=
  (List.range 4).foldlM
    (fun st j =>
      if ¬ (st.i < FVN) then none
      else if hj : j + 1 < 5 then
        let dir := vec3.sub (h ⟨j, by omega⟩).position (h ⟨j + 1, hj⟩).position
        some (((st.put dir.x).put dir.y).put dir.z)
      else none)
    st

/-- The constructor `feature_vector (const hand &h)`, run on an array whose entries are
`init` (the constructor leaves them uninitialised): the four loops, `i` starting at 0, and the
final assertion `i == size ()`. -/
def of_hand (distance_to : vec3 → vec3 → ℚ) (init : feature_vector) (h : hand) :
    Option feature_fill :=
  match fill_velocities h { data := init, i := 0, assigned := [] } with
  | none => none
  | some st1 =>
    match fill_directions h st1 with
    | none => none
    | some st2 =>
      match fill_distances distance_to h st2 with
      | none => none
      | some st3 =>
        match fill_differences h st3 with
        | none => none
        | some st4 => if st4.i = FVN then some st4 else none

/-- The assignments `data ()[i++] = v` for the values of a list, in order. -/
def put_all (st : feature_fill) (vs : List ℚ) : feature_fill :=
  vs.foldl put st

end feature_fill

namespace hand_position_classifier

end hand_position_classifier

namespace feature_fill

/-- The values the constructor assigns, in the order of its four loops. -/
def hand_values (distance_to : vec3 → vec3 → ℚ) (h : hand) : List ℚ :=
  (List.finRange 5).flatMap (fun j => [(h j).velocity.x, (h j).velocity.y, (h j).velocity.z])
  ++ (List.finRange 5).flatMap (fun j => [(h j).direction.x, (h j).direction.y, (h j).direction.z])
  ++ (List.finRange 4).map
      (fun j => distance_to (h j.castSucc).position (h j.succ).position)
  ++ (List.finRange 4).flatMap
      (fun j =>
        [(vec3.sub (h j.castSucc).position (h j.succ).position).x,
         (vec3.sub (h j.castSucc).position (h j.succ).position).y,
         (vec3.sub (h j.castSucc).position (h j.succ).position).z])

end feature_fill

namespace hand_position_classifier

end hand_position_classifier

namespace feature_fill

/-- A hand whose finger `j` is at `(j², 0, 0)`, with velocity `(j, j+1, j+2)` and direction
`(0, -1, j)`. -/
def axis_hand : hand := fun j =>
  { position := { x := (j.val : ℚ) * (j.val : ℚ), y := 0, z := 0 },
    velocity := { x := (j.val : ℚ), y := (j.val : ℚ) + 1, z := (j.val : ℚ) + 2 },
    direction := { x := 0, y := -1, z := (j.val : ℚ) } }

/-- The sum of the absolute coordinate differences, which is the Euclidean distance of two
points that differ in one coordinate only. -/
def axis_distance (a b : vec3) : ℚ :=
  |a.x - b.x| + |a.y - b.y| + |a.z - b.z|

end feature_fill

namespace hand_position_classifier

end hand_position_classifier

/-! ## The eviction loop on an ordered window -/

namespace sliding_time_window

variable {T : Type}

/-- On an empty window the loop body never runs. -/
theorem update_loop_nil (ts D fuel : Nat) (s : List T) :
    update_loop ts fuel ⟨D, [], s⟩ = some ⟨D, [], s⟩ := by
  cases fuel <;> simp [update_loop]

/-- One iteration of the loop on a window whose back entry is `(b, y)`. -/
theorem update_loop_concat (ts D fuel b : Nat) (L : List Nat) (S : List T) (y : T)
    (hlen : S.length = L.length) :
    update_loop ts (fuel + 1) ⟨D, L ++ [b], S ++ [y]⟩ =
      if ts < b then none
      else if D < ts - b then update_loop ts fuel ⟨D, L, S⟩
      else some ⟨D, L ++ [b], S ++ [y]⟩ := by
  simp [update_loop, hlen]

theorem kept_all (ts D : Nat) (l : List Nat) (s : List T) (h : ∀ t ∈ l, ts - t ≤ D) :
    kept ts D l s = l.zip s := by
  unfold kept
  rw [List.filter_eq_self]
  rintro ⟨t, y⟩ hp
  simpa using h t (List.of_mem_zip hp).1

theorem kept_concat_old (ts D b : Nat) (L : List Nat) (S : List T) (y : T)
    (hlen : S.length = L.length) (hb : D < ts - b) :
    kept ts D (L ++ [b]) (S ++ [y]) = kept ts D L S := by
  unfold kept
  rw [List.zip_append hlen.symm, List.filter_append]
  simp
  omega

/-- With enough fuel, on a window whose timestamps decrease strictly from front to back and do
not exceed `ts`, the loop succeeds and keeps exactly the entries of age at most `D`. -/
theorem update_loop_sorted (ts D : Nat) :
    ∀ (fuel : Nat) (l : List Nat) (s : List T), s.length = l.length →
      l.Pairwise (fun a b => a > b) → (∀ t ∈ l, t ≤ ts) → l.length ≤ fuel →
      update_loop ts fuel ⟨D, l, s⟩ =
        some ⟨D, (kept ts D l s).map Prod.fst, (kept ts D l s).map Prod.snd⟩ := by
  intro fuel
  induction fuel with
  | zero =>
    intro l s hlen _ _ hfuel
    have hl : l = [] := List.length_eq_zero.mp (Nat.le_zero.mp hfuel)
    subst hl
    have hs : s = [] := List.length_eq_zero.mp (by simpa using hlen)
    subst hs
    simp [update_loop, kept]
  | succ fuel ih =>
    intro l s hlen hsorted hle hfuel
    rcases List.eq_nil_or_concat l with hl | ⟨L, b, hl⟩
    · subst hl
      have hs : s = [] := List.length_eq_zero.mp (by simpa using hlen)
      subst hs
      simp [update_loop, kept]
    · rw [List.concat_eq_append] at hl
      subst hl
      rcases List.eq_nil_or_concat s with hs | ⟨S, y, hs⟩
      · subst hs
        simp at hlen
      · rw [List.concat_eq_append] at hs
        subst hs
        have hlen2 : S.length = L.length := by simpa using hlen
        have hb : b ≤ ts := hle b (by simp)
        rw [update_loop_concat ts D fuel b L S y hlen2, if_neg (Nat.not_lt.mpr hb)]
        rw [List.pairwise_append] at hsorted
        by_cases hold : D < ts - b
        · rw [if_pos hold, kept_concat_old ts D b L S y hlen2 hold]
          refine ih L S hlen2 hsorted.1 (fun t ht => hle t (by simp [ht])) ?_
          simpa using hfuel
        · rw [if_neg hold]
          have hall : ∀ t ∈ L ++ [b], ts - t ≤ D := by
            intro t ht
            rcases List.mem_append.mp ht with h | h
            · have : t > b := hsorted.2.2 t h b (by simp)
              omega
            · have : t = b := by simpa using h
              omega
          rw [kept_all ts D _ _ hall]
          have h1 : (L ++ [b]).length ≤ (S ++ [y]).length := by simp [hlen2]
          have h2 : (S ++ [y]).length ≤ (L ++ [b]).length := by simp [hlen2]
          rw [List.map_fst_zip _ _ h1, List.map_snd_zip _ _ h2]

theorem update_sorted (ts : Nat) (w : sliding_time_window T)
    (hlen : w.samples.length = w.timestamps.length)
    (hsorted : w.timestamps.Pairwise (fun a b => a > b)) (hle : ∀ t ∈ w.timestamps, t ≤ ts) :
    update ts w =
      some ⟨w.duration, (kept ts w.duration w.timestamps w.samples).map Prod.fst,
        (kept ts w.duration w.timestamps w.samples).map Prod.snd⟩ :=
  update_loop_sorted ts w.duration w.timestamps.length w.timestamps w.samples hlen hsorted hle
    (Nat.le_refl _)

theorem kept_map_fst (ts D : Nat) (l : List Nat) (s : List T) (hlen : s.length = l.length) :
    (kept ts D l s).map Prod.fst = l.filter (fun t => decide (ts - t ≤ D)) := by
  unfold kept
  have h : (fun p : Nat × T => decide (ts - p.1 ≤ D)) =
      (fun t => decide (ts - t ≤ D)) ∘ Prod.fst := rfl
  rw [h, ← List.filter_map, List.map_fst_zip _ _ (by omega)]

end sliding_time_window

namespace sliding_time_window

variable {T : Type}

theorem mem_kept_fst (ts D : Nat) (l : List Nat) (s : List T) (t : Nat)
    (h : t ∈ (kept ts D l s).map Prod.fst) : t ∈ l ∧ ts - t ≤ D := by
  obtain ⟨p, hp, rfl⟩ := List.mem_map.mp h
  unfold kept at hp
  rw [List.mem_filter] at hp
  exact ⟨(List.of_mem_zip hp.1).1, by simpa using hp.2⟩

theorem kept_fst_pairwise (ts D : Nat) (l : List Nat) (s : List T)
    (hlen : s.length = l.length) (h : l.Pairwise (fun a b => a > b)) :
    ((kept ts D l s).map Prod.fst).Pairwise (fun a b => a > b) := by
  rw [kept_map_fst ts D l s hlen]
  exact List.Pairwise.filter _ h

/-- On an ordered window, `add_sample` with a timestamp above every held one succeeds: it keeps
the entries of age at most `duration` and puts the new entry at the front. -/
theorem add_sample_sorted (ts : Nat) (x : T) (w : sliding_time_window T)
    (hlen : w.samples.length = w.timestamps.length)
    (hsorted : w.timestamps.Pairwise (fun a b => a > b)) (hlt : ∀ t ∈ w.timestamps, t < ts) :
    add_sample ts x w =
      some ⟨w.duration, ts :: (kept ts w.duration w.timestamps w.samples).map Prod.fst,
        x :: (kept ts w.duration w.timestamps w.samples).map Prod.snd⟩ := by
  unfold add_sample
  rw [update_sorted ts w hlen hsorted (fun t ht => Nat.le_of_lt (hlt t ht))]
  have hne : ((kept ts w.duration w.timestamps w.samples).map Prod.fst).head? ≠ some ts := by
    intro h
    have hmem := List.mem_of_mem_head? h
    have := hlt ts (mem_kept_fst _ _ _ _ _ hmem).1
    omega
  dsimp only
  rw [if_neg (not_not.mpr (Or.inr hne))]

theorem add_sample_ordered (ts : Nat) (x : T) (w : sliding_time_window T) (hw : ordered w)
    (hlt : ∀ t ∈ w.timestamps, t < ts) :
    ∃ w1, add_sample ts x w = some w1 ∧ ordered w1 ∧ w1.duration = w.duration ∧
      w1.timestamps.head? = some ts ∧ ∀ t ∈ w1.timestamps, t = ts ∨ t ∈ w.timestamps := by
  refine ⟨_, add_sample_sorted ts x w hw.1 hw.2.1 hlt, ⟨?_, ?_, ?_⟩, rfl, rfl, ?_⟩
  · simp
  · refine List.pairwise_cons.mpr ⟨?_, kept_fst_pairwise _ _ _ _ hw.1 hw.2.1⟩
    intro t ht
    exact hlt t (mem_kept_fst _ _ _ _ _ ht).1
  · intro f hf t ht
    have hf2 : ts = f := by simpa using hf
    subst hf2
    rcases List.mem_cons.mp ht with h | h
    · subst h
      simp
    · exact (mem_kept_fst _ _ _ _ _ h).2
  · intro t ht
    rcases List.mem_cons.mp ht with h | h
    · exact Or.inl h
    · exact Or.inr (mem_kept_fst _ _ _ _ _ h).1

theorem ordered_mk_empty (T : Type) (D : Nat) : ordered (mk_empty T D) := by
  simp [ordered, mk_empty]

/-- A run of calls with strictly increasing timestamps, all above the held ones, never fails;
it ends in an ordered window whose front is the last timestamp passed. -/
theorem add_samples_ordered :
    ∀ (calls : List (Nat × T)) (w : sliding_time_window T), ordered w →
      (calls.map Prod.fst).Pairwise (fun a b => a < b) →
      (∀ c ∈ calls, ∀ t ∈ w.timestamps, t < c.1) →
      ∃ w1, add_samples calls w = some w1 ∧ ordered w1 ∧ w1.duration = w.duration ∧
        (∀ c ∈ calls.getLast?, w1.timestamps.head? = some c.1) := by
  intro calls
  induction calls with
  | nil =>
    intro w hw _ _
    exact ⟨w, rfl, hw, rfl, by simp⟩
  | cons c rest ih =>
    intro w hw hinc habove
    obtain ⟨ts, x⟩ := c
    rw [List.map_cons, List.pairwise_cons] at hinc
    obtain ⟨w1, h1, ho1, hd1, hh1, hm1⟩ :=
      add_sample_ordered ts x w hw (fun t ht => habove (ts, x) (by simp) t ht)
    have habove1 : ∀ c ∈ rest, ∀ t ∈ w1.timestamps, t < c.1 := by
      intro c hc t ht
      rcases hm1 t ht with h | h
      · subst h
        exact hinc.1 c.1 (List.mem_map_of_mem Prod.fst hc)
      · exact habove c (by simp [hc]) t h
    obtain ⟨w2, h2, ho2, hd2, hh2⟩ := ih w1 ho1 hinc.2 habove1
    refine ⟨w2, ?_, ho2, hd2.trans hd1, ?_⟩
    · simp [add_samples, h1, h2]
    · intro c hc
      cases rest with
      | nil =>
        simp [add_samples] at h2
        subst h2
        simp at hc
        subst hc
        exact hh1
      | cons d rest2 =>
        rw [List.getLast?_cons_cons] at hc
        exact hh2 c hc

/-- A window built from empty by calls with strictly increasing timestamps. -/
theorem add_samples_from_empty (D : Nat) (calls : List (Nat × T))
    (hinc : (calls.map Prod.fst).Pairwise (fun a b => a < b)) :
    ∃ w, add_samples calls (mk_empty T D) = some w ∧ ordered w ∧ w.duration = D ∧
      (∀ c ∈ calls.getLast?, w.timestamps.head? = some c.1) := by
  obtain ⟨w, h, ho, hd, hh⟩ :=
    add_samples_ordered calls (mk_empty T D) (ordered_mk_empty T D) hinc (by simp [mk_empty])
  exact ⟨w, h, ho, hd, hh⟩

theorem ordered_le_front (w : sliding_time_window T) (hw : ordered w) (f : Nat)
    (hf : w.timestamps.head? = some f) : ∀ t ∈ w.timestamps, t ≤ f := by
  intro t ht
  cases hts : w.timestamps with
  | nil => simp [hts] at hf
  | cons a l =>
    rw [hts] at hf ht
    have hsorted := hw.2.1
    rw [hts, List.pairwise_cons] at hsorted
    have ha : a = f := by simpa using hf
    subst ha
    rcases List.mem_cons.mp ht with h | h
    · exact Nat.le_of_eq h
    · exact Nat.le_of_lt (hsorted.1 t h)

end sliding_time_window

namespace sliding_time_window

variable {T : Type}

theorem ordered_length_le (w : sliding_time_window T) (hw : ordered w) :
    w.timestamps.length ≤ w.duration + 1 := by
  cases hts : w.timestamps with
  | nil => simp
  | cons f l =>
    have hsorted := hw.2.1
    have hage := hw.2.2 f (by simp [hts])
    have hle := ordered_le_front w hw f (by simp [hts])
    rw [hts] at hsorted hage hle
    have hnodup : (f :: l).Nodup :=
      List.Pairwise.imp (fun h => Nat.ne_of_gt h) hsorted
    have hsub : (f :: l).toFinset ⊆ Finset.Icc (f - w.duration) f := by
      intro t ht
      rw [List.mem_toFinset] at ht
      have h1 := hage t ht
      have h2 := hle t ht
      rw [Finset.mem_Icc]
      omega
    have hcard := Finset.card_le_card hsub
    rw [List.toFinset_card_of_nodup hnodup, Nat.card_Icc] at hcard
    omega

theorem update_ordered_front (w : sliding_time_window T) (hw : ordered w) (f : Nat)
    (hf : w.timestamps.head? = some f) : update f w = some w := by
  have hle := ordered_le_front w hw f hf
  rw [update_sorted f w hw.1 hw.2.1 hle, kept_all f w.duration _ _ (hw.2.2 f hf),
    List.map_fst_zip _ _ (Nat.le_of_eq hw.1.symm), List.map_snd_zip _ _ (Nat.le_of_eq hw.1)]

/-- The loop never needs more iterations than there are timestamps: any larger fuel gives the
same result. -/
theorem update_loop_fuel (ts : Nat) :
    ∀ (fuel : Nat) (w : sliding_time_window T), w.timestamps.length ≤ fuel →
      update_loop ts fuel w = update ts w := by
  intro fuel
  induction fuel with
  | zero =>
    intro w h
    unfold update
    rw [Nat.le_zero.mp h]
  | succ fuel ih =>
    intro w h
    rcases List.eq_nil_or_concat w.timestamps with hl | ⟨L, b, hl⟩
    · unfold update
      rw [hl]
      simp [update_loop, hl]
    · rw [List.concat_eq_append] at hl
      have hlen : w.timestamps.length = L.length + 1 := by simp [hl]
      have hlast : w.timestamps.getLast? = some b := by simp [hl]
      have hdrop : w.timestamps.dropLast = L := by simp [hl]
      unfold update
      rw [hlen]
      simp only [update_loop, hlast, hdrop]
      have h1 := ih { w with timestamps := L, samples := w.samples.dropLast }
        (by simp only; omega)
      unfold update at h1
      simp only at h1
      rw [h1]

/-- One iteration of `update` on a window whose back timestamp is `b`. -/
theorem update_back (ts b : Nat) (w : sliding_time_window T)
    (hb : w.timestamps.getLast? = some b) :
    update ts w =
      if w.samples.length ≠ w.timestamps.length then none
      else if ¬ (ts ≥ b) then none
      else if ts - b > w.duration then
        update ts { w with timestamps := w.timestamps.dropLast, samples := w.samples.dropLast }
      else some w := by
  obtain ⟨L, hl⟩ := List.getLast?_eq_some_iff.mp hb
  have hlen : w.timestamps.length = L.length + 1 := by simp [hl]
  have hdrop : w.timestamps.dropLast = L := by simp [hl]
  have hrec := update_loop_fuel ts L.length
    { w with timestamps := w.timestamps.dropLast, samples := w.samples.dropLast }
    (by simp [hdrop])
  conv_lhs => unfold update
  rw [hlen]
  simp only [update_loop, hb]
  rw [hrec]
  simp only [hlen]

/-- Whatever the window, when the loop returns, the duration is unchanged and the back
timestamp that is left, if any, does not exceed `ts`. -/
theorem update_loop_some (ts : Nat) :
    ∀ (fuel : Nat) (w u : sliding_time_window T), update_loop ts fuel w = some u →
      u.duration = w.duration ∧ ∀ b ∈ u.timestamps.getLast?, b ≤ ts := by
  intro fuel
  induction fuel with
  | zero =>
    intro w u h
    unfold update_loop at h
    split at h
    · rename_i hempty
      injection h with h
      subst h
      refine ⟨rfl, ?_⟩
      intro b hb
      rw [List.isEmpty_iff.mp hempty] at hb
      simp at hb
    · exact absurd h (by simp)
  | succ fuel ih =>
    intro w u h
    unfold update_loop at h
    split at h
    · rename_i hnone
      injection h with h
      subst h
      refine ⟨rfl, ?_⟩
      intro b hb
      rw [hnone] at hb
      simp at hb
    · rename_i back hback
      split at h
      · exact absurd h (by simp)
      · split at h
        · exact absurd h (by simp)
        · rename_i hge
          split at h
          · have h3 := ih _ _ h
            exact h3
          · injection h with h
            subst h
            refine ⟨rfl, ?_⟩
            intro b hb
            rw [hback] at hb
            have : back = b := by simpa using hb
            subst this
            exact not_not.mp hge

theorem add_sample_some (ts : Nat) (x : T) (w w1 : sliding_time_window T)
    (h : add_sample ts x w = some w1) :
    ∃ u, update ts w = some u ∧
      w1 = { u with timestamps := ts :: u.timestamps, samples := x :: u.samples } := by
  unfold add_sample at h
  split at h
  · exact absurd h (by simp)
  · rename_i u hu
    split at h
    · exact absurd h (by simp)
    · injection h with h
      exact ⟨u, hu, h.symm⟩

/-- C1: on a window whose timestamps decrease strictly from front to back and are all smaller
than `ts`, `add_sample (ts, x)` succeeds; the new window has `(ts, x)` at the front, followed by
exactly the previous entries `(t, s)` with `ts - t <= duration`, in their previous order (the
pop-from-the-back loop is a filter on age), and an entry of age exactly `duration` is kept. -/
theorem add_sample_eq_age_filter (w : sliding_time_window T) (ts : Nat) (x : T)
    (hlen : w.samples.length = w.timestamps.length)
    (hsorted : w.timestamps.Pairwise (fun a b => a > b))
    (hlt : ∀ t ∈ w.timestamps, t < ts) :
    ∃ w1, add_sample ts x w = some w1 ∧ w1.duration = w.duration ∧
      w1.samples.length = w1.timestamps.length ∧
      w1.timestamps = ts :: w.timestamps.filter (fun t => decide (ts - t ≤ w.duration)) ∧
      w1.timestamps.zip w1.samples =
        (ts, x) :: (w.timestamps.zip w.samples).filter
          (fun p => decide (ts - p.1 ≤ w.duration)) ∧
      ∀ p ∈ w.timestamps.zip w.samples, ts - p.1 = w.duration →
        p ∈ w1.timestamps.zip w1.samples := by
  have hzip : ((kept ts w.duration w.timestamps w.samples).map Prod.fst).zip
      ((kept ts w.duration w.timestamps w.samples).map Prod.snd) =
      kept ts w.duration w.timestamps w.samples := by
    have h := List.zip_unzip (kept ts w.duration w.timestamps w.samples)
    rwa [List.unzip_eq_map] at h
  refine ⟨_, add_sample_sorted ts x w hlen hsorted hlt, rfl, by simp, ?_, ?_, ?_⟩
  · simp only [kept_map_fst ts w.duration w.timestamps w.samples hlen]
  · simp only [List.zip_cons_cons, hzip]
    rfl
  · intro p hp hage
    simp only [List.zip_cons_cons, hzip]
    refine List.mem_cons_of_mem _ ?_
    unfold kept
    rw [List.mem_filter]
    exact ⟨hp, by simp [hage]⟩

/-- C1 at a concrete window: with duration 10 and timestamps 10, 5, 0, adding at 15 keeps the
entry of age 10, evicts the entry of age 15. -/
theorem add_sample_eq_age_filter_witness :
    ∃ w1, add_sample 15 'd' ⟨10, [10, 5, 0], ['c', 'b', 'a']⟩ = some w1 ∧
      w1.timestamps.zip w1.samples = [(15, 'd'), (10, 'c'), (5, 'b')] := by
  obtain ⟨w1, h1, _, _, _, h5, _⟩ :=
    add_sample_eq_age_filter ⟨10, [10, 5, 0], ['c', 'b', 'a']⟩ 15 'd' (by decide) (by decide)
      (by decide)
  exact ⟨w1, h1, h5.trans (by decide)⟩

/-- C2: for a window of duration `D` built from empty by `add_sample` calls with strictly
increasing timestamps, after each call (the one adding `ts`) no call has failed, `ts` is held,
and every held timestamp `t` satisfies `t <= ts` and `ts - t <= D`. -/
theorem eviction_invariant (D : Nat) (calls : List (Nat × T)) (ts : Nat) (x : T)
    (hinc : ((calls ++ [(ts, x)]).map Prod.fst).Pairwise (fun a b => a < b)) :
    ∃ w, add_samples (calls ++ [(ts, x)]) (mk_empty T D) = some w ∧
      ts ∈ w.timestamps ∧ ∀ t ∈ w.timestamps, t ≤ ts ∧ ts - t ≤ D := by
  obtain ⟨w, h, ho, hd, hh⟩ := add_samples_from_empty D (calls ++ [(ts, x)]) hinc
  have hfront : w.timestamps.head? = some ts := hh (ts, x) (by simp)
  refine ⟨w, h, List.mem_of_mem_head? hfront, fun t ht => ⟨?_, ?_⟩⟩
  · exact ordered_le_front w ho ts hfront t ht
  · rw [← hd]
    exact ho.2.2 ts hfront t ht

/-- C2 at a concrete run: duration 10, calls at 0, 10, 15. -/
theorem eviction_invariant_witness :
    ∃ w, add_samples ([(0, 'a'), (10, 'b')] ++ [(15, 'c')]) (mk_empty Char 10) = some w ∧
      15 ∈ w.timestamps ∧ ∀ t ∈ w.timestamps, t ≤ 15 ∧ 15 - t ≤ 10 :=
  eviction_invariant 10 [(0, 'a'), (10, 'b')] 15 'c' (by decide)

/-- C4: for a window built from empty by at least one `add_sample` call with strictly
increasing timestamps, the last of them being `ts`, a further `add_sample (ts, y)` fails: the
eviction loop run with `ts` leaves the window as it is, so `ts` is still at the front and the
duplicate assertion is false. -/
theorem add_sample_duplicate_fails (D : Nat) (calls : List (Nat × T)) (ts : Nat) (x y : T)
    (hinc : ((calls ++ [(ts, x)]).map Prod.fst).Pairwise (fun a b => a < b)) :
    ∃ w, add_samples (calls ++ [(ts, x)]) (mk_empty T D) = some w ∧
      w.timestamps.head? = some ts ∧ update ts w = some w ∧ add_sample ts y w = none := by
  obtain ⟨w, h, ho, _, hh⟩ := add_samples_from_empty D (calls ++ [(ts, x)]) hinc
  have hfront : w.timestamps.head? = some ts := hh (ts, x) (by simp)
  have hupd := update_ordered_front w ho ts hfront
  refine ⟨w, h, hfront, hupd, ?_⟩
  unfold add_sample
  rw [hupd]
  have hne : w.timestamps.isEmpty = false := by
    cases hts : w.timestamps with
    | nil => simp [hts] at hfront
    | cons a l => rfl
  simp [hfront, hne]

/-- C4 at a concrete run: duration 10, calls at 0, 10, then 10 again. -/
theorem add_sample_duplicate_fails_witness :
    ∃ w, add_samples ([(0, 'a')] ++ [(10, 'b')]) (mk_empty Char 10) = some w ∧
      w.timestamps.head? = some 10 ∧ update 10 w = some w ∧ add_sample 10 'c' w = none :=
  add_sample_duplicate_fails 10 [(0, 'a')] 10 'b' 'c' (by decide)

/-- C3 (as amended): for every non-empty window, `add_sample (ts, x)` fails whenever `ts` is
smaller than the timestamp at the back of the window, the oldest one held; on a window built
in increasing order, a `ts` smaller than the front timestamp but not smaller than the back one
is accepted and put at the front. -/
theorem add_sample_older_than_back_fails :
    (∀ (w : sliding_time_window T) (ts : Nat) (x : T) (b : Nat),
      w.timestamps.getLast? = some b → ts < b → add_sample ts x w = none) ∧
    (∀ (w : sliding_time_window T) (ts : Nat) (x : T) (f b : Nat), ordered w →
      w.timestamps.head? = some f → w.timestamps.getLast? = some b → b ≤ ts → ts < f →
      add_sample ts x w =
        some { w with timestamps := ts :: w.timestamps, samples := x :: w.samples }) := by
  refine ⟨?_, ?_⟩
  · intro w ts x b hb hlt
    unfold add_sample
    rw [update_back ts b w hb]
    by_cases hlen : w.samples.length ≠ w.timestamps.length
    · rw [if_pos hlen]
    · rw [if_neg hlen, if_pos (by omega)]
  · intro w ts x f b hw hf hb hle hlt
    have hage : f - b ≤ w.duration := hw.2.2 f hf b (List.mem_of_mem_getLast? hb)
    have hupd : update ts w = some w := by
      rw [update_back ts b w hb, if_neg (by simp [hw.1]), if_neg (by omega),
        if_neg (by omega)]
    unfold add_sample
    rw [hupd]
    have hne : w.timestamps.head? ≠ some ts := by
      rw [hf]
      intro h
      injection h with h
      omega
    dsimp only
    rw [if_neg (not_not.mpr (Or.inr hne))]

/-- C3 (as amended) at a concrete window: timestamps 10, 1 with duration 100; 0 is older than
the back and fails, 5 lies between back and front and is accepted. -/
theorem add_sample_older_than_back_fails_witness :
    add_sample 0 'c' ⟨100, [10, 1], ['b', 'a']⟩ = none ∧
    add_sample 5 'c' ⟨100, [10, 1], ['b', 'a']⟩ = some ⟨100, [5, 10, 1], ['c', 'b', 'a']⟩ :=
  ⟨add_sample_older_than_back_fails.1 ⟨100, [10, 1], ['b', 'a']⟩ 0 'c' 1 (by decide) (by decide),
    add_sample_older_than_back_fails.2 ⟨100, [10, 1], ['b', 'a']⟩ 5 'c' 10 1 (by decide)
      (by decide) (by decide) (by decide) (by decide)⟩

/-- C3 as stated fails: the window of duration 100 built by adding at 1 and then at 10 has 10
at its front, and `add_sample` at the older timestamp 5 does not fail. -/
theorem add_sample_older_than_front_accepted :
    add_samples [(1, 'a'), (10, 'b')] (mk_empty Char 100) = some ⟨100, [10, 1], ['b', 'a']⟩ ∧
    (⟨100, [10, 1], ['b', 'a']⟩ : sliding_time_window Char).timestamps.head? = some 10 ∧
    5 < 10 ∧
    add_sample 5 'c' ⟨100, [10, 1], ['b', 'a']⟩ = some ⟨100, [5, 10, 1], ['c', 'b', 'a']⟩ := by
  decide

/-- C5: `fullness (ts)` returns 0 on an empty window; on a non-empty window whose oldest
timestamp is `oldest` it returns `(ts - oldest) / duration` (both assertions, `oldest <= ts` and
`duration != 0`, holding); and for a window of duration `D > 0` built from empty by
`add_sample` calls with strictly increasing timestamps, the fullness at the timestamp just
added is returned and lies in `[0, 1]`. -/
theorem fullness_value_and_bounds :
    (∀ (w : sliding_time_window T) (ts : Nat), w.timestamps = [] → fullness ts w = some 0) ∧
    (∀ (w : sliding_time_window T) (ts oldest : Nat), w.timestamps.getLast? = some oldest →
      oldest ≤ ts → w.duration ≠ 0 →
      fullness ts w = some (((ts : ℚ) - (oldest : ℚ)) / (w.duration : ℚ))) ∧
    (∀ (D : Nat) (calls : List (Nat × T)) (ts : Nat) (x : T), 0 < D →
      ((calls ++ [(ts, x)]).map Prod.fst).Pairwise (fun a b => a < b) →
      ∃ w q, add_samples (calls ++ [(ts, x)]) (mk_empty T D) = some w ∧
        fullness ts w = some q ∧ 0 ≤ q ∧ q ≤ 1) := by
  refine ⟨?_, ?_, ?_⟩
  · intro w ts hw
    simp [fullness, hw]
  · intro w ts oldest hlast hle hD
    simp [fullness, hlast, hle, hD]
  · intro D calls ts x hD hinc
    obtain ⟨w, h, ho, hd, hh⟩ := add_samples_from_empty D (calls ++ [(ts, x)]) hinc
    have hfront : w.timestamps.head? = some ts := hh (ts, x) (by simp)
    have hne : w.timestamps ≠ [] := by
      intro h0
      simp [h0] at hfront
    obtain ⟨b, hb⟩ := Option.isSome_iff_exists.mp (List.getLast?_isSome.mpr hne)
    have hmem : b ∈ w.timestamps := List.mem_of_mem_getLast? hb
    have hle : b ≤ ts := ordered_le_front w ho ts hfront b hmem
    have hage : ts - b ≤ D := by
      rw [← hd]
      exact ho.2.2 ts hfront b hmem
    have hDq : (0 : ℚ) < (D : ℚ) := by exact_mod_cast hD
    have hnum : (ts : ℚ) - (b : ℚ) ≤ (D : ℚ) := by
      have : (ts : ℚ) ≤ (D : ℚ) + (b : ℚ) := by exact_mod_cast (by omega : ts ≤ D + b)
      linarith
    have hnum0 : (0 : ℚ) ≤ (ts : ℚ) - (b : ℚ) := by
      have : (b : ℚ) ≤ (ts : ℚ) := by exact_mod_cast hle
      linarith
    refine ⟨w, ((ts : ℚ) - (b : ℚ)) / (D : ℚ), h, ?_, div_nonneg hnum0 hDq.le, ?_⟩
    · simp [fullness, hb, hle, hd, Nat.pos_iff_ne_zero.mp hD]
    · rw [div_le_one hDq]
      exact hnum

/-- C5 at a concrete run: duration 10, calls at 0, 10, 15. -/
theorem fullness_value_and_bounds_witness :
    ∃ w q, add_samples ([(0, 'a'), (10, 'b')] ++ [(15, 'c')]) (mk_empty Char 10) = some w ∧
      fullness 15 w = some q ∧ 0 ≤ q ∧ q ≤ 1 :=
  fullness_value_and_bounds.2.2 10 [(0, 'a'), (10, 'b')] 15 'c' (by decide) (by decide)

/-- C6 (as amended): for every window and every two consecutive `add_sample` calls with
timestamps `t1 < t2`, when the second call evicts nothing (every timestamp held after the first
call is within `duration` of `t2`), both fullness values are returned and the fullness at `t2`
after the second call is at least the fullness at `t1` after the first call. -/
theorem fullness_monotone_without_eviction (w w1 w2 : sliding_time_window T) (t1 t2 : Nat)
    (x1 x2 : T) (h1 : add_sample t1 x1 w = some w1) (h2 : add_sample t2 x2 w1 = some w2)
    (hlt : t1 < t2) (hkeep : ∀ t ∈ w1.timestamps, t2 - t ≤ w.duration) :
    ∃ f1 f2, fullness t1 w1 = some f1 ∧ fullness t2 w2 = some f2 ∧ f1 ≤ f2 := by
  obtain ⟨u, hu, hw1⟩ := add_sample_some t1 x1 w w1 h1
  obtain ⟨hud, hub⟩ := update_loop_some t1 _ w u hu
  have hd1 : w1.duration = w.duration := by rw [hw1]; exact hud
  have ht1 : t1 ∈ w1.timestamps := by rw [hw1]; simp
  have hD : w.duration ≠ 0 := by
    have := hkeep t1 ht1
    omega
  obtain ⟨b, hb⟩ : ∃ b, w1.timestamps.getLast? = some b := by
    rw [hw1]
    exact ⟨_, List.getLast?_cons⟩
  have hbmem : b ∈ w1.timestamps := List.mem_of_mem_getLast? hb
  have hb1 : b ≤ t1 := by
    rw [hw1] at hb
    simp only [List.getLast?_cons, Option.some.injEq] at hb
    cases hlast : u.timestamps.getLast? with
    | none =>
      rw [hlast] at hb
      simp at hb
      omega
    | some c =>
      rw [hlast] at hb
      simp at hb
      subst hb
      exact hub c hlast
  have hage : t2 - b ≤ w1.duration := by rw [hd1]; exact hkeep b hbmem
  obtain ⟨u2, hu2, hw2⟩ := add_sample_some t2 x2 w1 w2 h2
  rw [update_back t2 b w1 hb] at hu2
  have hu2eq : u2 = w1 := by
    split at hu2
    · exact absurd hu2 (by simp)
    · rw [if_neg (by omega), if_neg (by omega)] at hu2
      injection hu2 with hu2
      exact hu2.symm
  subst hu2eq
  have hb2 : w2.timestamps.getLast? = some b := by
    rw [hw2]
    simp [List.getLast?_cons, hb]
  have hDq : (0 : ℚ) < (w.duration : ℚ) := by
    exact_mod_cast Nat.pos_of_ne_zero hD
  refine ⟨((t1 : ℚ) - (b : ℚ)) / (w.duration : ℚ), ((t2 : ℚ) - (b : ℚ)) / (w.duration : ℚ),
    ?_, ?_, ?_⟩
  · simp [fullness, hb, hb1, hd1, hD]
  · have hd2 : w2.duration = w.duration := by rw [hw2]; exact hd1
    simp [fullness, hb2, (by omega : b ≤ t2), hd2, hD]
  · have : (t1 : ℚ) ≤ (t2 : ℚ) := by exact_mod_cast hlt.le
    exact div_le_div_of_nonneg_right (by linarith) hDq.le

/-- C6 (as amended) at a concrete window: duration 10, holding timestamp 0; calls at 4 and 9. -/
theorem fullness_monotone_without_eviction_witness :
    ∃ f1 f2, fullness 4 (⟨10, [4, 0], ['b', 'a']⟩ : sliding_time_window Char) = some f1 ∧
      fullness 9 (⟨10, [9, 4, 0], ['c', 'b', 'a']⟩ : sliding_time_window Char) = some f2 ∧
      f1 ≤ f2 :=
  fullness_monotone_without_eviction ⟨10, [0], ['a']⟩ ⟨10, [4, 0], ['b', 'a']⟩
    ⟨10, [9, 4, 0], ['c', 'b', 'a']⟩ 4 9 'b' 'c' (by decide) (by decide) (by decide)
    (by decide)

/-- C6 as stated fails: with duration 10 and the window holding timestamp 0, the call at 10
gives fullness 1, and the next call at 15 evicts the entry at 0 and gives fullness 1/2. -/
theorem fullness_drops_after_eviction :
    add_sample 10 'b' ⟨10, [0], ['a']⟩ = some ⟨10, [10, 0], ['b', 'a']⟩ ∧
    add_sample 15 'c' ⟨10, [10, 0], ['b', 'a']⟩ = some ⟨10, [15, 10], ['c', 'b']⟩ ∧
    fullness 10 (⟨10, [10, 0], ['b', 'a']⟩ : sliding_time_window Char) = some 1 ∧
    fullness 15 (⟨10, [15, 10], ['c', 'b']⟩ : sliding_time_window Char) = some (1 / 2) ∧
    ¬ ((1 : ℚ) ≤ 1 / 2) := by
  refine ⟨by decide, by decide, ?_, ?_, by norm_num⟩
  · simp [fullness]
  · simp [fullness]
    norm_num

/-- C7: for a window of duration `D` built from empty by any number of `add_sample` calls with
strictly increasing timestamps, no call fails, the two deques have the same length, and the
number of held entries is at most `D + 1`, whatever the number of calls. -/
theorem window_size_bounded (D : Nat) (calls : List (Nat × T))
    (hinc : (calls.map Prod.fst).Pairwise (fun a b => a < b)) :
    ∃ w, add_samples calls (mk_empty T D) = some w ∧
      w.samples.length = w.timestamps.length ∧ w.timestamps.length ≤ D + 1 := by
  obtain ⟨w, h, ho, hd, _⟩ := add_samples_from_empty D calls hinc
  refine ⟨w, h, ho.1, ?_⟩
  rw [← hd]
  exact ordered_length_le w ho

/-- C7 at a concrete run: duration 2, calls at 0, 1, 2, 3, 4. -/
theorem window_size_bounded_witness :
    ∃ w, add_samples [(0, 'a'), (1, 'b'), (2, 'c'), (3, 'd'), (4, 'e')] (mk_empty Char 2)
        = some w ∧
      w.samples.length = w.timestamps.length ∧ w.timestamps.length ≤ 2 + 1 :=
  window_size_bounded 2 [(0, 'a'), (1, 'b'), (2, 'c'), (3, 'd'), (4, 'e')] (by decide)

end sliding_time_window

/-! ## Running statistics: mean and variance from the accumulated moments -/

namespace stats

variable {N : Nat}

theorem update_of_length (v : List ℚ) (s : stats N) (h : v.length = N) :
    update v s = some
      { total := s.total + 1
        u1 := fun i => s.u1 i + v.getD i.val 0
        u2 := fun i => s.u2 i + v.getD i.val 0 * v.getD i.val 0 } := by
  unfold update
  rw [dif_pos h]
  have hget : ∀ i : Fin N, v.get ⟨i.val, h ▸ i.isLt⟩ = v.getD i.val 0 := by
    intro i
    have hi : i.val < v.length := h ▸ i.isLt
    rw [List.getD_eq_getElem v 0 hi]
    rfl
  simp only [hget]

/-- The sum of squared deviations from any `m`, expanded. -/
theorem sum_sq_dev (xs : List ℚ) (m : ℚ) :
    (xs.map (fun x => (x - m) ^ 2)).sum =
      (xs.map (fun x => x * x)).sum - 2 * m * xs.sum + (xs.length : ℚ) * m ^ 2 := by
  induction xs with
  | nil => simp
  | cons x xs ih =>
    simp only [List.map_cons, List.sum_cons, List.length_cons, ih]
    push_cast
    ring

/-- The second moment minus the squared mean is the population variance. -/
theorem moment_identity (xs : List ℚ) (hne : xs ≠ []) :
    (xs.map (fun x => x * x)).sum / (xs.length : ℚ) - (xs.sum / (xs.length : ℚ)) *
      (xs.sum / (xs.length : ℚ)) = population_variance xs := by
  have hn : (xs.length : ℚ) ≠ 0 := by
    have : xs.length ≠ 0 := fun h => hne (List.length_eq_zero.mp h)
    exact_mod_cast this
  unfold population_variance arithmetic_mean
  rw [sum_sq_dev]
  field_simp
  ring

/-- C10 (as amended): on a zero-initialised accumulator that has received no observation,
`variance (i)` fails for every dimension `i` (its assertion compares NaN with NaN), and
`mean (i)` does not fail: it returns the NaN that `0.0 / 0` evaluates to. -/
theorem zero_observations_variance_fails_mean_nan (N : Nat) (i : Fin N) :
    variance (zero N) i = none ∧ mean (zero N) i = double.nan := by
  constructor
  · simp [variance, mean, zero, double.div_count, double.mul, double.ge]
  · simp [mean, zero, double.div_count]

/-- C10 as stated fails: with no observation, `mean (0)` of a one-dimensional zero-initialised
accumulator returns a value, NaN; there is no assertion in `mean` that could fail. -/
theorem mean_zero_observations_returns_nan :
    (zero 1).total = 0 ∧ mean (zero 1) 0 = double.nan := by
  constructor
  · rfl
  · simp [mean, zero, double.div_count]

end stats

/-! ## Finger counter -/

namespace sliding_time_window

variable {T : Type}

/-- After a successful `add_sample (ts, x)` on a window of non-zero duration, the window is not
empty, its back timestamp does not exceed `ts`, and `fullness (ts)` returns. -/
theorem fullness_after_add_sample (w w1 : sliding_time_window T) (ts : Nat) (x : T)
    (h : add_sample ts x w = some w1) (hD : w.duration ≠ 0) :
    ∃ b, w1.timestamps.getLast? = some b ∧ b ≤ ts ∧ w1.duration = w.duration ∧
      fullness ts w1 = some (((ts : ℚ) - (b : ℚ)) / (w.duration : ℚ)) := by
  obtain ⟨u, hu, hw1⟩ := add_sample_some ts x w w1 h
  obtain ⟨hud, hub⟩ := update_loop_some ts _ w u hu
  have hd1 : w1.duration = w.duration := by rw [hw1]; exact hud
  obtain ⟨b, hb⟩ : ∃ b, w1.timestamps.getLast? = some b := by
    rw [hw1]
    exact ⟨_, List.getLast?_cons⟩
  have hb1 : b ≤ ts := by
    rw [hw1] at hb
    simp only [List.getLast?_cons, Option.some.injEq] at hb
    cases hlast : u.timestamps.getLast? with
    | none =>
      rw [hlast] at hb
      simp at hb
      omega
    | some c =>
      rw [hlast] at hb
      simp at hb
      subst hb
      exact hub c hlast
  refine ⟨b, hb, hb1, hd1, ?_⟩
  simp [fullness, hb, hb1, hd1, hD]

/-- When all timestamps, held and to come, lie within one duration of each other, a run of
calls in increasing order evicts nothing: the entries pile up at the front. -/
theorem add_samples_no_eviction (lo : Nat) :
    ∀ (calls : List (Nat × T)) (w : sliding_time_window T), ordered w →
      (calls.map Prod.fst).Pairwise (fun a b => a < b) →
      (∀ p ∈ calls, ∀ t ∈ w.timestamps, t < p.1) → (∀ t ∈ w.timestamps, lo ≤ t) →
      (∀ p ∈ calls, lo ≤ p.1 ∧ p.1 ≤ lo + w.duration) →
      add_samples calls w =
        some ⟨w.duration, (calls.map Prod.fst).reverse ++ w.timestamps,
          (calls.map Prod.snd).reverse ++ w.samples⟩ := by
  intro calls
  induction calls with
  | nil =>
    intro w _ _ _ _ _
    simp [add_samples]
  | cons c rest ih =>
    intro w hw hinc habove hlo hspan
    obtain ⟨ts, x⟩ := c
    rw [List.map_cons, List.pairwise_cons] at hinc
    have hlt : ∀ t ∈ w.timestamps, t < ts := fun t ht => habove (ts, x) (by simp) t ht
    have hall : ∀ t ∈ w.timestamps, ts - t ≤ w.duration := by
      intro t ht
      have h1 := hlo t ht
      have h2 := (hspan (ts, x) (by simp)).2
      simp only at h2
      omega
    have hadd := add_sample_sorted ts x w hw.1 hw.2.1 hlt
    rw [kept_all ts w.duration _ _ hall, List.map_fst_zip _ _ (Nat.le_of_eq hw.1.symm),
      List.map_snd_zip _ _ (Nat.le_of_eq hw.1)] at hadd
    obtain ⟨w1, h1, ho1, _, _, _⟩ := add_sample_ordered ts x w hw hlt
    rw [hadd] at h1
    injection h1 with h1
    rw [← h1] at ho1
    simp only [add_samples, hadd]
    rw [ih _ ho1 hinc.2]
    · simp
    · intro p hp t ht
      rcases List.mem_cons.mp ht with h | h
      · rw [h]
        exact hinc.1 p.1 (List.mem_map_of_mem Prod.fst hp)
      · exact habove p (by simp [hp]) t h
    · intro t ht
      rcases List.mem_cons.mp ht with h | h
      · rw [h]
        exact (hspan (ts, x) (by simp)).1
      · exact hlo t h
    · intro p hp
      exact hspan p (by simp [hp])

end sliding_time_window

namespace finger_counter

open sliding_time_window

/-- The constant `0.85f` is the binary fraction 7130317/8388608, slightly above 85/100; on
the window of 200000 microseconds, whose fullness values are multiples of 1/200000, comparing
with either gives the same answer. -/
theorem fullness_threshold_exact (k : Nat) :
    ((k : ℚ) / 200000 > 85 / 100) ↔ ((k : ℚ) / 200000 > 7130317 / 8388608) := by
  constructor
  · intro h
    have h1 : (170000 : ℚ) < (k : ℚ) := by
      have := (lt_div_iff₀ (by norm_num : (0 : ℚ) < 200000)).mp h
      linarith
    have h2 : 170000 < k := by exact_mod_cast h1
    have h3 : (170001 : ℚ) ≤ (k : ℚ) := by exact_mod_cast h2
    rw [gt_iff_lt, lt_div_iff₀ (by norm_num : (0 : ℚ) < 200000)]
    linarith
  · intro h
    exact lt_trans (by norm_num) h

theorem count_equal_eq_count (s : List Nat) (c : Nat) : count_equal s c = s.count c := by
  have h : ∀ (l : List Nat) (acc : Nat),
      l.foldl (fun total i => if i = c then total + 1 else total) acc = acc + l.count c := by
    intro l
    induction l with
    | nil => simp
    | cons a l ih =>
      intro acc
      simp only [List.foldl_cons, ih, List.count_cons]
      by_cases ha : a = c
      · simp [ha]
        omega
      · simp [ha]
  unfold count_equal
  rw [h]
  simp

/-- What one `update` does, given that the window accepts the sample. -/
theorem update_of_add_sample (mode : List Nat → Nat) (fc : finger_counter) (ts raw : Nat)
    (W : sliding_time_window Nat) (hadd : add_sample ts raw fc.w = some W)
    (hD : fc.w.duration ≠ 0) :
    ∃ fc1 f, update mode ts raw fc = some fc1 ∧ fc1.w = W ∧ fullness ts W = some f ∧
      get_count fc1 =
        if f > 85 / 100 ∧
            ((W.samples.count (mode W.samples) : ℚ) / (W.samples.length : ℚ)) ≥ 8 / 10
        then mode W.samples else get_count fc := by
  obtain ⟨b, hb, _, _, hf⟩ := fullness_after_add_sample fc.w W ts raw hadd hD
  obtain ⟨u, _, hW⟩ := add_sample_some ts raw fc.w W hadd
  have hpos : W.samples.length > 0 := by
    rw [hW]
    simp
  have hupd : update mode ts raw fc = some
      (if ((ts : ℚ) - (b : ℚ)) / (fc.w.duration : ℚ) > 85 / 100 ∧
          ((W.samples.count (mode W.samples) : ℚ) / (W.samples.length : ℚ)) ≥ 8 / 10
        then { w := W, current_count := mode W.samples }
        else { w := W, current_count := fc.current_count }) := by
    unfold update
    simp only [hadd, hf, FINGER_COUNTER_WINDOW_FULLNESS, FINGER_COUNTER_CERTAINTY,
      get_samples, count_equal_eq_count]
    by_cases hfull :
        ((ts : ℚ) - (b : ℚ)) / (fc.w.duration : ℚ) > 85 / 100
    · rw [if_pos hfull, if_neg (not_not.mpr hpos)]
      by_cases hcert :
          ((W.samples.count (mode W.samples) : ℚ) / (W.samples.length : ℚ)) < 8 / 10
      · rw [if_pos hcert, if_neg (fun h => absurd h.2 (not_le.mpr hcert))]
      · rw [if_neg hcert, if_pos ⟨hfull, not_lt.mp hcert⟩]
    · rw [if_neg hfull, if_neg (fun h => hfull h.1)]
  refine ⟨_, _, hupd, ?_, hf, ?_⟩
  · split <;> rfl
  · unfold get_count
    split <;> rfl

theorem kept_snd_sublist (ts D : Nat) (l : List Nat) (s : List Nat)
    (hlen : s.length = l.length) : ((kept ts D l s).map Prod.snd).Sublist s := by
  have h1 : ((kept ts D l s).map Prod.snd).Sublist ((l.zip s).map Prod.snd) :=
    List.Sublist.map Prod.snd (List.filter_sublist (l.zip s))
  rwa [List.map_snd_zip _ _ (Nat.le_of_eq hlen)] at h1

/-- What the runs below keep true between calls: the window is ordered, its duration is not
zero, and the calls still to come have strictly increasing timestamps above the held ones. -/
theorem update_ordered_step (mode : List Nat → Nat) (fc : finger_counter) (ts raw : Nat)
    (rest : List (Nat × Nat)) (ho : ordered fc.w) (hD : fc.w.duration ≠ 0)
    (hinc : (((ts, raw) :: rest).map Prod.fst).Pairwise (fun a b => a < b))
    (habove : ∀ p ∈ (ts, raw) :: rest, ∀ t ∈ fc.w.timestamps, t < p.1) :
    ∃ fc1 f, update mode ts raw fc = some fc1 ∧
      (ordered fc1.w ∧ fc1.w.duration ≠ 0 ∧ (rest.map Prod.fst).Pairwise (fun a b => a < b) ∧
        ∀ p ∈ rest, ∀ t ∈ fc1.w.timestamps, t < p.1) ∧
      fc1.w.samples.Sublist (raw :: fc.w.samples) ∧ fc1.w.samples ≠ [] ∧
      fullness ts fc1.w = some f ∧ (0 < f → 2 ≤ fc1.w.samples.length) ∧
      get_count fc1 =
        if f > 85 / 100 ∧
            ((fc1.w.samples.count (mode fc1.w.samples) : ℚ) / (fc1.w.samples.length : ℚ))
              ≥ 8 / 10
        then mode fc1.w.samples else get_count fc := by
  have hlt : ∀ t ∈ fc.w.timestamps, t < ts := fun t ht => habove (ts, raw) (by simp) t ht
  have hadd := add_sample_sorted ts raw fc.w ho.1 ho.2.1 hlt
  obtain ⟨W, hW, hoW, hdW, hhW, hmW⟩ := add_sample_ordered ts raw fc.w ho hlt
  obtain ⟨fc1, f, hupd, hw, hf, hcount⟩ := update_of_add_sample mode fc ts raw W hW hD
  rw [List.map_cons, List.pairwise_cons] at hinc
  have hWeq : W = ⟨fc.w.duration,
      ts :: (kept ts fc.w.duration fc.w.timestamps fc.w.samples).map Prod.fst,
      raw :: (kept ts fc.w.duration fc.w.timestamps fc.w.samples).map Prod.snd⟩ := by
    rw [hadd] at hW
    injection hW with hW
    exact hW.symm
  refine ⟨fc1, f, hupd, ⟨?_, ?_, hinc.2, ?_⟩, ?_, ?_, ?_, ?_, ?_⟩
  · rw [hw]; exact hoW
  · rw [hw, hdW]; exact hD
  · intro p hp t ht
    rw [hw] at ht
    rcases hmW t ht with h | h
    · subst h
      exact hinc.1 p.1 (List.mem_map_of_mem Prod.fst hp)
    · exact habove p (by simp [hp]) t h
  · rw [hw, hWeq]
    exact List.Sublist.cons₂ raw (kept_snd_sublist ts _ _ _ ho.1)
  · rw [hw, hWeq]
    simp
  · rw [hw]; exact hf
  · intro hpos
    rw [hw]
    by_contra hlen
    have hK : (kept ts fc.w.duration fc.w.timestamps fc.w.samples) = [] := by
      rw [hWeq] at hlen
      simp only [List.length_cons, List.length_map] at hlen
      exact List.length_eq_zero.mp (by omega)
    have hf0 : fullness ts W = some 0 := by
      rw [hWeq, hK]
      simp [fullness, hD]
    rw [hf0] at hf
    injection hf with hf
    rw [← hf] at hpos
    exact absurd hpos (lt_irrefl 0)
  · rw [hw]; exact hcount

/-- Induction over a run of `update` calls: a property of the state and of the calls still to
come that every call re-establishes holds at the end, and no call fails. -/
theorem updates_invariant (mode : List Nat → Nat)
    (Inv : finger_counter → List (Nat × Nat) → Prop)
    (hstep : ∀ fc ts raw rest, Inv fc ((ts, raw) :: rest) →
      ∃ fc1, update mode ts raw fc = some fc1 ∧ Inv fc1 rest) :
    ∀ (calls : List (Nat × Nat)) (fc : finger_counter), Inv fc calls →
      ∃ fc1, updates mode calls fc = some fc1 ∧ Inv fc1 [] := by
  intro calls
  induction calls with
  | nil =>
    intro fc h
    exact ⟨fc, rfl, h⟩
  | cons p rest ih =>
    intro fc h
    obtain ⟨ts, raw⟩ := p
    obtain ⟨fc1, h1, hinv1⟩ := hstep fc ts raw rest h
    obtain ⟨fc2, h2, hinv2⟩ := ih fc1 hinv1
    refine ⟨fc2, ?_, hinv2⟩
    simp [updates, h1, h2]

theorem updates_append (mode : List Nat → Nat) :
    ∀ (a b : List (Nat × Nat)) (fc fc1 : finger_counter), updates mode a fc = some fc1 →
      updates mode (a ++ b) fc = updates mode b fc1 := by
  intro a
  induction a with
  | nil =>
    intro b fc fc1 h
    simp [updates] at h
    subst h
    rfl
  | cons p rest ih =>
    intro b fc fc1 h
    obtain ⟨ts, raw⟩ := p
    simp only [List.cons_append, updates] at h ⊢
    cases hu : update mode ts raw fc with
    | none => simp [hu] at h
    | some fc2 =>
      simp only [hu] at h ⊢
      exact ih b fc2 fc1 h

/-- A value accepted by the certainty test on a window of at least two counts occurs at least
twice in it. -/
theorem certain_count_ge_two (S : List Nat) (m : Nat) (hlen : 2 ≤ S.length)
    (hcert : ((S.count m : ℚ) / (S.length : ℚ)) ≥ 8 / 10) : 2 ≤ S.count m := by
  have hpos : (0 : ℚ) < (S.length : ℚ) := by
    have : 0 < S.length := by omega
    exact_mod_cast this
  have h1 : (8 / 10 : ℚ) * (S.length : ℚ) ≤ (S.count m : ℚ) := by
    have := (le_div_iff₀ hpos).mp hcert
    linarith
  have h2 : (2 : ℚ) ≤ (S.length : ℚ) := by exact_mod_cast hlen
  have h3 : (1 : ℚ) < (S.count m : ℚ) := by linarith
  have h4 : 1 < S.count m := by exact_mod_cast h3
  omega

/-- The state kept true along a run in which every raw count is `c` or `d` and `d` is passed
at most once: the window holds only `c` and `d`, `d` at most once counting the calls still to
come, and the debounced count is the sentinel or `c`. -/
theorem outlier_step (mode : List Nat → Nat) (c d : Nat) (fc : finger_counter) (ts raw : Nat)
    (rest : List (Nat × Nat)) (ho : ordered fc.w) (hD : fc.w.duration ≠ 0)
    (hinc : (((ts, raw) :: rest).map Prod.fst).Pairwise (fun a b => a < b))
    (habove : ∀ p ∈ (ts, raw) :: rest, ∀ t ∈ fc.w.timestamps, t < p.1)
    (hwin : ∀ x ∈ fc.w.samples, x = c ∨ x = d)
    (hcalls : ∀ p ∈ (ts, raw) :: rest, p.2 = c ∨ p.2 = d)
    (hone : fc.w.samples.count d + (((ts, raw) :: rest).map Prod.snd).count d ≤ 1)
    (hcur : get_count fc = unknown_count ∨ get_count fc = c) :
    ∃ fc1, update mode ts raw fc = some fc1 ∧
      (ordered fc1.w ∧ fc1.w.duration ≠ 0 ∧ (rest.map Prod.fst).Pairwise (fun a b => a < b) ∧
        ∀ p ∈ rest, ∀ t ∈ fc1.w.timestamps, t < p.1) ∧
      (∀ x ∈ fc1.w.samples, x = c ∨ x = d) ∧ (∀ p ∈ rest, p.2 = c ∨ p.2 = d) ∧
      fc1.w.samples.count d + (rest.map Prod.snd).count d ≤ 1 ∧
      (get_count fc1 = unknown_count ∨ get_count fc1 = c) := by
  obtain ⟨fc1, f, hupd, hbase, hsub, _, _, hlen2, hcount⟩ :=
    update_ordered_step mode fc ts raw rest ho hD hinc habove
  have hraw : raw = c ∨ raw = d := hcalls (ts, raw) (by simp)
  have hmem : ∀ x ∈ fc1.w.samples, x = c ∨ x = d := by
    intro x hx
    rcases List.mem_cons.mp (hsub.subset hx) with h | h
    · rw [h]; exact hraw
    · exact hwin x h
  have hcnt : fc1.w.samples.count d + (rest.map Prod.snd).count d ≤ 1 := by
    have h1 := hsub.count_le d
    simp only [List.map_cons, List.count_cons] at hone h1
    omega
  refine ⟨fc1, hupd, hbase, hmem, fun p hp => hcalls p (by simp [hp]), hcnt, ?_⟩
  rw [hcount]
  split
  · rename_i hcond
    right
    have hfpos : (0 : ℚ) < f := lt_trans (by norm_num) hcond.1
    have h2 := certain_count_ge_two fc1.w.samples _ (hlen2 hfpos) hcond.2
    have hin : mode fc1.w.samples ∈ fc1.w.samples :=
      List.count_pos_iff.mp (by omega)
    rcases hmem _ hin with h | h
    · exact h
    · rw [h] at h2
      omega
  · exact hcur

theorem ordered_new : ordered new.w ∧ new.w.duration ≠ 0 := by
  refine ⟨ordered_mk_empty Nat FINGER_COUNTER_WINDOW_DURATION, ?_⟩
  simp [new, mk_empty, FINGER_COUNTER_WINDOW_DURATION]

/-- A run from a new counter in which every raw count is `c` or `d`, `d` passed at most once,
never fails and ends with the sentinel or `c` as debounced count. -/
theorem outlier_run (mode : List Nat → Nat) (c d : Nat) (calls : List (Nat × Nat))
    (hinc : (calls.map Prod.fst).Pairwise (fun a b => a < b))
    (hcalls : ∀ p ∈ calls, p.2 = c ∨ p.2 = d) (hone : (calls.map Prod.snd).count d ≤ 1) :
    ∃ fc1, updates mode calls new = some fc1 ∧
      (get_count fc1 = unknown_count ∨ get_count fc1 = c) := by
  obtain ⟨fc1, h, hinv⟩ := updates_invariant mode
    (fun fc calls => ordered fc.w ∧ fc.w.duration ≠ 0 ∧
      (calls.map Prod.fst).Pairwise (fun a b => a < b) ∧
      (∀ p ∈ calls, ∀ t ∈ fc.w.timestamps, t < p.1) ∧
      (∀ x ∈ fc.w.samples, x = c ∨ x = d) ∧ (∀ p ∈ calls, p.2 = c ∨ p.2 = d) ∧
      fc.w.samples.count d + (calls.map Prod.snd).count d ≤ 1 ∧
      (get_count fc = unknown_count ∨ get_count fc = c))
    (by
      intro fc ts raw rest ⟨ho, hD, hi, ha, hw, hc, h1, hcur⟩
      obtain ⟨fc1, hupd, ⟨a1, a2, a3, a4⟩, a5, a6, a7, a8⟩ :=
        outlier_step mode c d fc ts raw rest ho hD hi ha hw hc h1 hcur
      exact ⟨fc1, hupd, a1, a2, a3, a4, a5, a6, a7, a8⟩)
    calls new
    ⟨ordered_new.1, ordered_new.2, hinc, by simp [new, mk_empty], by simp [new, mk_empty],
      hcalls, by simpa [new, mk_empty] using hone, Or.inl rfl⟩
  exact ⟨fc1, h, hinv.2.2.2.2.2.2.2⟩

/-- C11: `update (ts, raw)` first appends `(ts, raw)` to the window, giving `W` (and fails if
the window rejects the sample); then `fullness (ts)` is returned, and `get_count ()` is the
mode `m` of `W` if that fullness exceeds 0.85 and (occurrences of `m` in `W`) / |`W`| is at
least 0.8, and otherwise exactly what it was before the call. -/
theorem update_gate (mode : List Nat → Nat) (fc : finger_counter) (ts raw : Nat)
    (hD : fc.w.duration ≠ 0) :
    (add_sample ts raw fc.w = none → update mode ts raw fc = none) ∧
    (∀ W, add_sample ts raw fc.w = some W →
      ∃ fc1 f, update mode ts raw fc = some fc1 ∧ fc1.w = W ∧ fullness ts W = some f ∧
        get_count fc1 =
          if f > 85 / 100 ∧
              ((W.samples.count (mode W.samples) : ℚ) / (W.samples.length : ℚ)) ≥ 8 / 10
          then mode W.samples else get_count fc) := by
  refine ⟨?_, ?_⟩
  · intro h
    unfold update
    rw [h]
  · intro W hW
    exact update_of_add_sample mode fc ts raw W hW hD

/-- C11 at a concrete state: the window of duration 200000 holds counts 3, 3 at 100000 and 0,
and the call is `update (180000, 3)`. -/
theorem update_gate_witness :
    ∃ fc1 f, update first_mode 180000 3 ⟨⟨200000, [100000, 0], [3, 3]⟩, unknown_count⟩
        = some fc1 ∧
      fc1.w = ⟨200000, [180000, 100000, 0], [3, 3, 3]⟩ ∧
      fullness 180000 (⟨200000, [180000, 100000, 0], [3, 3, 3]⟩ : sliding_time_window Nat)
        = some f ∧
      get_count fc1 =
        if f > 85 / 100 ∧
            ((([3, 3, 3] : List Nat).count (first_mode [3, 3, 3]) : ℚ) /
              (([3, 3, 3] : List Nat).length : ℚ)) ≥ 8 / 10
        then first_mode [3, 3, 3] else unknown_count :=
  (update_gate first_mode ⟨⟨200000, [100000, 0], [3, 3]⟩, unknown_count⟩ 180000 3
    (by decide)).2 ⟨200000, [180000, 100000, 0], [3, 3, 3]⟩ (by decide)

/-- C14: a newly constructed `finger_counter` returns the all-ones `unsigned`, 2^32 - 1, from
`get_count ()`, and whatever timestamp and raw count its first `update` is passed (and
whatever `mode` computes), that call does not fail, leaves a one-entry window of fullness 0,
and `get_count ()` still returns 2^32 - 1. -/
theorem first_update_keeps_unknown (mode : List Nat → Nat) (ts raw : Nat) :
    get_count new = 4294967295 ∧
    ∃ fc1, update mode ts raw new = some fc1 ∧ fc1.w.timestamps = [ts] ∧
      fc1.w.samples = [raw] ∧ fullness ts fc1.w = some 0 ∧ get_count fc1 = 4294967295 := by
  have hadd : add_sample ts raw new.w = some ⟨FINGER_COUNTER_WINDOW_DURATION, [ts], [raw]⟩ := by
    simp [new, mk_empty, add_sample, sliding_time_window.update, update_loop]
  have hf : fullness ts (⟨FINGER_COUNTER_WINDOW_DURATION, [ts], [raw]⟩ :
      sliding_time_window Nat) = some 0 := by
    simp [fullness, FINGER_COUNTER_WINDOW_DURATION]
  refine ⟨by decide, ⟨⟨FINGER_COUNTER_WINDOW_DURATION, [ts], [raw]⟩, new.current_count⟩, ?_,
    rfl, rfl, hf, rfl⟩
  unfold update
  simp only [hadd, hf, FINGER_COUNTER_WINDOW_FULLNESS]
  rw [if_neg (by norm_num)]

theorem constant_step (mode : List Nat → Nat) (hmode : is_mode mode) (c : Nat)
    (Q : Nat → Prop) (hQ : Q c) (fc : finger_counter) (ts raw : Nat) (rest : List (Nat × Nat))
    (h : constant_run_state c Q fc ((ts, raw) :: rest)) :
    ∃ fc1 f, update mode ts raw fc = some fc1 ∧ constant_run_state c Q fc1 rest ∧
      fullness ts fc1.w = some f ∧ (f > 85 / 100 → get_count fc1 = c) ∧
      (get_count fc1 = get_count fc ∨ get_count fc1 = c) := by
  obtain ⟨ho, hD, hinc, habove, hwin, hcalls, hq⟩ := h
  obtain ⟨fc1, f, hupd, ⟨b1, b2, b3, b4⟩, hsub, hne, hf, _, hcount⟩ :=
    update_ordered_step mode fc ts raw rest ho hD hinc habove
  have hraw : raw = c := hcalls (ts, raw) (by simp)
  have hall : ∀ x ∈ fc1.w.samples, x = c := by
    intro x hx
    rcases List.mem_cons.mp (hsub.subset hx) with h | h
    · rw [h]; exact hraw
    · exact hwin x h
  have hm : mode fc1.w.samples = c := hall _ (hmode _ hne).1
  have hcnt : fc1.w.samples.count c = fc1.w.samples.length :=
    List.count_eq_length.mpr (fun x hx => (hall x hx).symm)
  have hpos : (fc1.w.samples.length : ℚ) ≠ 0 := by
    have : fc1.w.samples.length ≠ 0 := fun h0 => hne (List.length_eq_zero.mp h0)
    exact_mod_cast this
  have hcert : ((fc1.w.samples.count (mode fc1.w.samples) : ℚ) /
      (fc1.w.samples.length : ℚ)) ≥ 8 / 10 := by
    rw [hm, hcnt, div_self hpos]
    norm_num
  have hval : get_count fc1 = if f > 85 / 100 then c else get_count fc := by
    rw [hcount]
    by_cases hfull : f > 85 / 100
    · rw [if_pos ⟨hfull, hcert⟩, if_pos hfull, hm]
    · rw [if_neg (fun h => hfull h.1), if_neg hfull]
  refine ⟨fc1, f, hupd, ⟨b1, b2, b3, b4, hall, fun p hp => hcalls p (by simp [hp]), ?_⟩, hf,
    ?_, ?_⟩
  · rw [hval]
    split
    · exact hQ
    · exact hq
  · intro hfull
    rw [hval, if_pos hfull]
  · rw [hval]
    split
    · exact Or.inr rfl
    · exact Or.inl rfl

/-- A run of calls all passing `c`, followed by further such calls `suffix`, does not fail and
keeps `constant_run_state`. -/
theorem constant_run (mode : List Nat → Nat) (hmode : is_mode mode) (c : Nat)
    (Q : Nat → Prop) (hQ : Q c) (suffix calls : List (Nat × Nat)) (fc : finger_counter)
    (h : constant_run_state c Q fc (calls ++ suffix)) :
    ∃ fc1, updates mode calls fc = some fc1 ∧ constant_run_state c Q fc1 suffix := by
  obtain ⟨fc1, h1, hinv⟩ := updates_invariant mode
    (fun fc calls => constant_run_state c Q fc (calls ++ suffix))
    (by
      intro fc ts raw rest hst
      obtain ⟨fc1, _, hupd, hst1, _⟩ :=
        constant_step mode hmode c Q hQ fc ts raw (rest ++ suffix) hst
      exact ⟨fc1, hupd, hst1⟩)
    calls fc h
  exact ⟨fc1, h1, hinv⟩

theorem update_window (mode : List Nat → Nat) (fc fc1 : finger_counter) (ts raw : Nat)
    (h : update mode ts raw fc = some fc1) : add_sample ts raw fc.w = some fc1.w := by
  unfold update at h
  split at h
  · exact absurd h (by simp)
  · rename_i w1 hw1
    rw [hw1]
    split at h
    · exact absurd h (by simp)
    · split at h
      · simp only at h
        split at h
        · exact absurd h (by simp)
        · split at h <;>
          · injection h with h
            rw [← h]
      · injection h with h
        rw [← h]

/-- The window of a counter after a run is the window-level run of the same calls. -/
theorem updates_window (mode : List Nat → Nat) :
    ∀ (calls : List (Nat × Nat)) (fc fc1 : finger_counter), updates mode calls fc = some fc1 →
      add_samples calls fc.w = some fc1.w := by
  intro calls
  induction calls with
  | nil =>
    intro fc fc1 h
    simp [updates] at h
    subst h
    rfl
  | cons p rest ih =>
    intro fc fc1 h
    obtain ⟨ts, raw⟩ := p
    simp only [updates] at h
    cases hu : update mode ts raw fc with
    | none => simp [hu] at h
    | some fc2 =>
      simp only [hu] at h
      simp only [add_samples, update_window mode fc fc2 ts raw hu]
      exact ih fc2 fc1 h

theorem is_mode_first_mode : is_mode first_mode := by
  intro l hl
  have hsome : ∃ m, l.argmax (fun x => l.count x) = some m := by
    cases h : l.argmax (fun x => l.count x) with
    | none => exact absurd (List.argmax_eq_none.mp h) hl
    | some m => exact ⟨m, rfl⟩
  obtain ⟨m, hm⟩ := hsome
  have hval : first_mode l = m := by
    unfold first_mode
    rw [hm]
    rfl
  rw [hval]
  refine ⟨List.argmax_mem hm, ?_⟩
  intro x
  by_cases hx : x ∈ l
  · exact List.le_of_mem_argmax hx hm
  · rw [List.count_eq_zero.mpr hx]
    exact Nat.zero_le _

theorem constant_run_state_new (c : Nat) (calls : List (Nat × Nat))
    (hinc : (calls.map Prod.fst).Pairwise (fun a b => a < b)) (hall : ∀ p ∈ calls, p.2 = c) :
    constant_run_state c (fun n => n = unknown_count ∨ n = c) new calls :=
  ⟨ordered_new.1, ordered_new.2, hinc, by simp [new, mk_empty], by simp [new, mk_empty], hall,
    Or.inl rfl⟩

/-- A run of calls all passing `c` from a new counter, split at one of its calls. -/
theorem constant_run_split (mode : List Nat → Nat) (hmode : is_mode mode) (c : Nat)
    (pre post : List (Nat × Nat)) (ts : Nat)
    (hinc : ((pre ++ (ts, c) :: post).map Prod.fst).Pairwise (fun a b => a < b))
    (hall : ∀ p ∈ pre ++ (ts, c) :: post, p.2 = c) :
    ∃ fc1 f fc2, updates mode (pre ++ [(ts, c)]) new = some fc1 ∧
      fullness ts fc1.w = some f ∧
      updates mode (pre ++ (ts, c) :: post) new = some fc2 ∧
      (get_count fc2 = unknown_count ∨ get_count fc2 = c) ∧
      (f > 85 / 100 → get_count fc1 = c ∧ get_count fc2 = c) := by
  obtain ⟨fc0, h0, hst0⟩ := constant_run mode hmode c (fun n => n = unknown_count ∨ n = c)
    (Or.inr rfl) ((ts, c) :: post) pre new (constant_run_state_new c _ hinc hall)
  obtain ⟨fc1, f, hupd, hst1, hf, hfull, _⟩ :=
    constant_step mode hmode c _ (Or.inr rfl) fc0 ts c post hst0
  obtain ⟨fc2, h2, hst2⟩ := constant_run mode hmode c (fun n => n = unknown_count ∨ n = c)
    (Or.inr rfl) [] post fc1 (by rw [List.append_nil]; exact hst1)
  have hrun1 : updates mode (pre ++ [(ts, c)]) new = some fc1 := by
    rw [updates_append mode pre [(ts, c)] new fc0 h0]
    simp [updates, hupd]
  have hrun2 : updates mode (pre ++ (ts, c) :: post) new = some fc2 := by
    rw [updates_append mode pre ((ts, c) :: post) new fc0 h0]
    simp [updates, hupd, h2]
  refine ⟨fc1, f, fc2, hrun1, hf, hrun2, hst2.2.2.2.2.2.2, ?_⟩
  intro hgt
  have hc1 : get_count fc1 = c := hfull hgt
  refine ⟨hc1, ?_⟩
  obtain ⟨ho, hD, hi, ha, hw, hc, _⟩ := hst1
  obtain ⟨fc3, h3, hst3⟩ := constant_run mode hmode c (fun n => n = c) rfl [] post fc1
    (by
      rw [List.append_nil]
      exact ⟨ho, hD, hi, ha, hw, hc, hc1⟩)
  rw [h2] at h3
  injection h3 with h3
  rw [h3]
  exact hst3.2.2.2.2.2.2

theorem hundred_frames_increasing :
    (hundred_frames.map Prod.fst).Pairwise (fun a b => a < b) := by
  unfold hundred_frames
  rw [List.map_map, List.pairwise_map]
  refine (List.pairwise_lt_range 100).imp ?_
  intro a b hab
  simp only [Function.comp]
  omega

theorem hundred_frames_span : ∀ p ∈ hundred_frames, 0 ≤ p.1 ∧ p.1 ≤ 0 + 200000 ∧ p.2 = 3 := by
  intro p hp
  unfold hundred_frames at hp
  obtain ⟨i, hi, rfl⟩ := List.mem_map.mp hp
  rw [List.mem_range] at hi
  refine ⟨Nat.zero_le _, ?_, rfl⟩
  show 2000 * i ≤ 0 + 200000
  omega

/-- C12: for every raw count `c` and every run of `update` calls from a new counter at
strictly increasing timestamps that all pass `c`, no call fails, `get_count ()` is the sentinel
or `c` throughout, and from the first call at which the fullness exceeds 0.85 on, `get_count ()`
is `c` (`mode` being a statistical mode); and 100 frames with count 3 spaced 2000 microseconds
apart end with `get_count () == 3`. -/
theorem constant_count_reported :
    (∀ (mode : List Nat → Nat), is_mode mode → ∀ (c : Nat) (pre post : List (Nat × Nat))
      (ts : Nat), ((pre ++ (ts, c) :: post).map Prod.fst).Pairwise (fun a b => a < b) →
      (∀ p ∈ pre ++ (ts, c) :: post, p.2 = c) →
      ∃ fc1 f fc2, updates mode (pre ++ [(ts, c)]) new = some fc1 ∧
        fullness ts fc1.w = some f ∧
        updates mode (pre ++ (ts, c) :: post) new = some fc2 ∧
        (get_count fc2 = unknown_count ∨ get_count fc2 = c) ∧
        (f > 85 / 100 → get_count fc1 = c ∧ get_count fc2 = c)) ∧
    (∀ (mode : List Nat → Nat), is_mode mode →
      ∃ fc, updates mode hundred_frames new = some fc ∧ get_count fc = 3) := by
  refine ⟨?_, ?_⟩
  · intro mode hmode c pre post ts hinc hall
    exact constant_run_split mode hmode c pre post ts hinc hall
  · intro mode hmode
    have hsplit : hundred_frames =
        (List.range 99).map (fun i => (2000 * i, 3)) ++ [(198000, 3)] := by
      decide
    have hinc := hundred_frames_increasing
    have hall : ∀ p ∈ hundred_frames, p.2 = 3 := fun p hp => (hundred_frames_span p hp).2.2
    rw [hsplit] at hinc hall
    obtain ⟨fc1, f, _, h1, hf, _, _, hgt⟩ := constant_run_split mode hmode 3
      ((List.range 99).map (fun i => (2000 * i, 3))) [] 198000 hinc hall
    rw [← hsplit] at h1
    have hw := updates_window mode hundred_frames new fc1 h1
    rw [add_samples_no_eviction 0 hundred_frames new.w ordered_new.1 hundred_frames_increasing
      (by simp [new, mk_empty]) (by simp [new, mk_empty])
      (fun p hp => ⟨(hundred_frames_span p hp).1, (hundred_frames_span p hp).2.1⟩)] at hw
    injection hw with hw
    have hlast : fc1.w.timestamps.getLast? = some 0 := by
      rw [← hw]
      decide
    have hdur : fc1.w.duration = 200000 := by
      rw [← hw]
      rfl
    have hfval : f = 198000 / 200000 := by
      simp only [fullness, hlast, hdur] at hf
      norm_num at hf
      rw [← hf]
      norm_num
    refine ⟨fc1, h1, (hgt ?_).1⟩
    rw [hfval]
    norm_num

/-- C12 at a concrete run: counts 5, 5, 5 at 0, 100000, 190000, split at the last call. -/
theorem constant_count_reported_witness :
    ∃ fc1 f fc2, updates first_mode ([(0, 5), (100000, 5)] ++ [(190000, 5)]) new = some fc1 ∧
      fullness 190000 fc1.w = some f ∧
      updates first_mode ([(0, 5), (100000, 5)] ++ (190000, 5) :: []) new = some fc2 ∧
      (get_count fc2 = unknown_count ∨ get_count fc2 = 5) ∧
      (f > 85 / 100 → get_count fc1 = 5 ∧ get_count fc2 = 5) :=
  constant_count_reported.1 first_mode is_mode_first_mode 5 [(0, 5), (100000, 5)] [] 190000
    (by decide) (by decide)

/-- C13: in a run of `update` calls at strictly increasing timestamps from a new counter, in
which every raw count is `c` except exactly one frame whose count is `d`, with `d` different
from `c` and from the sentinel, no call fails and after every call (after the first `k`, for
every `k`) `get_count ()` is the sentinel or `c` and is not `d`; this holds for every frame
spacing and for every function `mode`, so however ties are broken. -/
theorem single_outlier_never_reported (mode : List Nat → Nat) (c d : Nat)
    (calls : List (Nat × Nat)) (k : Nat) (hdc : d ≠ c) (hds : d ≠ unknown_count)
    (hinc : (calls.map Prod.fst).Pairwise (fun a b => a < b))
    (hcalls : ∀ p ∈ calls, p.2 = c ∨ p.2 = d) (hone : (calls.map Prod.snd).count d = 1) :
    ∃ fc1, updates mode (calls.take k) new = some fc1 ∧
      (get_count fc1 = unknown_count ∨ get_count fc1 = c) ∧ get_count fc1 ≠ d := by
  have hsub : (calls.take k).Sublist calls := List.take_sublist k calls
  obtain ⟨fc1, h, hcur⟩ := outlier_run mode c d (calls.take k)
    (List.Pairwise.sublist (hsub.map Prod.fst) hinc)
    (fun p hp => hcalls p (hsub.subset hp))
    (by
      have := (hsub.map Prod.snd).count_le d
      omega)
  refine ⟨fc1, h, hcur, ?_⟩
  rcases hcur with h1 | h1
  · rw [h1]; exact fun h2 => hds h2.symm
  · rw [h1]; exact fun h2 => hdc h2.symm

/-- C13 at a concrete run: counts 3, 7, 3, 3 at 0, 90000, 180000, 190000. -/
theorem single_outlier_never_reported_witness :
    ∃ fc1, updates first_mode
        ([(0, 3), (90000, 7), (180000, 3), (190000, 3)].take 4) new = some fc1 ∧
      (get_count fc1 = unknown_count ∨ get_count fc1 = 3) ∧ get_count fc1 ≠ 7 :=
  single_outlier_never_reported first_mode 3 7 [(0, 3), (90000, 7), (180000, 3), (190000, 3)]
    4 (by decide) (by decide) (by decide) (by decide) (by decide)

end finger_counter

/-! ## Hand shape classifier -/

namespace finger_counter

open sliding_time_window

/-- The first `update` of a new counter. -/
theorem update_new (mode : List Nat → Nat) (ts raw : Nat) :
    update mode ts raw new =
      some ⟨⟨FINGER_COUNTER_WINDOW_DURATION, [ts], [raw]⟩, unknown_count⟩ := by
  have hadd : add_sample ts raw new.w = some ⟨FINGER_COUNTER_WINDOW_DURATION, [ts], [raw]⟩ := by
    simp [new, mk_empty, add_sample, sliding_time_window.update, update_loop]
  have hf : fullness ts (⟨FINGER_COUNTER_WINDOW_DURATION, [ts], [raw]⟩ :
      sliding_time_window Nat) = some 0 := by
    simp [fullness, FINGER_COUNTER_WINDOW_DURATION]
  unfold update
  simp only [hadd, hf, FINGER_COUNTER_WINDOW_FULLNESS]
  rw [if_neg (by norm_num)]
  rfl

end finger_counter

namespace hand_shape_classifier

variable {FC SW : Type}

theorem add_eq (env : hand_shape_env FC SW) (h : hand_shape_classifier FC SW) (ts : Nat)
    (s : hand_sample) (fc1 : FC) (sw1 : SW) (hfc : env.fc_add ts s.length h.fc = some fc1)
    (hsw : env.swhs_add ts s h.swhs = some sw1) :
    add env ts s h = some
      { update env s { h with fc := fc1, swhs := sw1 } with
        changed := decide (h.current ≠ (update env s { h with fc := fc1, swhs := sw1 }).current) }
      := by
  unfold add
  simp only [hfc, hsw]

theorem update_fc (env : hand_shape_env FC SW) (s : hand_sample)
    (h : hand_shape_classifier FC SW) : (update env s h).fc = h.fc := by
  unfold update
  split <;> rfl

theorem add_shape (env : hand_shape_env FC SW) (h : hand_shape_classifier FC SW) (ts : Nat)
    (s : hand_sample) (fc1 : FC) (sw1 : SW) (hfc : env.fc_add ts s.length h.fc = some fc1)
    (hsw : env.swhs_add ts s h.swhs = some sw1) :
    ∃ h1, add env ts s h = some h1 ∧ h1.fc = fc1 ∧
      get_shape h1 =
        match env.fc_get_count fc1 with
        | 0 => hand_shape.zero
        | 1 => hand_shape.pointing
        | 2 => update_finger_count2 env s h.current
        | 3 => hand_shape.unknown
        | 4 => hand_shape.stopping
        | 5 => hand_shape.stopping
        | _ => hand_shape.unknown := by
  refine ⟨_, add_eq env h ts s fc1 sw1 hfc hsw, ?_, ?_⟩
  · exact update_fc env s _
  · simp only [get_shape, update]
    split <;> simp_all

/-- C15: after `add (ts, s)` (the two member calls not failing), `get_shape ()` is determined
by the count `n` that the internal finger counter holds after that frame, whatever the
previous shape: `n = 0` gives `zero`, `n = 1` gives `pointing`, `n = 3` gives `unknown`,
`n = 4` or `n = 5` gives `stopping`, and every `n` above 5 gives `unknown`. -/
theorem shape_from_count (env : hand_shape_env FC SW) (h : hand_shape_classifier FC SW)
    (ts : Nat) (s : hand_sample) (fc1 : FC) (sw1 : SW)
    (hfc : env.fc_add ts s.length h.fc = some fc1)
    (hsw : env.swhs_add ts s h.swhs = some sw1) :
    ∃ h1, add env ts s h = some h1 ∧ h1.fc = fc1 ∧
      (env.fc_get_count fc1 = 0 → get_shape h1 = hand_shape.zero) ∧
      (env.fc_get_count fc1 = 1 → get_shape h1 = hand_shape.pointing) ∧
      (env.fc_get_count fc1 = 3 → get_shape h1 = hand_shape.unknown) ∧
      (env.fc_get_count fc1 = 4 ∨ env.fc_get_count fc1 = 5 →
        get_shape h1 = hand_shape.stopping) ∧
      (5 < env.fc_get_count fc1 → get_shape h1 = hand_shape.unknown) := by
  obtain ⟨h1, hadd, hfc1, hshape⟩ := add_shape env h ts s fc1 sw1 hfc hsw
  refine ⟨h1, hadd, hfc1, ?_, ?_, ?_, ?_, ?_⟩
  · intro hn
    rw [hshape, hn]
  · intro hn
    rw [hshape, hn]
  · intro hn
    rw [hshape, hn]
  · intro hn
    rcases hn with hn | hn <;> rw [hshape, hn]
  · intro hn
    rw [hshape]
    split <;> first | rfl | omega

/-- C15 at a concrete frame: a new classifier over the finger counter of `soma_mouse.h`
receives an empty sample at 0; the counter then holds the sentinel. -/
theorem shape_from_count_witness :
    ∃ h1, add mouse_env 0 []
        (new finger_counter.new (sliding_time_window.mk_empty hand_sample 100000)) = some h1 ∧
      h1.fc = ⟨⟨FINGER_COUNTER_WINDOW_DURATION, [0], [0]⟩, finger_counter.unknown_count⟩ ∧
      (finger_counter.unknown_count = 0 → get_shape h1 = hand_shape.zero) ∧
      (finger_counter.unknown_count = 1 → get_shape h1 = hand_shape.pointing) ∧
      (finger_counter.unknown_count = 3 → get_shape h1 = hand_shape.unknown) ∧
      (finger_counter.unknown_count = 4 ∨ finger_counter.unknown_count = 5 →
        get_shape h1 = hand_shape.stopping) ∧
      (5 < finger_counter.unknown_count → get_shape h1 = hand_shape.unknown) :=
  shape_from_count mouse_env
    (new finger_counter.new (sliding_time_window.mk_empty hand_sample 100000)) 0 []
    ⟨⟨FINGER_COUNTER_WINDOW_DURATION, [0], [0]⟩, finger_counter.unknown_count⟩
    ⟨100000, [0], [[]]⟩ (finger_counter.update_new finger_counter.first_mode 0 0) rfl

/-- C17: for every classifier state and every `add (ts, s)` that does not fail, `has_changed ()`
afterwards is true if and only if `get_shape ()` after the call differs from `get_shape ()`
before the call; and on a newly constructed classifier `get_shape ()` is `unknown` and
`has_changed ()` is false. -/
theorem has_changed_iff_shape_differs :
    (∀ (env : hand_shape_env FC SW) (h h1 : hand_shape_classifier FC SW) (ts : Nat)
      (s : hand_sample), add env ts s h = some h1 →
      (has_changed h1 = true ↔ get_shape h1 ≠ get_shape h)) ∧
    (∀ (fc : FC) (sw : SW), get_shape (new fc sw) = hand_shape.unknown ∧
      has_changed (new fc sw) = false) := by
  refine ⟨?_, fun fc sw => ⟨rfl, rfl⟩⟩
  intro env h h1 ts s hadd
  unfold add at hadd
  split at hadd
  · exact absurd hadd (by simp)
  · split at hadd
    · exact absurd hadd (by simp)
    · injection hadd with hadd
      rw [← hadd]
      simp only [has_changed, get_shape, decide_eq_true_eq]
      exact ⟨fun hne heq => hne heq.symm, fun hne heq => hne heq.symm⟩

/-- C17 at a concrete frame: the first frame of a new classifier over the finger counter of
`soma_mouse.h`. -/
theorem has_changed_iff_shape_differs_witness :
    ∃ h1, add mouse_env 0 []
        (new finger_counter.new (sliding_time_window.mk_empty hand_sample 100000)) = some h1 ∧
      (has_changed h1 = true ↔ get_shape h1 ≠
        get_shape (new finger_counter.new (sliding_time_window.mk_empty hand_sample 100000))) :=
  ⟨_, add_eq mouse_env _ 0 [] _ ⟨100000, [0], [[]]⟩
      (finger_counter.update_new finger_counter.first_mode 0 0) rfl,
    has_changed_iff_shape_differs.1 mouse_env _ _ 0 []
      (add_eq mouse_env _ 0 [] _ ⟨100000, [0], [[]]⟩
        (finger_counter.update_new finger_counter.first_mode 0 0) rfl)⟩

/-- C18: a call of `has_changed ()` or of `get_shape ()` returns the flag or the shape and
leaves the classifier as it was; so two calls of `has_changed ()` in a row, with no `add`
between them, return the same value. -/
theorem accessors_do_not_modify (env : hand_shape_env FC SW)
    (h : hand_shape_classifier FC SW) :
    call env method_call.has_changed h = some (returned.flag h.changed, h) ∧
    call env method_call.get_shape h = some (returned.shape h.current, h) ∧
    ∀ r1 h1 r2 h2, call env method_call.has_changed h = some (r1, h1) →
      call env method_call.has_changed h1 = some (r2, h2) → r1 = r2 ∧ h1 = h ∧ h2 = h := by
  refine ⟨rfl, rfl, ?_⟩
  intro r1 h1 r2 h2 hc1 hc2
  simp only [call, Option.some.injEq, Prod.mk.injEq] at hc1 hc2
  obtain ⟨hr1, hh1⟩ := hc1
  obtain ⟨hr2, hh2⟩ := hc2
  subst hh1
  subst hh2
  exact ⟨hr1.symm.trans hr2, rfl, rfl⟩

/-- C18 at a concrete state: a classifier whose flag is set. -/
theorem accessors_do_not_modify_witness :
    ∃ r1 h1 r2 h2,
      call mouse_env method_call.has_changed
        ⟨finger_counter.new, sliding_time_window.mk_empty hand_sample 100000,
          hand_shape.zero, true⟩ = some (r1, h1) ∧
      call mouse_env method_call.has_changed h1 = some (r2, h2) ∧ r1 = r2 ∧
      r1 = returned.flag true :=
  ⟨returned.flag true, _, returned.flag true, _, rfl, rfl,
    ((accessors_do_not_modify mouse_env
      ⟨finger_counter.new, sliding_time_window.mk_empty hand_sample 100000,
        hand_shape.zero, true⟩).2.2 _ _ _ _ rfl rfl).1, rfl⟩

end hand_shape_classifier

/-! ## Hand position classifier: the accumulated scores -/

namespace hand_position_classifier

theorem mean_of_observed (s : stats FVN) (hs : observed s) (j : Fin FVN) :
    stats.mean s j = double.fin (mean_q s j) := by
  simp [stats.mean, double.div_count, hs.1, mean_q]

theorem variance_of_observed (s : stats FVN) (hs : observed s) (j : Fin FVN) :
    stats.variance s j = some (double.fin (variance_q s j)) := by
  have h := hs.2 j
  unfold stats.variance
  simp only [mean_of_observed s hs j]
  simp only [double.div_count, double.mul, double.ge, double.sub, hs.1, ne_eq,
    not_false_eq_true, if_true]
  rw [if_pos (by simpa using h)]
  rfl

theorem classify_dimension_eq (c : hand_position_classifier) (h : hand_position)
    (s : stats FVN) (hm : c.mhps h = some s) (hs : observed s) (z : feature_vector)
    (l : scores) (j : Fin FVN) :
    classify_dimension c h z l j =
      some (if variance_q s j ≠ 0 then
          scores_sub l h (double.fin
            ((z j - mean_q s j) * (z j - mean_q s j) / (2 * variance_q s j)))
        else l) := by
  unfold classify_dimension
  simp only [hm, mean_of_observed s hs j, variance_of_observed s hs j, double.ne_zero,
    double.sub, double.mul, double.div]
  by_cases hv : variance_q s j = 0
  · simp [hv]
  · have h2 : (2 : ℚ) * variance_q s j ≠ 0 := mul_ne_zero (by norm_num) hv
    simp [hv, h2]

/-- The loop over the dimensions only touches the entry of `h`, from which it subtracts the
terms of the dimensions with non-zero variance, in order. -/
theorem classify_dimensions_fold (c : hand_position_classifier) (h : hand_position)
    (s : stats FVN) (hm : c.mhps h = some s) (hs : observed s) (z : feature_vector) :
    ∀ (js : List (Fin FVN)) (l : scores) (e : Option ℚ), l h = e.map double.fin →
      ∃ l1, js.foldlM (fun l j => classify_dimension c h z l j) l = some l1 ∧
        l1 h = (entry_after e
          ((js.filter (fun j => decide (variance_q s j ≠ 0))).map
            (fun j => (z j - mean_q s j) * (z j - mean_q s j) / (2 * variance_q s j)))).map
              double.fin ∧
        ∀ k, k ≠ h → l1 k = l k := by
  intro js
  induction js with
  | nil =>
    intro l e hl
    exact ⟨l, rfl, by simpa [entry_after] using hl, fun _ _ => rfl⟩
  | cons j js ih =>
    intro l e hl
    rw [List.foldlM_cons, classify_dimension_eq c h s hm hs z l j]
    by_cases hv : variance_q s j = 0
    · simp only [hv, ne_eq, not_true_eq_false, if_false, Option.some_bind, decide_False,
        List.filter_cons_of_neg, Bool.false_eq_true, not_false_eq_true]
      have := ih l e hl
      simpa [hv] using this
    · obtain ⟨l1, h1, h2, h3⟩ := ih
        (scores_sub l h (double.fin
          ((z j - mean_q s j) * (z j - mean_q s j) / (2 * variance_q s j))))
        (some (e.getD 0 - (z j - mean_q s j) * (z j - mean_q s j) / (2 * variance_q s j)))
        (by
          simp only [scores_sub, if_true, hl, Option.map_some']
          cases e <;> simp [double.sub])
      refine ⟨l1, ?_, ?_, ?_⟩
      · simpa [hv] using h1
      · rw [h2]
        simp [hv, entry_after]
      · intro k hk
        rw [h3 k hk]
        simp [scores_sub, hk]

theorem entry_after_append (e : Option ℚ) (a b : List ℚ) :
    entry_after e (a ++ b) = entry_after (entry_after e a) b := by
  simp [entry_after, List.foldl_append]

/-- An entry after its terms: untouched when there is none, otherwise the starting value (0
when absent) minus their sum. -/
theorem entry_after_eq (terms : List ℚ) :
    ∀ e : Option ℚ, entry_after e terms =
      if terms = [] then e else some (e.getD 0 - terms.sum) := by
  induction terms with
  | nil =>
    intro e
    simp [entry_after]
  | cons t ts ih =>
    intro e
    have h1 : entry_after e (t :: ts) = entry_after (some (e.getD 0 - t)) ts := rfl
    rw [h1, ih]
    by_cases hts : ts = []
    · simp [hts]
    · simp only [hts, if_false, List.sum_cons, Option.getD_some, reduceCtorEq]
      congr 1
      ring

/-- The loop over the batch for one label. -/
theorem classify_label_fold (c : hand_position_classifier) (h : hand_position)
    (s : stats FVN) (hm : c.mhps h = some s) (hs : observed s) :
    ∀ (fvs : List feature_vector) (l : scores) (e : Option ℚ), l h = e.map double.fin →
      ∃ l1, classify_label c fvs l h = some l1 ∧
        l1 h = (entry_after e (batch_terms s fvs)).map double.fin ∧
        ∀ k, k ≠ h → l1 k = l k := by
  intro fvs
  induction fvs with
  | nil =>
    intro l e hl
    exact ⟨l, rfl, by simpa [batch_terms, entry_after] using hl, fun _ _ => rfl⟩
  | cons x fvs ih =>
    intro l e hl
    obtain ⟨l1, h1, h2, h3⟩ :=
      classify_dimensions_fold c h s hm hs (zero_movement x) (List.finRange FVN) l e hl
    obtain ⟨l2, g1, g2, g3⟩ := ih l1 _ h2
    refine ⟨l2, ?_, ?_, ?_⟩
    · unfold classify_label at g1 ⊢
      rw [List.foldlM_cons]
      unfold classify_vector
      rw [h1]
      exact g1
    · rw [g2]
      simp only [batch_terms, List.map_cons, List.flatten_cons, entry_after_append,
        likelihood_terms]
    · intro k hk
      rw [g3 k hk, h3 k hk]

/-- The map `l` after the loop over the four labels: each label holds its `label_score`. -/
theorem classify_scores_eq (c : hand_position_classifier) (fvs : List feature_vector)
    (hc : fully_trained c) :
    ∃ l, classify_scores c fvs = some l ∧
      ∀ h, l h = (label_score c fvs h).map double.fin := by
  obtain ⟨s1, m1, o1⟩ := hc hand_position.pointing (by decide)
  obtain ⟨s2, m2, o2⟩ := hc hand_position.clicking (by decide)
  obtain ⟨s3, m3, o3⟩ := hc hand_position.scrolling (by decide)
  obtain ⟨s4, m4, o4⟩ := hc hand_position.centering (by decide)
  obtain ⟨l1, a1, a2, a3⟩ := classify_label_fold c _ s1 m1 o1 fvs (fun _ => none) none rfl
  obtain ⟨l2, b1, b2, b3⟩ := classify_label_fold c _ s2 m2 o2 fvs l1 none
    (by rw [a3 _ (by decide)]; rfl)
  obtain ⟨l3, c1, c2, c3⟩ := classify_label_fold c _ s3 m3 o3 fvs l2 none
    (by rw [b3 _ (by decide), a3 _ (by decide)]; rfl)
  obtain ⟨l4, d1, d2, d3⟩ := classify_label_fold c _ s4 m4 o4 fvs l3 none
    (by rw [c3 _ (by decide), b3 _ (by decide), a3 _ (by decide)]; rfl)
  refine ⟨l4, ?_, ?_⟩
  · unfold classify_scores
    simp only [List.foldlM_cons, List.foldlM_nil, a1, b1, c1, d1, Option.some_bind,
      Option.bind_eq_bind, bind_pure, Option.pure_def]
  · intro h
    cases h with
    | unknown =>
      rw [d3 _ (by decide), c3 _ (by decide), b3 _ (by decide), a3 _ (by decide)]
      simp [label_score]
    | pointing =>
      rw [d3 _ (by decide), c3 _ (by decide), b3 _ (by decide), a2]
      simp [label_score, m1]
    | clicking =>
      rw [d3 _ (by decide), c3 _ (by decide), b2]
      simp [label_score, m2]
    | scrolling =>
      rw [d3 _ (by decide), c2]
      simp [label_score, m3]
    | centering =>
      rw [d2]
      simp [label_score, m4]

theorem batch_terms_sum (s : stats FVN) (fvs : List feature_vector) :
    (batch_terms s fvs).sum =
      (fvs.map (fun x => (likelihood_terms s (zero_movement x)).sum)).sum := by
  unfold batch_terms
  rw [List.sum_flatten, List.map_map]
  rfl

theorem two_point_trained : fully_trained two_point_classifier := by
  intro h hh
  refine ⟨two_point_stats, by simp [two_point_classifier, hh], by decide, ?_⟩
  intro j
  simp only [mean_q, two_point_stats]
  split <;> norm_num

/-- C19: in a classifier whose four labels have statistics with observations, the loops of
`classify` do not fail, and every label `h` that receives a score (an entry of `l`) has
statistics `s` with finite mean and variance in every dimension and holds minus the sum, over
every vector `x` of the batch, motion-zeroed, and every dimension `j` whose variance `v_j` is
not zero, of `(x_j − mean_j)^2 / (2·v_j)`; the dimensions with variance 0 are not in the sum,
and no division has a zero divisor. -/
theorem accumulated_score (c : hand_position_classifier) (fvs : List feature_vector)
    (hc : fully_trained c) :
    ∃ l, classify_scores c fvs = some l ∧ l hand_position.unknown = none ∧
      ∀ h sc, l h = some sc → ∃ s, c.mhps h = some s ∧
        (∀ j, stats.mean s j = double.fin (mean_q s j) ∧
          stats.variance s j = some (double.fin (variance_q s j))) ∧
        sc = double.fin (-(fvs.map (fun x =>
          (((List.finRange FVN).filter (fun j => decide (variance_q s j ≠ 0))).map
            (fun j => (zero_movement x j - mean_q s j) ^ 2 / (2 * variance_q s j))).sum)).sum)
    := by
  obtain ⟨l, hl, hscore⟩ := classify_scores_eq c fvs hc
  refine ⟨l, hl, by rw [hscore]; simp [label_score], ?_⟩
  intro h sc hsc
  rw [hscore] at hsc
  have hne : h ≠ hand_position.unknown := by
    intro hu
    rw [hu] at hsc
    simp [label_score] at hsc
  obtain ⟨s, hm, hs⟩ := hc h hne
  refine ⟨s, hm, fun j => ⟨mean_of_observed s hs j, variance_of_observed s hs j⟩, ?_⟩
  simp only [label_score, hne, if_false, hm] at hsc
  rw [entry_after_eq] at hsc
  by_cases hterms : batch_terms s fvs = []
  · simp [hterms] at hsc
  · simp only [hterms, if_false, Option.map_some', Option.some.injEq, Option.getD_none,
      zero_sub] at hsc
    rw [← hsc, batch_terms_sum]
    simp only [likelihood_terms, pow_two]

/-- C19 at a concrete input: the classifier `two_point_classifier` and a batch of one vector
with all entries 3. -/
theorem accumulated_score_witness :
    ∃ l, classify_scores two_point_classifier [fun _ => 3] = some l ∧
      l hand_position.unknown = none ∧
      ∀ h sc, l h = some sc → ∃ s, two_point_classifier.mhps h = some s ∧
        (∀ j, stats.mean s j = double.fin (mean_q s j) ∧
          stats.variance s j = some (double.fin (variance_q s j))) ∧
        sc = double.fin (-(([fun _ => 3] : List feature_vector).map (fun x =>
          (((List.finRange FVN).filter (fun j => decide (variance_q s j ≠ 0))).map
            (fun j => (zero_movement x j - mean_q s j) ^ 2 / (2 * variance_q s j))).sum)).sum)
    :=
  accumulated_score two_point_classifier [fun _ => 3] two_point_trained

/-- The selection loop over finite entries: the result is finite, at least the starting value
and every entry; it is the starting pair when no entry exceeds the starting value, and
otherwise the first entry that holds the greatest value. -/
theorem best_fold (es : List (hand_position × ℚ)) :
    ∀ (bh : hand_position) (bq : ℚ), ∃ rh rq,
      (es.map (fun e => (e.1, double.fin e.2))).foldl best_step (bh, double.fin bq) =
        (rh, double.fin rq) ∧
      bq ≤ rq ∧ (∀ e ∈ es, e.2 ≤ rq) ∧
      ((rh = bh ∧ rq = bq) ∨
        (bq < rq ∧ ∃ pre post, es = pre ++ (rh, rq) :: post ∧ ∀ e ∈ pre, e.2 < rq)) := by
  induction es with
  | nil =>
    intro bh bq
    exact ⟨bh, bq, rfl, le_refl _, by simp, Or.inl ⟨rfl, rfl⟩⟩
  | cons e es ih =>
    intro bh bq
    obtain ⟨eh, eq⟩ := e
    by_cases hgt : bq < eq
    · obtain ⟨rh, rq, hr, hle, hall, hcase⟩ := ih eh eq
      refine ⟨rh, rq, ?_, le_trans hgt.le hle, ?_, Or.inr ⟨lt_of_lt_of_le hgt hle, ?_⟩⟩
      · simp only [List.map_cons, List.foldl_cons, best_step, double.gt, hgt, decide_True,
          if_true]
        exact hr
      · intro e he
        rcases List.mem_cons.mp he with h | h
        · rw [h]; exact hle
        · exact hall e h
      · rcases hcase with ⟨h1, h2⟩ | ⟨h1, pre, post, h2, h3⟩
        · exact ⟨[], es, by rw [h1, h2]; rfl, by simp⟩
        · refine ⟨(eh, eq) :: pre, post, by rw [h2]; rfl, ?_⟩
          intro e he
          rcases List.mem_cons.mp he with h | h
          · rw [h]; exact h1
          · exact h3 e h
    · obtain ⟨rh, rq, hr, hle, hall, hcase⟩ := ih bh bq
      have heq : eq ≤ bq := not_lt.mp hgt
      refine ⟨rh, rq, ?_, hle, ?_, ?_⟩
      · simp only [List.map_cons, List.foldl_cons, best_step, double.gt, hgt, decide_False,
          Bool.false_eq_true, if_false]
        exact hr
      · intro e he
        rcases List.mem_cons.mp he with h | h
        · rw [h]; exact le_trans heq hle
        · exact hall e h
      · rcases hcase with h1 | ⟨h1, pre, post, h2, h3⟩
        · exact Or.inl h1
        · refine Or.inr ⟨h1, (eh, eq) :: pre, post, by rw [h2]; rfl, ?_⟩
          intro e he
          rcases List.mem_cons.mp he with h | h
          · rw [h]; exact lt_of_le_of_lt heq h1
          · exact h3 e h

theorem entries_of_finite (l : scores) (sc : hand_position → Option ℚ)
    (h : ∀ k, l k = (sc k).map double.fin) :
    entries l = (finite_entries sc).map (fun e => (e.1, double.fin e.2)) := by
  unfold entries finite_entries
  simp only [List.filterMap_cons, List.filterMap_nil, h]
  cases sc hand_position.unknown <;> cases sc hand_position.pointing <;>
    cases sc hand_position.clicking <;> cases sc hand_position.scrolling <;>
    cases sc hand_position.centering <;> rfl

theorem mem_finite_entries (sc : hand_position → Option ℚ) (k : hand_position) (q : ℚ) :
    (k, q) ∈ finite_entries sc ↔ sc k = some q := by
  unfold finite_entries
  rw [List.mem_filterMap]
  constructor
  · rintro ⟨a, _, ha⟩
    cases hsa : sc a with
    | none => simp [hsa] at ha
    | some v =>
      simp only [hsa, Option.map_some', Option.some.injEq, Prod.mk.injEq] at ha
      rw [← ha.1, ← ha.2]
      exact hsa
  · intro hk
    exact ⟨k, by cases k <;> simp, by simp [hk]⟩

theorem finite_entries_sorted (sc : hand_position → Option ℚ) :
    (finite_entries sc).Pairwise (fun a b => rank a.1 < rank b.1) := by
  unfold finite_entries
  refine List.Pairwise.filterMap (R := fun a b => rank a < rank b) _ ?_ (by decide)
  intro a a1 hlt b hb b1 hb1
  cases ha : sc a with
  | none => simp [ha] at hb
  | some v =>
    cases ha1 : sc a1 with
    | none => simp [ha1] at hb1
    | some v1 =>
      simp only [ha, ha1, Option.map_some', Option.mem_def, Option.some.injEq] at hb hb1
      rw [← hb, ← hb1]
      exact hlt

/-- In a list sorted by rank, an entry of smaller rank than a given one stands before it. -/
theorem mem_pre_of_rank_lt (pre post : List (hand_position × ℚ)) (x y : hand_position × ℚ)
    (hsorted : (pre ++ x :: post).Pairwise (fun a b => rank a.1 < rank b.1))
    (hy : y ∈ pre ++ x :: post) (hlt : rank y.1 < rank x.1) : y ∈ pre := by
  rw [List.pairwise_append] at hsorted
  obtain ⟨_, hxs, _⟩ := hsorted
  rw [List.pairwise_cons] at hxs
  rcases List.mem_append.mp hy with h | h
  · exact h
  · rcases List.mem_cons.mp h with h | h
    · rw [h] at hlt
      exact absurd hlt (lt_irrefl _)
    · have := hxs.1 y h
      omega

/-- What `classify` returns, in terms of the finite scores of the labels. -/
theorem classify_eq (c : hand_position_classifier) (fvs : List feature_vector)
    (ts : List Nat) (hc : fully_trained c) :
    ∃ l hp q, classify_scores c fvs = some l ∧
      (∀ h, l h = (label_score c fvs h).map double.fin) ∧
      classify c fvs ts = some (hp, double.fin q) ∧ -2147483648 ≤ q ∧
      (∀ h v, label_score c fvs h = some v → v ≤ q) ∧
      ((hp = hand_position.unknown ∧ q = -2147483648) ∨
        (-2147483648 < q ∧ label_score c fvs hp = some q ∧
          ∀ h v, label_score c fvs h = some v → rank h < rank hp → v < q)) := by
  obtain ⟨l, hl, hscore⟩ := classify_scores_eq c fvs hc
  obtain ⟨rh, rq, hr, hle, hall, hcase⟩ :=
    best_fold (finite_entries (label_score c fvs)) hand_position.unknown (-2147483648)
  refine ⟨l, rh, rq, hl, hscore, ?_, hle, ?_, ?_⟩
  · unfold classify
    rw [hl]
    simp only
    rw [entries_of_finite l _ hscore, hr]
  · intro h v hv
    exact hall (h, v) ((mem_finite_entries _ h v).mpr hv)
  · rcases hcase with h1 | ⟨h1, pre, post, h2, h3⟩
    · exact Or.inl h1
    · refine Or.inr ⟨h1, ?_, ?_⟩
      · apply (mem_finite_entries _ rh rq).mp
        rw [h2]
        simp
      · intro h v hv hrank
        have hmem := (mem_finite_entries _ h v).mpr hv
        have hsorted := finite_entries_sorted (label_score c fvs)
        rw [h2] at hmem hsorted
        exact h3 (h, v) (mem_pre_of_rank_lt pre post (rh, rq) (h, v) hsorted hmem hrank)

theorem zero_movement_rounds (f : feature_vector) :
    ∀ n : Nat, (List.range n).foldl (fun st _ => zero_movement_round st) (f, 0) =
      (fun k => if k.val < 3 * n then 0 else f k, 3 * n) := by
  intro n
  induction n with
  | zero => simp
  | succ n ih =>
    rw [List.range_succ, List.foldl_append, ih]
    simp only [List.foldl_cons, List.foldl_nil, zero_movement_round, array_set]
    refine Prod.ext ?_ (by simp only; omega)
    funext k
    simp only [array_set]
    split_ifs <;> first | rfl | omega

theorem zero_movement_apply (f : feature_vector) (k : Fin FVN) :
    zero_movement f k = if k.val < 15 then 0 else f k := by
  unfold zero_movement
  rw [zero_movement_rounds f 5]

theorem two_point_variance (j : Fin FVN) :
    variance_q two_point_stats j = if j.val = 20 then 1 else 0 := by
  simp only [variance_q, mean_q, two_point_stats]
  split <;> norm_num

theorem two_point_terms (z : feature_vector) :
    likelihood_terms two_point_stats z = [z ⟨20, by decide⟩ * z ⟨20, by decide⟩ / 2] := by
  have hfilter : (List.finRange FVN).filter
      (fun j => decide (variance_q two_point_stats j ≠ 0)) = [⟨20, by decide⟩] := by
    have hp : (fun j : Fin FVN => decide (variance_q two_point_stats j ≠ 0)) =
        (fun j : Fin FVN => decide (j.val = 20)) := by
      funext j
      rw [two_point_variance]
      by_cases hj : j.val = 20 <;> simp [hj]
    rw [hp]
    decide
  have hm : ∀ j, mean_q two_point_stats j = 0 := by
    intro j
    simp [mean_q, two_point_stats]
  unfold likelihood_terms
  rw [hfilter]
  simp only [List.map_cons, List.map_nil, two_point_variance, hm, if_true, sub_zero, mul_one]

theorem two_point_scores (h : hand_position) :
    label_score two_point_classifier [fun _ => 3] h =
      if h = hand_position.unknown then none else some (-(9 / 2)) := by
  unfold label_score
  by_cases hh : h = hand_position.unknown
  · simp [hh]
  · simp only [hh, if_false, two_point_classifier, batch_terms, List.map_cons, List.map_nil,
      List.flatten_cons, List.flatten_nil, List.append_nil, two_point_terms,
      zero_movement_apply]
    simp only [entry_after, List.foldl_cons, List.foldl_nil, Option.getD_none]
    norm_num

/-- C20 (as amended): in a classifier whose four labels have statistics with observations,
for every batch on which some label accumulates a score greater than -2147483648, `classify`
returns a label among pointing, clicking, scrolling, centering that holds the maximum of the
accumulated scores, together with that score; when several labels share the maximum, the one
returned is the earliest of them in the enumeration order. -/
theorem classify_returns_first_maximum (c : hand_position_classifier)
    (fvs : List feature_vector) (ts : List Nat) (hc : fully_trained c)
    (hsome : ∃ l h v, classify_scores c fvs = some l ∧ l h = some (double.fin v) ∧
      -2147483648 < v) :
    ∃ l hp q, classify_scores c fvs = some l ∧ classify c fvs ts = some (hp, double.fin q) ∧
      hp ≠ hand_position.unknown ∧ l hp = some (double.fin q) ∧
      (∀ h sc, l h = some sc → ∃ v, sc = double.fin v ∧ v ≤ q) ∧
      (∀ h v, l h = some (double.fin v) → rank h < rank hp → v < q) := by
  obtain ⟨l, hp, q, hl, hscore, hcl, _, hmax, hcase⟩ := classify_eq c fvs ts hc
  obtain ⟨l0, h0, v0, hl0, hv0, hgt0⟩ := hsome
  rw [hl] at hl0
  injection hl0 with hl0
  subst hl0
  have hfin : ∀ h v, l h = some (double.fin v) → label_score c fvs h = some v := by
    intro h v hv
    rw [hscore] at hv
    cases hls : label_score c fvs h with
    | none => simp [hls] at hv
    | some w =>
      simp only [hls, Option.map_some', Option.some.injEq, double.fin.injEq] at hv
      rw [hv]
  have hq0 : v0 ≤ q := hmax h0 v0 (hfin h0 v0 hv0)
  rcases hcase with ⟨_, h2⟩ | ⟨_, h2, h3⟩
  · rw [h2] at hq0
    exact absurd hgt0 (not_lt.mpr hq0)
  · refine ⟨l, hp, q, hl, hcl, ?_, ?_, ?_, ?_⟩
    · intro hu
      rw [hu] at h2
      simp [label_score] at h2
    · rw [hscore, h2]
      rfl
    · intro h sc hsc
      rw [hscore] at hsc
      cases hls : label_score c fvs h with
      | none => simp [hls] at hsc
      | some w =>
        simp only [hls, Option.map_some', Option.some.injEq] at hsc
        exact ⟨w, hsc.symm, hmax h w hls⟩
    · intro h v hv hrank
      exact h3 h v (hfin h v hv) hrank

/-- C20 (as amended) at a concrete input: in `two_point_classifier` and on the batch of one
vector with all entries 3, every label accumulates -9/2, and `classify` returns the first of
them, pointing, with -9/2. -/
theorem classify_returns_first_maximum_witness :
    classify two_point_classifier [fun _ => 3] [] =
      some (hand_position.pointing, double.fin (-(9 / 2))) := by
  obtain ⟨l0, hl0, hs0⟩ := classify_scores_eq two_point_classifier [fun _ => 3]
    two_point_trained
  have hall : ∀ h, h ≠ hand_position.unknown → l0 h = some (double.fin (-(9 / 2))) := by
    intro h hh
    rw [hs0, two_point_scores, if_neg hh]
    rfl
  obtain ⟨l, hp, q, hl, hcl, hne, hq, _, hfirst⟩ :=
    classify_returns_first_maximum two_point_classifier [fun _ => 3] [] two_point_trained
      ⟨l0, hand_position.pointing, -(9 / 2), hl0, hall _ (by decide), by norm_num⟩
  rw [hl0] at hl
  injection hl with hl
  subst hl
  have hq2 : q = -(9 / 2) := by
    have := hall hp hne
    rw [hq] at this
    injection this with this
    injection this
  have hp2 : hp = hand_position.pointing := by
    by_contra hcon
    have hrank : rank hand_position.pointing < rank hp := by
      cases hp <;> first | exact absurd rfl hne | exact absurd rfl hcon | decide
    have := hfirst hand_position.pointing (-(9 / 2)) (hall _ (by decide)) hrank
    rw [hq2] at this
    exact absurd this (lt_irrefl _)
  rw [hcl, hp2, hq2]

/-- C20 as stated fails: `two_point_classifier` is fully trained, and on the empty batch
`classify` returns `unknown` with -2147483648, not one of the four labels. -/
theorem classify_empty_batch_unknown :
    fully_trained two_point_classifier ∧
    classify two_point_classifier [] [] =
      some (hand_position.unknown, double.fin (-2147483648)) := by
  refine ⟨two_point_trained, ?_⟩
  rfl

end hand_position_classifier

/-! ## Transition frames, untrained classifiers, feature vector length -/

namespace hand_shape_classifier

variable {FC SW : Type}

theorem update_finger_count2_other (env : hand_shape_env FC SW) (s : hand_sample)
    (current : hand_shape) (hs : s.length ≠ 2) :
    update_finger_count2 env s current = current := by
  unfold update_finger_count2
  split
  · exact absurd rfl hs
  · rfl

/-- C26: when the count held by the finger counter after the frame is 2 and the sample passed
to `add` does not hold exactly two fingers, `add` (its two member calls not failing) leaves the
shape exactly as it was before the call, and `has_changed ()` is false after the call. -/
theorem transition_frame_keeps_shape (env : hand_shape_env FC SW)
    (h : hand_shape_classifier FC SW) (ts : Nat) (s : hand_sample) (fc1 : FC) (sw1 : SW)
    (hfc : env.fc_add ts s.length h.fc = some fc1)
    (hsw : env.swhs_add ts s h.swhs = some sw1) (hcount : env.fc_get_count fc1 = 2)
    (hs : s.length ≠ 2) :
    ∃ h1, add env ts s h = some h1 ∧ get_shape h1 = get_shape h ∧ has_changed h1 = false := by
  have hcur : (update env s { h with fc := fc1, swhs := sw1 }).current = h.current := by
    simp only [update, hcount, update_finger_count2_other env s h.current hs]
  refine ⟨_, add_eq env h ts s fc1 sw1 hfc hsw, ?_, ?_⟩
  · exact hcur
  · simp only [has_changed, hcur]
    simp

end hand_shape_classifier

namespace finger_counter

/-- A third frame with a single finger, after two frames with two fingers: the window holds
2, 2, 1 and is nearly full, the mode 2 has certainty 2/3, and the debounced count stays 2. -/
theorem update_transition_frame :
    update first_mode 180000 1 ⟨⟨200000, [100000, 0], [2, 2]⟩, 2⟩ =
      some ⟨⟨200000, [180000, 100000, 0], [1, 2, 2]⟩, 2⟩ := by
  have hadd : sliding_time_window.add_sample 180000 1
      (⟨200000, [100000, 0], [2, 2]⟩ : sliding_time_window Nat) =
      some ⟨200000, [180000, 100000, 0], [1, 2, 2]⟩ := by decide
  have hf : sliding_time_window.fullness 180000 (⟨200000, [180000, 100000, 0], [1, 2, 2]⟩ :
      sliding_time_window Nat) = some (9 / 10) := by
    simp [sliding_time_window.fullness]
    norm_num
  have hm : first_mode [1, 2, 2] = 2 := by decide
  have hc : count_equal [1, 2, 2] 2 = 2 := by decide
  unfold update
  simp only [hadd, hf, FINGER_COUNTER_WINDOW_FULLNESS, FINGER_COUNTER_CERTAINTY,
    sliding_time_window.get_samples, hm, hc]
  norm_num

end finger_counter

namespace hand_shape_classifier

/-- C26 at a concrete frame: over the finger counter of `soma_mouse.h`, whose count is 2, a
frame with a single finger arrives while the shape is `scrolling`. -/
theorem transition_frame_keeps_shape_witness :
    ∃ h1, add mouse_env 180000 [⟨⟨0, 0, 0⟩, ⟨0, 0, 0⟩, ⟨0, 0, 0⟩⟩]
        ⟨⟨⟨200000, [100000, 0], [2, 2]⟩, 2⟩,
          sliding_time_window.mk_empty hand_sample 100000, hand_shape.scrolling, true⟩
        = some h1 ∧
      get_shape h1 = hand_shape.scrolling ∧ has_changed h1 = false :=
  transition_frame_keeps_shape mouse_env
    ⟨⟨⟨200000, [100000, 0], [2, 2]⟩, 2⟩,
      sliding_time_window.mk_empty hand_sample 100000, hand_shape.scrolling, true⟩
    180000 [⟨⟨0, 0, 0⟩, ⟨0, 0, 0⟩, ⟨0, 0, 0⟩⟩]
    ⟨⟨200000, [180000, 100000, 0], [1, 2, 2]⟩, 2⟩
    ⟨100000, [180000], [[⟨⟨0, 0, 0⟩, ⟨0, 0, 0⟩, ⟨0, 0, 0⟩⟩]]⟩
    finger_counter.update_transition_frame rfl rfl (by decide)

end hand_shape_classifier

namespace hand_position_classifier

/-- C24 (as amended): the feature vector has exactly 46 dimensions: `FVN` is 46, the total of
5×3 velocity entries, 5×3 direction entries, 4 distances and 4×3 difference entries. -/
theorem FVN_eq_46 : FVN = 46 ∧ FVN = 5 * 3 + 5 * 3 + 4 * 1 + 4 * 3 := by
  constructor <;> decide

/-- C24 as stated fails: `FVN` is not 38; the four groups of entries add up to 46. -/
theorem FVN_ne_38 : FVN ≠ 38 ∧ 5 * 3 + 5 * 3 + 4 * 1 + 4 * 3 = 46 := by
  constructor <;> decide

/-- With no entry for a label, the loop over the dimensions fails at its first round. -/
theorem classify_vector_untrained (c : hand_position_classifier) (h : hand_position)
    (hm : c.mhps h = none) (l : scores) (i : feature_vector) :
    classify_vector c h l i = none := by
  have hr : List.finRange FVN = ⟨0, by decide⟩ :: (List.finRange FVN).tail := by decide
  unfold classify_vector
  rw [hr, List.foldlM_cons]
  simp [classify_dimension, hm]

theorem classify_label_untrained (c : hand_position_classifier) (h : hand_position)
    (hm : c.mhps h = none) (l : scores) (x : feature_vector) (fvs : List feature_vector) :
    classify_label c (x :: fvs) l h = none := by
  unfold classify_label
  rw [List.foldlM_cons, classify_vector_untrained c h hm]
  rfl

/-- A non-empty batch makes `classify` fail as soon as one of the four labels has no entry. -/
theorem classify_scores_untrained (c : hand_position_classifier) (h : hand_position)
    (hh : h ≠ hand_position.unknown) (hm : c.mhps h = none) (x : feature_vector)
    (fvs : List feature_vector) : classify_scores c (x :: fvs) = none := by
  unfold classify_scores
  simp only [List.foldlM_cons, List.foldlM_nil]
  cases h with
  | unknown => exact absurd rfl hh
  | pointing => simp [classify_label_untrained c _ hm]
  | clicking =>
    cases h1 : classify_label c (x :: fvs) (fun _ => none) hand_position.pointing with
    | none => simp
    | some l1 => simp [classify_label_untrained c _ hm]
  | scrolling =>
    cases h1 : classify_label c (x :: fvs) (fun _ => none) hand_position.pointing with
    | none => simp
    | some l1 =>
      cases h2 : classify_label c (x :: fvs) l1 hand_position.clicking with
      | none => simp [h2]
      | some l2 => simp [h2, classify_label_untrained c _ hm]
  | centering =>
    cases h1 : classify_label c (x :: fvs) (fun _ => none) hand_position.pointing with
    | none => simp
    | some l1 =>
      cases h2 : classify_label c (x :: fvs) l1 hand_position.clicking with
      | none => simp [h2]
      | some l2 =>
        cases h3 : classify_label c (x :: fvs) l2 hand_position.scrolling with
        | none => simp [h2, h3]
        | some l3 => simp [h2, h3, classify_label_untrained c _ hm]

theorem classify_empty_batch (c : hand_position_classifier) (ts : List Nat) :
    classify c [] ts = some (hand_position.unknown, double.fin (-2147483648)) := rfl

/-- C21: on a classifier for which no label has been trained, `classify` returns
`(unknown, -2147483648)` on the empty batch and fails on every other batch; so it either fails
or returns `unknown`, and never returns one of the four real labels. -/
theorem classify_untrained (fvs : List feature_vector) (ts : List Nat) :
    classify new fvs ts =
      (if fvs.isEmpty then some (hand_position.unknown, double.fin (-2147483648)) else none) ∧
    (classify new fvs ts = none ∨
      ∃ p, classify new fvs ts = some (hand_position.unknown, p)) := by
  cases fvs with
  | nil => exact ⟨rfl, Or.inr ⟨_, rfl⟩⟩
  | cons x fvs =>
    have h : classify new (x :: fvs) ts = none := by
      unfold classify
      rw [classify_scores_untrained new hand_position.pointing (by decide) rfl]
    exact ⟨by rw [h]; rfl, Or.inl h⟩

/-! ## Hand position classifier: training -/

theorem train_vector_eq (hp : hand_position) (c : hand_position_classifier)
    (i : feature_vector) :
    train_vector hp c i =
      some (set_entry c hp (train_stats ((c.mhps hp).getD (stats.zero FVN)) [i])) := by
  have hlen : (List.ofFn (zero_movement i)).length = FVN := List.length_ofFn _
  have hget : ∀ j : Fin FVN, (List.ofFn (zero_movement i)).getD j.val 0 = zero_movement i j := by
    intro j
    rw [List.getD_eq_getElem _ 0 (by rw [hlen]; exact j.isLt)]
    simp only [List.getElem_ofFn]
  unfold train_vector
  rw [stats.update_of_length _ _ hlen]
  simp only [hget, train_stats, List.length_singleton, List.map_cons, List.map_nil,
    List.sum_cons, List.sum_nil, add_zero]

theorem train_stats_cons (base : stats FVN) (x : feature_vector) (fvs : List feature_vector) :
    train_stats (train_stats base [x]) fvs = train_stats base (x :: fvs) := by
  unfold train_stats
  simp only [List.length_cons, List.length_nil, List.map_cons, List.map_nil, List.sum_cons,
    List.sum_nil, add_zero, stats.mk.injEq]
  refine ⟨by omega, ?_, ?_⟩
  · funext j
    ring
  · funext j
    ring

/-- The training loop of `update` on a non-empty batch never fails: it replaces the entry of
`hp` by the statistics fed with the batch and leaves the other entries alone. -/
theorem train_batch (hp : hand_position) :
    ∀ (fvs : List feature_vector) (x : feature_vector) (c : hand_position_classifier),
      (x :: fvs).foldlM (fun c i => train_vector hp c i) c =
        some (set_entry c hp
          (train_stats ((c.mhps hp).getD (stats.zero FVN)) (x :: fvs))) := by
  intro fvs
  induction fvs with
  | nil =>
    intro x c
    rw [List.foldlM_cons, train_vector_eq]
    rfl
  | cons y fvs ih =>
    intro x c
    rw [List.foldlM_cons, train_vector_eq]
    simp only [Option.some_bind, Option.bind_eq_bind]
    rw [ih y]
    simp only [set_entry, if_true, Option.getD_some, train_stats_cons]
    congr 2
    funext k
    by_cases hk : k = hp <;> simp [hk]

/-- Adding observations keeps the square of the sum below the count times the sum of
squares. -/
theorem moment_inequality (xs : List ℚ) :
    ∀ (S Q n : ℚ), 0 ≤ n → S * S ≤ n * Q → 0 ≤ Q →
      (S + xs.sum) * (S + xs.sum) ≤
        (n + (xs.length : ℚ)) * (Q + (xs.map (fun x => x * x)).sum) ∧
      0 ≤ Q + (xs.map (fun x => x * x)).sum := by
  induction xs with
  | nil =>
    intro S Q n _ h hQ
    simpa using ⟨h, hQ⟩
  | cons x xs ih =>
    intro S Q n hn h hQ
    have hstep : (S + x) * (S + x) ≤ (n + 1) * (Q + x * x) := by
      rcases eq_or_lt_of_le hn with h0 | hpos
      · have hS : S = 0 := by
          have : S * S ≤ 0 := by rw [← h0] at h; simpa using h
          nlinarith [mul_self_nonneg S]
        rw [hS, ← h0]
        nlinarith [mul_self_nonneg x]
      · have h1 : 0 ≤ (S - n * x) * (S - n * x) := mul_self_nonneg _
        have h2 : 2 * S * x ≤ Q + n * (x * x) := by
          by_contra hcon
          push_neg at hcon
          nlinarith
        nlinarith
    have hQ1 : 0 ≤ Q + x * x := by nlinarith [mul_self_nonneg x]
    obtain ⟨i1, i2⟩ := ih (S + x) (Q + x * x) (n + 1) (by linarith) hstep hQ1
    simp only [List.sum_cons, List.map_cons, List.length_cons, Nat.cast_add, Nat.cast_one]
    constructor
    · have e1 : S + (x + xs.sum) = S + x + xs.sum := by ring
      have e2 : n + ((xs.length : ℚ) + 1) = n + 1 + (xs.length : ℚ) := by ring
      have e3 : Q + (x * x + (xs.map (fun x => x * x)).sum) =
          Q + x * x + (xs.map (fun x => x * x)).sum := by ring
      rw [e1, e2, e3]
      exact i1
    · have e3 : Q + (x * x + (xs.map (fun x => x * x)).sum) =
          Q + x * x + (xs.map (fun x => x * x)).sum := by ring
      rw [e3]
      exact i2

theorem observed_iff (s : stats FVN) :
    observed s ↔ s.total ≠ 0 ∧ ∀ j, s.u1 j * s.u1 j ≤ (s.total : ℚ) * s.u2 j := by
  unfold observed mean_q
  constructor
  · rintro ⟨h0, h⟩
    refine ⟨h0, fun j => ?_⟩
    have hpos : (0 : ℚ) < (s.total : ℚ) := by exact_mod_cast Nat.pos_of_ne_zero h0
    have := h j
    rw [div_mul_div_comm, div_le_div_iff₀ (mul_pos hpos hpos) hpos] at this
    have h3 : s.u1 j * s.u1 j * (s.total : ℚ) ≤ (s.total : ℚ) * s.u2 j * (s.total : ℚ) := by
      nlinarith
    exact le_of_mul_le_mul_right h3 hpos
  · rintro ⟨h0, h⟩
    refine ⟨h0, fun j => ?_⟩
    have hpos : (0 : ℚ) < (s.total : ℚ) := by exact_mod_cast Nat.pos_of_ne_zero h0
    rw [div_mul_div_comm, div_le_div_iff₀ (mul_pos hpos hpos) hpos]
    have := h j
    nlinarith

/-- Statistics fed with a non-empty batch, from zero or from statistics with observations,
have observations. -/
theorem train_stats_observed (base : stats FVN) (fvs : List feature_vector)
    (hb : base = stats.zero FVN ∨ observed base) (hne : fvs ≠ []) :
    observed (train_stats base fvs) := by
  rw [observed_iff]
  have hbase : ∀ j, base.u1 j * base.u1 j ≤ (base.total : ℚ) * base.u2 j ∧ 0 ≤ base.u2 j := by
    intro j
    rcases hb with hz | ho
    · rw [hz]
      simp [stats.zero]
    · have h1 := ((observed_iff base).mp ho).2 j
      have hpos : (0 : ℚ) < (base.total : ℚ) := by
        exact_mod_cast Nat.pos_of_ne_zero ho.1
      refine ⟨h1, ?_⟩
      by_contra hneg
      push_neg at hneg
      nlinarith [mul_self_nonneg (base.u1 j)]
  refine ⟨?_, fun j => ?_⟩
  · have : fvs.length ≠ 0 := fun h => hne (List.length_eq_zero.mp h)
    simp only [train_stats]
    omega
  · have h := (moment_inequality (fvs.map (fun x => zero_movement x j)) (base.u1 j)
      (base.u2 j) (base.total : ℚ) (Nat.cast_nonneg _) (hbase j).1 (hbase j).2).1
    simp only [List.length_map, List.map_map] at h
    simp only [train_stats, Nat.cast_add]
    exact h

theorem log_entry_observed (s : stats FVN) (hs : observed s) : log_entry s = some () := by
  have h : ∀ js : List (Fin FVN),
      js.foldlM
        (fun (_ : Unit) j =>
          match stats.variance s j with
          | none => none
          | some _ => some ())
        () = some () := by
    intro js
    induction js with
    | nil => rfl
    | cons j js ih =>
      rw [List.foldlM_cons, variance_of_observed s hs j]
      exact ih
  exact h _

theorem log_entries_well_formed (c : hand_position_classifier) (hc : well_formed c) :
    log_entries c = some () := by
  have h : ∀ k, (match c.mhps k with
      | none => some ()
      | some s => log_entry s) = some () := by
    intro k
    cases hk : c.mhps k with
    | none => rfl
    | some s => exact log_entry_observed s (hc k s hk)
  unfold log_entries
  simp only [List.foldlM_cons, List.foldlM_nil, h, Option.some_bind, Option.bind_eq_bind,
    Option.pure_def]

/-- Training on a non-empty batch, from a classifier built by training, does not fail: the
entry of `hp` becomes the statistics fed with the batch, the other entries stay, and every
entry still holds statistics with observations. -/
theorem update_eq (hp : hand_position) (x : feature_vector) (fvs : List feature_vector)
    (c : hand_position_classifier) (hc : well_formed c) :
    update hp (x :: fvs) c =
      some (set_entry c hp (train_stats ((c.mhps hp).getD (stats.zero FVN)) (x :: fvs))) ∧
    well_formed
      (set_entry c hp (train_stats ((c.mhps hp).getD (stats.zero FVN)) (x :: fvs))) := by
  have hwf : well_formed
      (set_entry c hp (train_stats ((c.mhps hp).getD (stats.zero FVN)) (x :: fvs))) := by
    intro k s hk
    simp only [set_entry] at hk
    by_cases hkp : k = hp
    · rw [if_pos hkp] at hk
      injection hk with hk
      rw [← hk]
      refine train_stats_observed _ _ ?_ (by simp)
      cases hm : c.mhps hp with
      | none => exact Or.inl rfl
      | some s0 => exact Or.inr (hc hp s0 hm)
    · rw [if_neg hkp] at hk
      exact hc k s hk
  refine ⟨?_, hwf⟩
  unfold update
  rw [train_batch hp fvs x c]
  simp only [log_entries_well_formed _ hwf]

theorem update_nil (hp : hand_position) (c : hand_position_classifier) (hc : well_formed c) :
    update hp [] c = some c := by
  unfold update
  simp only [List.foldlM_nil, Option.pure_def, log_entries_well_formed c hc]

theorem well_formed_new : well_formed new := by
  intro h s hs
  simp [new] at hs

/-! ## Constant dimensions and zero variance -/

/-- The population variance of a non-empty list is zero exactly when all its values are
equal. -/
theorem population_variance_zero_iff (xs : List ℚ) (hne : xs ≠ []) :
    stats.population_variance xs = 0 ↔ ∀ a ∈ xs, ∀ b ∈ xs, a = b := by
  have hn : (xs.length : ℚ) ≠ 0 := by
    have : xs.length ≠ 0 := fun h => hne (List.length_eq_zero.mp h)
    exact_mod_cast this
  have hmu : stats.population_variance xs = 0 ↔
      ∀ a ∈ xs, a = stats.arithmetic_mean xs := by
    unfold stats.population_variance
    rw [div_eq_zero_iff]
    constructor
    · intro h
      rcases h with h | h
      · intro a ha
        have hz := List.all_zero_of_le_zero_le_of_sum_eq_zero
          (l := xs.map (fun x => (x - stats.arithmetic_mean xs) ^ 2))
          (by
            intro y hy
            obtain ⟨x, _, rfl⟩ := List.mem_map.mp hy
            exact sq_nonneg _)
          h (List.mem_map_of_mem _ ha)
        have := pow_eq_zero_iff (n := 2) (by norm_num) |>.mp hz
        linarith
      · exact absurd h hn
    · intro h
      left
      have : xs.map (fun x => (x - stats.arithmetic_mean xs) ^ 2) = xs.map (fun _ => 0) := by
        apply List.map_congr_left
        intro a ha
        rw [h a ha]
        simp
      rw [this]
      simp
  rw [hmu]
  constructor
  · intro h a ha b hb
    rw [h a ha, h b hb]
  · intro h a ha
    have hrep : xs = List.replicate xs.length a :=
      List.eq_replicate_iff.mpr ⟨rfl, fun b hb => h b hb a ha⟩
    unfold stats.arithmetic_mean
    rw [eq_div_iff hn]
    conv_rhs => rw [hrep]
    rw [List.sum_replicate]
    simp
    ring

theorem sum_zero_movement (fvs : List feature_vector) (j : Fin FVN) :
    (fvs.map (fun x => zero_movement x j)).sum =
      if j.val < 15 then 0 else (fvs.map (fun x => x j)).sum := by
  induction fvs with
  | nil => simp
  | cons x fvs ih =>
    simp only [List.map_cons, List.sum_cons, ih, zero_movement_apply]
    split <;> simp

/-- Statistics fed from zero with a batch: the mean vector is the motion-zeroed mean vector of
the batch. -/
theorem trained_mean (fvs : List feature_vector) (j : Fin FVN) :
    mean_q (train_stats (stats.zero FVN) fvs) j = zero_movement (batch_mean fvs) j := by
  simp only [mean_q, train_stats, stats.zero, zero_add, zero_movement_apply, batch_mean,
    sum_zero_movement]
  split <;> simp

/-- Statistics fed from zero with a non-empty batch: the variance of a dimension is the
population variance of that entry of the motion-zeroed vectors of the batch. -/
theorem trained_variance (fvs : List feature_vector) (hne : fvs ≠ []) (j : Fin FVN) :
    variance_q (train_stats (stats.zero FVN) fvs) j =
      stats.population_variance (fvs.map (fun x => zero_movement x j)) := by
  have h := stats.moment_identity (fvs.map (fun x => zero_movement x j)) (by simpa using hne)
  simp only [List.length_map, List.map_map] at h
  simp only [variance_q, mean_q, train_stats, stats.zero, zero_add]
  exact h

theorem trained_variance_zero_iff (fvs : List feature_vector) (hne : fvs ≠ [])
    (j : Fin FVN) :
    variance_q (train_stats (stats.zero FVN) fvs) j = 0 ↔
      ∀ a ∈ fvs, ∀ b ∈ fvs, zero_movement a j = zero_movement b j := by
  rw [trained_variance fvs hne j, population_variance_zero_iff _ (by simpa using hne)]
  constructor
  · intro h a ha b hb
    exact h _ (List.mem_map_of_mem _ ha) _ (List.mem_map_of_mem _ hb)
  · intro h a ha b hb
    obtain ⟨x, hx, rfl⟩ := List.mem_map.mp ha
    obtain ⟨y, hy, rfl⟩ := List.mem_map.mp hb
    exact h x hx y hy

theorem zero_movement_idempotent (f : feature_vector) :
    zero_movement (zero_movement f) = zero_movement f := by
  funext k
  simp only [zero_movement_apply]
  split <;> rfl

theorem zero_movement_congr (a b : feature_vector)
    (h : ∀ k : Fin FVN, 15 ≤ k.val → a k = b k) : zero_movement a = zero_movement b := by
  funext k
  simp only [zero_movement_apply]
  split
  · rfl
  · exact h k (by omega)

theorem map_zero_movement_congr (fvs1 fvs2 : List feature_vector)
    (h : List.Forall₂ (fun a b : feature_vector => ∀ k : Fin FVN, 15 ≤ k.val → a k = b k)
      fvs1 fvs2) :
    fvs1.map zero_movement = fvs2.map zero_movement := by
  induction h with
  | nil => rfl
  | cons hab _ ih =>
    simp only [List.map_cons, ih, zero_movement_congr _ _ hab]

/-- The training loop reads the batch only through `zero_movement`. -/
theorem train_loop_map (hp : hand_position) (fvs : List feature_vector)
    (c : hand_position_classifier) :
    fvs.foldlM (fun c i => train_vector hp c i) c =
      (fvs.map zero_movement).foldlM
        (fun c z =>
          match stats.update (List.ofFn z) ((c.mhps hp).getD (stats.zero FVN)) with
          | none => none
          | some s => some (set_entry c hp s))
        c := by
  rw [List.foldlM_map]
  rfl

/-- The loop of `classify` over the batch reads it only through `zero_movement`. -/
theorem classify_label_map (c : hand_position_classifier) (fvs : List feature_vector)
    (l : scores) (h : hand_position) :
    classify_label c fvs l h =
      (fvs.map zero_movement).foldlM
        (fun l z => (List.finRange FVN).foldlM (fun l j => classify_dimension c h z l j) l)
        l := by
  rw [List.foldlM_map]
  rfl

theorem update_congr (hp : hand_position) (c : hand_position_classifier)
    (fvs1 fvs2 : List feature_vector)
    (h : fvs1.map zero_movement = fvs2.map zero_movement) :
    update hp fvs1 c = update hp fvs2 c := by
  unfold update
  rw [train_loop_map hp fvs1 c, train_loop_map hp fvs2 c, h]

theorem classify_congr (c : hand_position_classifier) (ts : List Nat)
    (fvs1 fvs2 : List feature_vector)
    (h : fvs1.map zero_movement = fvs2.map zero_movement) :
    classify c fvs1 ts = classify c fvs2 ts := by
  have hl : (fun l hh => classify_label c fvs1 l hh) =
      (fun l hh => classify_label c fvs2 l hh) := by
    funext l hh
    rw [classify_label_map c fvs1, classify_label_map c fvs2, h]
  unfold classify classify_scores
  rw [hl]

/-- C23: the velocity channels never influence the position classifier: for every two batches
of equal length whose vectors agree, pair by pair, on every entry outside the indices 0..14,
`update` with the same label gives the same result (the same statistics, or the same failure)
and `classify` returns the same (label, score) or fails on both; `zero_movement` itself sets
the entries 0..14 to 0, leaves every other entry unchanged, and is idempotent. -/
theorem velocity_channels_ignored :
    (∀ (hp : hand_position) (c : hand_position_classifier) (ts : List Nat)
      (fvs1 fvs2 : List feature_vector),
      List.Forall₂ (fun a b : feature_vector => ∀ k : Fin FVN, 15 ≤ k.val → a k = b k)
        fvs1 fvs2 →
      update hp fvs1 c = update hp fvs2 c ∧ classify c fvs1 ts = classify c fvs2 ts) ∧
    (∀ (f : feature_vector) (k : Fin FVN),
      zero_movement f k = if k.val < 15 then 0 else f k) ∧
    (∀ f : feature_vector, zero_movement (zero_movement f) = zero_movement f) := by
  refine ⟨?_, zero_movement_apply, zero_movement_idempotent⟩
  intro hp c ts fvs1 fvs2 h
  have hmap := map_zero_movement_congr fvs1 fvs2 h
  exact ⟨update_congr hp c fvs1 fvs2 hmap, classify_congr c ts fvs1 fvs2 hmap⟩

/-- C23 at a concrete input: two batches of one vector, all entries 3 and all entries 3 except
entry 0, which is 7; the classifier is `two_point_classifier`. -/
theorem velocity_channels_ignored_witness :
    update hand_position.pointing [fun _ => 3] two_point_classifier =
      update hand_position.pointing [fun k => if k.val = 0 then 7 else 3]
        two_point_classifier ∧
    classify two_point_classifier [fun _ => 3] [] =
      classify two_point_classifier [fun k => if k.val = 0 then 7 else 3] [] :=
  velocity_channels_ignored.1 hand_position.pointing two_point_classifier []
    [fun _ => 3] [fun k => if k.val = 0 then 7 else 3]
    (List.Forall₂.cons
      (fun k hk => by
        have h0 : k.val ≠ 0 := by omega
        simp [h0])
      List.Forall₂.nil)

/-! ## Labels without a score, and the range of the returned score -/

/-- When the loops of `classify` do not fail, either the batch is empty and `l` stays empty, or
every one of the four labels has an entry. -/
theorem classify_scores_cases (c : hand_position_classifier) (fvs : List feature_vector)
    (l : scores) (hc : well_formed c) (hl : classify_scores c fvs = some l) :
    (fvs = [] ∧ l = fun _ => none) ∨ fully_trained c := by
  cases fvs with
  | nil =>
    left
    refine ⟨rfl, ?_⟩
    have h0 : classify_scores c [] = some (fun _ => none) := rfl
    rw [h0] at hl
    injection hl with hl
    exact hl.symm
  | cons x rest =>
    right
    intro h hh
    cases hm : c.mhps h with
    | none =>
      rw [classify_scores_untrained c h hh hm] at hl
      exact absurd hl (by simp)
    | some s => exact ⟨s, rfl, hc h s hm⟩

theorem variance_q_nonneg (s : stats FVN) (hs : observed s) (j : Fin FVN) :
    0 ≤ variance_q s j := by
  have := hs.2 j
  unfold variance_q
  linarith

theorem likelihood_terms_nonneg (s : stats FVN) (hs : observed s) (z : feature_vector) :
    ∀ t ∈ likelihood_terms s z, 0 ≤ t := by
  intro t ht
  unfold likelihood_terms at ht
  obtain ⟨j, _, rfl⟩ := List.mem_map.mp ht
  exact div_nonneg (mul_self_nonneg _)
    (mul_nonneg (by norm_num) (variance_q_nonneg s hs j))

theorem batch_terms_nonneg (s : stats FVN) (hs : observed s) (fvs : List feature_vector) :
    ∀ t ∈ batch_terms s fvs, 0 ≤ t := by
  intro t ht
  unfold batch_terms at ht
  obtain ⟨ts, hts, htm⟩ := List.mem_flatten.mp ht
  obtain ⟨x, _, rfl⟩ := List.mem_map.mp hts
  exact likelihood_terms_nonneg s hs _ t htm

/-- An accumulated score is never positive. -/
theorem label_score_nonpos (c : hand_position_classifier) (hc : well_formed c)
    (fvs : List feature_vector) (h : hand_position) (v : ℚ)
    (hv : label_score c fvs h = some v) : v ≤ 0 := by
  unfold label_score at hv
  split at hv
  · exact absurd hv (by simp)
  · split at hv
    · exact absurd hv (by simp)
    · rename_i s hm
      rw [entry_after_eq] at hv
      split at hv
      · exact absurd hv (by simp)
      · injection hv with hv
        have hsum := List.sum_nonneg (batch_terms_nonneg s (hc h s hm) fvs)
        simp only [Option.getD_none] at hv
        linarith

/-- What `classify` returns on a classifier built by training, when it does not fail. -/
theorem classify_result (c : hand_position_classifier) (fvs : List feature_vector)
    (ts : List Nat) (hc : well_formed c) (hp : hand_position) (p : double)
    (hr : classify c fvs ts = some (hp, p)) :
    (hp = hand_position.unknown ∧ p = double.fin (-2147483648)) ∨
      (fully_trained c ∧ hp ≠ hand_position.unknown ∧
        ∃ q, p = double.fin q ∧ -2147483648 < q ∧ q ≤ 0 ∧ label_score c fvs hp = some q) := by
  have hsome : ∃ l, classify_scores c fvs = some l := by
    unfold classify at hr
    cases hl : classify_scores c fvs with
    | none => simp [hl] at hr
    | some l => exact ⟨l, rfl⟩
  obtain ⟨l, hl⟩ := hsome
  rcases classify_scores_cases c fvs l hc hl with ⟨hnil, _⟩ | hft
  · left
    rw [hnil, classify_empty_batch] at hr
    injection hr with hr
    injection hr with h1 h2
    exact ⟨h1.symm, h2.symm⟩
  · obtain ⟨_, hp1, q, _, _, hcl, _, _, hcase⟩ := classify_eq c fvs ts hft
    rw [hcl] at hr
    injection hr with hr
    injection hr with h1 h2
    subst h1
    subst h2
    rcases hcase with ⟨h3, h4⟩ | ⟨h3, h4, _⟩
    · left
      exact ⟨h3, by rw [h4]⟩
    · right
      refine ⟨hft, ?_, q, rfl, h3, label_score_nonpos c hc fvs _ q h4, h4⟩
      intro hu
      rw [hu] at h4
      simp [label_score] at h4

theorem two_point_well_formed : well_formed two_point_classifier := by
  intro h s hs
  by_cases hh : h = hand_position.unknown
  · simp [two_point_classifier, hh] at hs
  · obtain ⟨s1, h1, ho⟩ := two_point_trained h hh
    rw [hs] at h1
    injection h1 with h1
    rw [h1]
    exact ho

/-- On the batch of one vector with all entries 3, `two_point_classifier` returns pointing with
the score -9/2. -/
theorem two_point_classify :
    classify two_point_classifier [fun _ => 3] [] =
      some (hand_position.pointing, double.fin (-(9 / 2))) := by
  obtain ⟨_, hp, q, _, _, hcl, _, hmax, hcase⟩ :=
    classify_eq two_point_classifier [fun _ => 3] [] two_point_trained
  have hpt : label_score two_point_classifier [fun _ => 3] hand_position.pointing =
      some (-(9 / 2)) := by
    rw [two_point_scores]
    rfl
  rcases hcase with ⟨_, h2⟩ | ⟨_, h2, h3⟩
  · have := hmax _ _ hpt
    rw [h2] at this
    norm_num at this
  · have hq : q = -(9 / 2) := by
      rw [two_point_scores] at h2
      split at h2
      · exact absurd h2 (by simp)
      · injection h2 with h2
        exact h2.symm
    have hp2 : hp = hand_position.pointing := by
      by_contra hcon
      have hne : hp ≠ hand_position.unknown := by
        intro hu
        rw [hu] at h2
        simp [label_score] at h2
      have hrank : rank hand_position.pointing < rank hp := by
        cases hp <;> first | exact absurd rfl hne | exact absurd rfl hcon | decide
      have := h3 _ _ hpt hrank
      rw [hq] at this
      exact absurd this (lt_irrefl _)
    rw [hcl, hp2, hq]

/-- C28: `classify` applied to an empty batch does not fail and returns
`(unknown, -2147483648)` whatever entries the classifier holds; and on a classifier built by
training, for every batch on which `classify` returns, the returned score is finite, at most 0
and at least -2147483648, and when a real label is returned the score is that label's
accumulated score and is strictly greater than -2147483648. -/
theorem classify_score_range :
    (∀ (c : hand_position_classifier) (ts : List Nat),
      classify c [] ts = some (hand_position.unknown, double.fin (-2147483648))) ∧
    (∀ (c : hand_position_classifier) (fvs : List feature_vector) (ts : List Nat)
      (hp : hand_position) (p : double), well_formed c → classify c fvs ts = some (hp, p) →
      ∃ q, p = double.fin q ∧ q ≤ 0 ∧ -2147483648 ≤ q ∧
        (hp ≠ hand_position.unknown → -2147483648 < q ∧ label_score c fvs hp = some q)) := by
  refine ⟨classify_empty_batch, ?_⟩
  intro c fvs ts hp p hc hr
  rcases classify_result c fvs ts hc hp p hr with ⟨h1, h2⟩ | ⟨_, _, q, h2, h3, h4, h5⟩
  · exact ⟨-2147483648, h2, by norm_num, le_refl _, fun hne => absurd h1 hne⟩
  · exact ⟨q, h2, h4, h3.le, fun _ => ⟨h3, h5⟩⟩

/-- C28 at a concrete input: `two_point_classifier` on the batch of one vector with all
entries 3. -/
theorem classify_score_range_witness :
    ∃ q, double.fin (-(9 / 2)) = double.fin q ∧ q ≤ 0 ∧ -2147483648 ≤ q ∧
      (hand_position.pointing ≠ hand_position.unknown → -2147483648 < q ∧
        label_score two_point_classifier [fun _ => 3] hand_position.pointing = some q) :=
  classify_score_range.2 two_point_classifier [fun _ => 3] [] hand_position.pointing
    (double.fin (-(9 / 2))) two_point_well_formed two_point_classify

/-- On a single vector, a label whose mean differs from the vector in a dimension of non-zero
variance accumulates a negative score, if any. -/
theorem label_score_negative (c : hand_position_classifier) (h : hand_position)
    (s : stats FVN) (x : feature_vector) (hm : c.mhps h = some s) (hs : observed s)
    (hdiff : ∃ j, variance_q s j ≠ 0 ∧ zero_movement x j ≠ mean_q s j) (q : ℚ)
    (hq : label_score c [x] h = some q) : q < 0 := by
  obtain ⟨j, hv, hj⟩ := hdiff
  have hmem : (zero_movement x j - mean_q s j) * (zero_movement x j - mean_q s j) /
      (2 * variance_q s j) ∈ batch_terms s [x] := by
    simp only [batch_terms, List.map_cons, List.map_nil, List.flatten_cons, List.flatten_nil,
      List.append_nil, likelihood_terms]
    exact List.mem_map_of_mem _ (List.mem_filter.mpr ⟨List.mem_finRange j, by simp [hv]⟩)
  have hpos : 0 < (zero_movement x j - mean_q s j) * (zero_movement x j - mean_q s j) /
      (2 * variance_q s j) := by
    have hvpos : 0 < variance_q s j := lt_of_le_of_ne (variance_q_nonneg s hs j) (Ne.symm hv)
    have hne : zero_movement x j - mean_q s j ≠ 0 := sub_ne_zero.mpr hj
    exact div_pos (mul_self_pos.mpr hne) (by linarith)
  have hle := List.single_le_sum (batch_terms_nonneg s hs [x]) _ hmem
  unfold label_score at hq
  split at hq
  · exact absurd hq (by simp)
  · rw [hm] at hq
    simp only at hq
    rw [entry_after_eq] at hq
    split at hq
    · rename_i hnil
      rw [hnil] at hmem
      exact absurd hmem (List.not_mem_nil _)
    · injection hq with hq
      simp only [Option.getD_none] at hq
      linarith

/-- On a single vector equal to the mean of a label that has a dimension of non-zero variance,
the label accumulates the score 0. -/
theorem label_score_at_mean (c : hand_position_classifier) (h : hand_position)
    (s : stats FVN) (x : feature_vector) (hh : h ≠ hand_position.unknown)
    (hm : c.mhps h = some s) (hx : ∀ j, zero_movement x j = mean_q s j)
    (hv : ∃ j, variance_q s j ≠ 0) : label_score c [x] h = some 0 := by
  obtain ⟨j, hj⟩ := hv
  have hterms : likelihood_terms s (zero_movement x) =
      ((List.finRange FVN).filter (fun j => decide (variance_q s j ≠ 0))).map (fun _ => 0) := by
    unfold likelihood_terms
    apply List.map_congr_left
    intro k _
    rw [hx k]
    simp
  have hne : likelihood_terms s (zero_movement x) ≠ [] := by
    rw [hterms]
    intro hnil
    have hmem : j ∈ (List.finRange FVN).filter (fun j => decide (variance_q s j ≠ 0)) :=
      List.mem_filter.mpr ⟨List.mem_finRange j, by simp [hj]⟩
    rw [List.map_eq_nil_iff] at hnil
    rw [hnil] at hmem
    exact absurd hmem (List.not_mem_nil _)
  have hsum : (likelihood_terms s (zero_movement x)).sum = 0 := by
    rw [hterms]
    simp
  unfold label_score
  rw [if_neg hh, hm]
  simp only [batch_terms, List.map_cons, List.map_nil, List.flatten_cons, List.flatten_nil,
    List.append_nil]
  rw [entry_after_eq, if_neg hne, hsum]
  simp

/-- In a fully trained classifier, a vector equal to the mean of a label `A` that has a
dimension of non-zero variance is classified as `A`, if every other label's mean differs from
it in a dimension in which that label's variance is not zero. -/
theorem classify_at_mean (c : hand_position_classifier) (A : hand_position) (sA : stats FVN)
    (x : feature_vector) (ts : List Nat) (hc : fully_trained c)
    (hA : A ≠ hand_position.unknown) (hm : c.mhps A = some sA)
    (hx : ∀ j, zero_movement x j = mean_q sA j) (hv : ∃ j, variance_q sA j ≠ 0)
    (hother : ∀ B sB, B ≠ A → B ≠ hand_position.unknown → c.mhps B = some sB →
      ∃ j, variance_q sB j ≠ 0 ∧ mean_q sB j ≠ mean_q sA j) :
    classify c [x] ts = some (A, double.fin 0) := by
  obtain ⟨_, hp, q, _, _, hcl, _, hmax, hcase⟩ := classify_eq c [x] ts hc
  have hscoreA := label_score_at_mean c A sA x hA hm hx hv
  have hq0 : 0 ≤ q := hmax A 0 hscoreA
  rcases hcase with ⟨_, h2⟩ | ⟨_, h2, _⟩
  · rw [h2] at hq0
    norm_num at hq0
  · have hpA : hp = A := by
      by_contra hne
      have hpu : hp ≠ hand_position.unknown := by
        intro hu
        rw [hu] at h2
        simp [label_score] at h2
      obtain ⟨sB, hmB, hoB⟩ := hc hp hpu
      obtain ⟨j, hvj, hmj⟩ := hother hp sB hne hpu hmB
      have := label_score_negative c hp sB x hmB hoB
        ⟨j, hvj, by rw [hx j]; exact fun h => hmj h.symm⟩ q h2
      linarith
    rw [hpA] at h2
    rw [h2] at hscoreA
    injection hscoreA with hq
    rw [hcl, hpA, hq]

theorem batch_around_mean (m : ℚ) :
    mean_q (train_stats (stats.zero FVN) (batch_around m)) ⟨20, by decide⟩ = m := by
  rw [trained_mean, zero_movement_apply]
  simp only [batch_mean, batch_around, List.map_cons, List.map_nil, List.sum_cons,
    List.sum_nil, List.length_cons, List.length_nil]
  norm_num

theorem batch_around_variance (m : ℚ) :
    variance_q (train_stats (stats.zero FVN) (batch_around m)) ⟨20, by decide⟩ ≠ 0 := by
  rw [Ne, trained_variance_zero_iff _ (by simp [batch_around])]
  intro h
  have := h (fun k => if k.val = 20 then m + 1 else 0) (by simp [batch_around])
    (fun k => if k.val = 20 then m - 1 else 0) (by simp [batch_around])
  simp only [zero_movement_apply] at this
  norm_num at this
  linarith

theorem spread_trained : fully_trained spread_classifier := by
  intro h hh
  refine ⟨train_stats (stats.zero FVN) (batch_around (rank h)),
    by simp [spread_classifier, hh], ?_⟩
  exact train_stats_observed _ _ (Or.inl rfl) (by simp [batch_around])

theorem rank_injective (a b : hand_position) (h : rank a = rank b) : a = b := by
  cases a <;> cases b <;> first | rfl | exact absurd h (by decide)

/-- C22 (as amended): training a label that has no entry yet on a non-empty batch gives it
statistics whose mean vector is the motion-zeroed mean vector of the batch and leaves the other
labels alone; and in a classifier in which all four labels have been trained, if label `A` has
mean vector `M_A` and a dimension of non-zero variance, and the mean vector of every other
label differs from `M_A` in at least one dimension in which that label's variance is non-zero,
then `classify` applied to the single vector `M_A` returns label `A`, with score 0. -/
theorem mean_vector_classified :
    (∀ (c : hand_position_classifier) (hp : hand_position) (x : feature_vector)
      (rest : List feature_vector), well_formed c → c.mhps hp = none →
      ∃ c1 s, update hp (x :: rest) c = some c1 ∧ c1.mhps hp = some s ∧ observed s ∧
        (∀ k, k ≠ hp → c1.mhps k = c.mhps k) ∧
        ∀ j, mean_q s j = zero_movement (batch_mean (x :: rest)) j) ∧
    (∀ (c : hand_position_classifier) (A : hand_position) (sA : stats FVN)
      (x : feature_vector) (ts : List Nat), fully_trained c → A ≠ hand_position.unknown →
      c.mhps A = some sA → (∀ j, zero_movement x j = mean_q sA j) →
      (∃ j, variance_q sA j ≠ 0) →
      (∀ B sB, B ≠ A → B ≠ hand_position.unknown → c.mhps B = some sB →
        ∃ j, variance_q sB j ≠ 0 ∧ mean_q sB j ≠ mean_q sA j) →
      classify c [x] ts = some (A, double.fin 0)) := by
  refine ⟨?_, ?_⟩
  · intro c hp x rest hc hm
    obtain ⟨hupd, hwf⟩ := update_eq hp x rest c hc
    rw [hm] at hupd hwf
    simp only [Option.getD_none] at hupd hwf
    have hentry : (set_entry c hp (train_stats (stats.zero FVN) (x :: rest))).mhps hp =
        some (train_stats (stats.zero FVN) (x :: rest)) := by
      simp [set_entry]
    refine ⟨_, _, hupd, hentry, hwf hp _ hentry, ?_, fun j => trained_mean _ j⟩
    intro k hk
    simp [set_entry, hk]
  · intro c A sA x ts hc hA hm hx hv hother
    exact classify_at_mean c A sA x ts hc hA hm hx hv hother

/-- C22 (as amended) at a concrete input: in `spread_classifier` the mean vector of the batch
on which clicking was trained is classified as clicking. -/
theorem mean_vector_classified_witness :
    classify spread_classifier [batch_mean (batch_around (rank hand_position.clicking))] [] =
      some (hand_position.clicking, double.fin 0) :=
  mean_vector_classified.2 spread_classifier hand_position.clicking
    (train_stats (stats.zero FVN) (batch_around (rank hand_position.clicking)))
    (batch_mean (batch_around (rank hand_position.clicking))) [] spread_trained (by decide)
    (by simp [spread_classifier]) (fun j => (trained_mean _ j).symm)
    ⟨⟨20, by decide⟩, batch_around_variance _⟩
    (fun B sB hne hu hmB => by
      have hsB : sB = train_stats (stats.zero FVN) (batch_around (rank B)) := by
        simp only [spread_classifier, hu, if_false, Option.some.injEq] at hmB
        exact hmB.symm
      refine ⟨⟨20, by decide⟩, by rw [hsB]; exact batch_around_variance _, ?_⟩
      rw [hsB, batch_around_mean, batch_around_mean]
      intro h
      exact hne (rank_injective _ _ (by exact_mod_cast h)))

/-- A classifier built by training in which each of the four labels has an entry is fully
trained. -/
theorem fully_trained_of_entries (c : hand_position_classifier) (hw : well_formed c)
    (h1 : (c.mhps hand_position.pointing).isSome = true)
    (h2 : (c.mhps hand_position.clicking).isSome = true)
    (h3 : (c.mhps hand_position.scrolling).isSome = true)
    (h4 : (c.mhps hand_position.centering).isSome = true) : fully_trained c := by
  intro h hh
  have hex : (c.mhps h).isSome = true := by
    cases h
    · exact absurd rfl hh
    · exact h1
    · exact h2
    · exact h3
    · exact h4
  obtain ⟨s, hs⟩ := Option.isSome_iff_exists.mp hex
  exact ⟨s, hs, hw h s hs⟩

/-- Training a label that has no entry on a batch `batch_around m`. -/
theorem update_absent (hp : hand_position) (m : ℚ) (c : hand_position_classifier)
    (hc : well_formed c) (hm : c.mhps hp = none) :
    update hp (batch_around m) c
      = some (set_entry c hp (train_stats (stats.zero FVN) (batch_around m))) ∧
    well_formed (set_entry c hp (train_stats (stats.zero FVN) (batch_around m))) := by
  have h := update_eq hp (fun k => if k.val = 20 then m + 1 else 0)
    [fun k => if k.val = 20 then m - 1 else 0] c hc
  rw [hm] at h
  exact h

/-- In a fully trained classifier built by training, a vector equal to the mean of pointing,
the first label, is classified as pointing with score 0 when pointing has a dimension of
non-zero variance, whatever the other labels are. -/
theorem classify_first_at_mean (c : hand_position_classifier) (s : stats FVN)
    (x : feature_vector) (ts : List Nat) (hc : fully_trained c) (hw : well_formed c)
    (hm : c.mhps hand_position.pointing = some s)
    (hx : ∀ j, zero_movement x j = mean_q s j) (hv : ∃ j, variance_q s j ≠ 0) :
    classify c [x] ts = some (hand_position.pointing, double.fin 0) := by
  obtain ⟨_, hp, q, _, _, hcl, _, hmax, hcase⟩ := classify_eq c [x] ts hc
  have hscore := label_score_at_mean c hand_position.pointing s x (by decide) hm hx hv
  have hq0 : 0 ≤ q := hmax _ 0 hscore
  rcases hcase with ⟨_, h2⟩ | ⟨_, h2, hfirst⟩
  · rw [h2] at hq0
    norm_num at hq0
  · have hq : q = 0 := le_antisymm (label_score_nonpos c hw [x] hp q h2) hq0
    have hpp : hp = hand_position.pointing := by
      by_contra hne
      have hpu : hp ≠ hand_position.unknown := by
        intro hu
        rw [hu] at h2
        simp [label_score] at h2
      have hrank : rank hand_position.pointing < rank hp := by
        cases hp <;> first | exact absurd rfl hne | exact absurd rfl hpu | decide
      have := hfirst _ 0 hscore hrank
      linarith
    rw [hcl, hpp, hq]

/-- C22 as stated fails. First, from a new classifier, pointing is trained on a batch with
mean 0 and clicking on a batch with mean 5 in dimension 20, where both variances are not zero;
`classify` applied to the mean vector of the first batch then fails, scrolling having no entry.
Second, with all four labels trained, clicking and scrolling on batches whose means are 5 and
9 in dimension 20, where both variances are not zero, and pointing on the same batch as
clicking, `classify` applied to the mean vector of the batch of clicking returns pointing. -/
theorem mean_vector_not_classified :
    (∃ c1 c2 sA sB,
      update hand_position.pointing (batch_around 0) new = some c1 ∧
      update hand_position.clicking (batch_around 5) c1 = some c2 ∧
      c2.mhps hand_position.pointing = some sA ∧ c2.mhps hand_position.clicking = some sB ∧
      (∀ j, mean_q sA j = zero_movement (batch_mean (batch_around 0)) j) ∧
      (∀ j, mean_q sB j = zero_movement (batch_mean (batch_around 5)) j) ∧
      mean_q sA ⟨20, by decide⟩ = 0 ∧ mean_q sB ⟨20, by decide⟩ = 5 ∧
      variance_q sA ⟨20, by decide⟩ ≠ 0 ∧ variance_q sB ⟨20, by decide⟩ ≠ 0 ∧
      classify c2 [batch_mean (batch_around 0)] [] = none) ∧
    (∃ c1 c2 c3 c4 sA sB,
      update hand_position.pointing (batch_around 5) new = some c1 ∧
      update hand_position.clicking (batch_around 5) c1 = some c2 ∧
      update hand_position.scrolling (batch_around 9) c2 = some c3 ∧
      update hand_position.centering (batch_around 13) c3 = some c4 ∧
      c4.mhps hand_position.clicking = some sA ∧ c4.mhps hand_position.scrolling = some sB ∧
      (∀ j, mean_q sA j = zero_movement (batch_mean (batch_around 5)) j) ∧
      (∀ j, mean_q sB j = zero_movement (batch_mean (batch_around 9)) j) ∧
      mean_q sA ⟨20, by decide⟩ = 5 ∧ mean_q sB ⟨20, by decide⟩ = 9 ∧
      variance_q sA ⟨20, by decide⟩ ≠ 0 ∧ variance_q sB ⟨20, by decide⟩ ≠ 0 ∧
      classify c4 [batch_mean (batch_around 5)] []
        = some (hand_position.pointing, double.fin 0)) := by
  constructor
  · have h1 : update hand_position.pointing (batch_around 0) new =
        some (set_entry new hand_position.pointing
          (train_stats (stats.zero FVN) (batch_around 0))) :=
      (update_eq hand_position.pointing _ _ new well_formed_new).1
    have hwf1 : well_formed (set_entry new hand_position.pointing
        (train_stats (stats.zero FVN) (batch_around 0))) :=
      (update_eq hand_position.pointing _ _ new well_formed_new).2
    have h2 : update hand_position.clicking (batch_around 5)
        (set_entry new hand_position.pointing
          (train_stats (stats.zero FVN) (batch_around 0))) =
        some (set_entry (set_entry new hand_position.pointing
            (train_stats (stats.zero FVN) (batch_around 0))) hand_position.clicking
          (train_stats (stats.zero FVN) (batch_around 5))) :=
      (update_eq hand_position.clicking _ _ _ hwf1).1
    refine ⟨_, _, _, _, h1, h2, by simp [set_entry], by simp [set_entry],
      fun j => trained_mean _ j, fun j => trained_mean _ j, batch_around_mean 0,
      batch_around_mean 5, batch_around_variance 0, batch_around_variance 5, ?_⟩
    unfold classify
    rw [classify_scores_untrained _ hand_position.scrolling (by decide)
      (by simp [set_entry, new])]
  · have u1 := update_absent hand_position.pointing 5 new well_formed_new rfl
    have u2 := update_absent hand_position.clicking 5 _ u1.2 (by simp [set_entry, new])
    have u3 := update_absent hand_position.scrolling 9 _ u2.2 (by simp [set_entry, new])
    have u4 := update_absent hand_position.centering 13 _ u3.2 (by simp [set_entry, new])
    refine ⟨_, _, _, _, _, _, u1.1, u2.1, u3.1, u4.1, by simp [set_entry],
      by simp [set_entry], fun j => trained_mean _ j, fun j => trained_mean _ j,
      batch_around_mean 5, batch_around_mean 9, batch_around_variance 5,
      batch_around_variance 9, ?_⟩
    exact classify_first_at_mean _ (train_stats (stats.zero FVN) (batch_around 5)) _ _
      (fully_trained_of_entries _ u4.2 (by simp [set_entry]) (by simp [set_entry])
        (by simp [set_entry]) (by simp [set_entry]))
      u4.2 (by simp [set_entry]) (fun j => (trained_mean _ j).symm)
      ⟨⟨20, by decide⟩, batch_around_variance 5⟩

end hand_position_classifier

end soma

namespace soma
namespace feature_fill

theorem range_five : List.range 5 = [0, 1, 2, 3, 4] := by decide
theorem range_four : List.range 4 = [0, 1, 2, 3] := by decide

theorem of_hand_eq (distance_to : vec3 → vec3 → ℚ) (init : feature_vector) (h : hand) :
    of_hand distance_to init h
      = some (put_all { data := init, i := 0, assigned := [] } (hand_values distance_to h)) := by
  simp [of_hand, fill_velocities, fill_directions, fill_distances, fill_differences,
    range_five, range_four, put, FVN, put_all, hand_values, List.finRange, List.ofFn,
    Fin.foldr, Fin.foldr.loop]
  rfl


theorem put_all_cons (st : feature_fill) (v : ℚ) (vs : List ℚ) :
    put_all st (v :: vs) = put_all (st.put v) vs := rfl

theorem put_all_i (vs : List ℚ) (st : feature_fill) :
    (put_all st vs).i = st.i + vs.length := by
  induction vs generalizing st with
  | nil => rfl
  | cons v vs ih =>
    rw [put_all_cons, ih]
    simp only [put, List.length_cons]
    omega

theorem put_all_assigned (vs : List ℚ) (st : feature_fill) :
    (put_all st vs).assigned = st.assigned ++ List.range' st.i vs.length := by
  induction vs generalizing st with
  | nil => simp [put_all]
  | cons v vs ih =>
    rw [put_all_cons, ih]
    simp [put, List.range'_succ]

theorem put_all_data (vs : List ℚ) (st : feature_fill) (k : Fin FVN) :
    (put_all st vs).data k
      = if st.i ≤ k.val ∧ k.val < st.i + vs.length then vs.getD (k.val - st.i) 0
        else st.data k := by
  induction vs generalizing st with
  | nil =>
    have : ¬ (st.i ≤ k.val ∧ k.val < st.i + ([] : List ℚ).length) := by
      simp only [List.length_nil]
      omega
    rw [if_neg this]
    rfl
  | cons v vs ih =>
    rw [put_all_cons, ih]
    simp only [put, array_set, List.length_cons]
    by_cases h1 : k.val = st.i
    · have h2 : ¬ (st.i + 1 ≤ k.val ∧ k.val < st.i + 1 + vs.length) := by omega
      have h3 : st.i ≤ k.val ∧ k.val < st.i + (vs.length + 1) := by omega
      rw [if_neg h2, if_pos h1, if_pos h3, h1]
      simp
    · by_cases h2 : st.i + 1 ≤ k.val ∧ k.val < st.i + 1 + vs.length
      · have h3 : st.i ≤ k.val ∧ k.val < st.i + (vs.length + 1) := by omega
        have h4 : k.val - st.i = (k.val - (st.i + 1)) + 1 := by omega
        rw [if_pos h2, if_pos h3, h4]
        simp
      · have h3 : ¬ (st.i ≤ k.val ∧ k.val < st.i + (vs.length + 1)) := by omega
        rw [if_neg h2, if_neg h3, if_neg h1]

theorem hand_values_length (distance_to : vec3 → vec3 → ℚ) (h : hand) :
    (hand_values distance_to h).length = FVN := by
  simp [hand_values, List.finRange, List.ofFn, Fin.foldr, Fin.foldr.loop, FVN]

theorem of_hand_entry (distance_to : vec3 → vec3 → ℚ) (init : feature_vector) (h : hand)
    (k : Nat) (hk : k < FVN) :
    entry (put_all { data := init, i := 0, assigned := [] } (hand_values distance_to h)).data k
      = (hand_values distance_to h).getD k 0 := by
  rw [entry, dif_pos hk, put_all_data, hand_values_length]
  simp [hk]


theorem hand_values_eq (distance_to : vec3 → vec3 → ℚ) (h : hand) :
    hand_values distance_to h
      = [(h 0).velocity.x, (h 0).velocity.y, (h 0).velocity.z,
         (h 1).velocity.x, (h 1).velocity.y, (h 1).velocity.z,
         (h 2).velocity.x, (h 2).velocity.y, (h 2).velocity.z,
         (h 3).velocity.x, (h 3).velocity.y, (h 3).velocity.z,
         (h 4).velocity.x, (h 4).velocity.y, (h 4).velocity.z,
         (h 0).direction.x, (h 0).direction.y, (h 0).direction.z,
         (h 1).direction.x, (h 1).direction.y, (h 1).direction.z,
         (h 2).direction.x, (h 2).direction.y, (h 2).direction.z,
         (h 3).direction.x, (h 3).direction.y, (h 3).direction.z,
         (h 4).direction.x, (h 4).direction.y, (h 4).direction.z,
         distance_to (h 0).position (h 1).position,
         distance_to (h 1).position (h 2).position,
         distance_to (h 2).position (h 3).position,
         distance_to (h 3).position (h 4).position,
         (h 0).position.x - (h 1).position.x, (h 0).position.y - (h 1).position.y,
         (h 0).position.z - (h 1).position.z,
         (h 1).position.x - (h 2).position.x, (h 1).position.y - (h 2).position.y,
         (h 1).position.z - (h 2).position.z,
         (h 2).position.x - (h 3).position.x, (h 2).position.y - (h 3).position.y,
         (h 2).position.z - (h 3).position.z,
         (h 3).position.x - (h 4).position.x, (h 3).position.y - (h 4).position.y,
         (h 3).position.z - (h 4).position.z] := by
  rfl

theorem of_hand_data_init (distance_to : vec3 → vec3 → ℚ) (init2 init : feature_vector)
    (h : hand) :
    (put_all { data := init2, i := 0, assigned := [] } (hand_values distance_to h)).data
      = (put_all { data := init, i := 0, assigned := [] } (hand_values distance_to h)).data := by
  funext k
  rw [put_all_data, put_all_data, hand_values_length]
  simp [k.isLt]

theorem norm_of_entries (distance_to : vec3 → vec3 → ℚ) (h : hand) (d : feature_vector)
    (hdist : ∀ j : Fin 4,
      entry d (30 + j.val) = distance_to (h j.castSucc).position (h j.succ).position)
    (hdiff : ∀ j : Fin 4,
      entry d (34 + 3 * j.val) = (h j.castSucc).position.x - (h j.succ).position.x
      ∧ entry d (34 + 3 * j.val + 1) = (h j.castSucc).position.y - (h j.succ).position.y
      ∧ entry d (34 + 3 * j.val + 2) = (h j.castSucc).position.z - (h j.succ).position.z)
    (hd : ∀ j : Fin 4,
      0 ≤ distance_to (h j.castSucc).position (h j.succ).position
      ∧ distance_to (h j.castSucc).position (h j.succ).position ^ 2
          = ((h j.castSucc).position.x - (h j.succ).position.x) ^ 2
            + ((h j.castSucc).position.y - (h j.succ).position.y) ^ 2
            + ((h j.castSucc).position.z - (h j.succ).position.z) ^ 2) :
    ∀ j : Fin 4,
      0 ≤ entry d (30 + j.val)
      ∧ entry d (30 + j.val) ^ 2
          = entry d (34 + 3 * j.val) ^ 2 + entry d (34 + 3 * j.val + 1) ^ 2
            + entry d (34 + 3 * j.val + 2) ^ 2 := by
  intro j
  rw [hdist j, (hdiff j).1, (hdiff j).2.1, (hdiff j).2.2]
  exact hd j

/-- C25: for every hand, every stand-in for `Leap::Vector::distanceTo` and every initial
content of the array, the constructor `feature_vector (const hand &h)` returns, with `i` equal
to the size, having assigned the indices 0, 1, …, 45 in this order, each once; the resulting
array does not depend on the initial content; entries `3j`, `3j+1`, `3j+2` are the x, y, z
velocity of finger `j`, entries `15+3j`, … the x, y, z direction of finger `j`, entry `30+j`
is the distance between the positions of fingers `j` and `j+1`, entries `34+3j`, … are the x,
y, z components of `position[j] - position[j+1]`; and whenever `distanceTo` is the Euclidean
distance on the adjacent fingers of the hand (non-negative, with square the sum of the squared
coordinate differences), each distance entry is the Euclidean norm of the corresponding three
difference entries. -/
theorem feature_vector_layout (distance_to : vec3 → vec3 → ℚ) (init : feature_vector)
    (h : hand) :
    ∃ st, of_hand distance_to init h = some st
      ∧ st.i = FVN
      ∧ st.assigned = List.range FVN
      ∧ (∀ init2, (of_hand distance_to init2 h).map (fun s => s.data) = some st.data)
      ∧ (∀ j : Fin 5,
          entry st.data (3 * j.val) = (h j).velocity.x
          ∧ entry st.data (3 * j.val + 1) = (h j).velocity.y
          ∧ entry st.data (3 * j.val + 2) = (h j).velocity.z)
      ∧ (∀ j : Fin 5,
          entry st.data (15 + 3 * j.val) = (h j).direction.x
          ∧ entry st.data (15 + 3 * j.val + 1) = (h j).direction.y
          ∧ entry st.data (15 + 3 * j.val + 2) = (h j).direction.z)
      ∧ (∀ j : Fin 4,
          entry st.data (30 + j.val) = distance_to (h j.castSucc).position (h j.succ).position)
      ∧ (∀ j : Fin 4,
          entry st.data (34 + 3 * j.val) = (h j.castSucc).position.x - (h j.succ).position.x
          ∧ entry st.data (34 + 3 * j.val + 1)
              = (h j.castSucc).position.y - (h j.succ).position.y
          ∧ entry st.data (34 + 3 * j.val + 2)
              = (h j.castSucc).position.z - (h j.succ).position.z)
      ∧ ((∀ j : Fin 4,
            0 ≤ distance_to (h j.castSucc).position (h j.succ).position
            ∧ distance_to (h j.castSucc).position (h j.succ).position ^ 2
                = ((h j.castSucc).position.x - (h j.succ).position.x) ^ 2
                  + ((h j.castSucc).position.y - (h j.succ).position.y) ^ 2
                  + ((h j.castSucc).position.z - (h j.succ).position.z) ^ 2) →
          ∀ j : Fin 4,
            0 ≤ entry st.data (30 + j.val)
            ∧ entry st.data (30 + j.val) ^ 2
                = entry st.data (34 + 3 * j.val) ^ 2
                  + entry st.data (34 + 3 * j.val + 1) ^ 2
                  + entry st.data (34 + 3 * j.val + 2) ^ 2) := by
  have hvel : ∀ j : Fin 5,
      entry (put_all { data := init, i := 0, assigned := [] } (hand_values distance_to h)).data
          (3 * j.val) = (h j).velocity.x
      ∧ entry (put_all { data := init, i := 0, assigned := [] } (hand_values distance_to h)).data
          (3 * j.val + 1) = (h j).velocity.y
      ∧ entry (put_all { data := init, i := 0, assigned := [] } (hand_values distance_to h)).data
          (3 * j.val + 2) = (h j).velocity.z := by
    intro j
    fin_cases j <;>
      refine ⟨?_, ?_, ?_⟩ <;>
      (rw [of_hand_entry _ _ _ _ (by decide), hand_values_eq]; rfl)
  have hdir : ∀ j : Fin 5,
      entry (put_all { data := init, i := 0, assigned := [] } (hand_values distance_to h)).data
          (15 + 3 * j.val) = (h j).direction.x
      ∧ entry (put_all { data := init, i := 0, assigned := [] } (hand_values distance_to h)).data
          (15 + 3 * j.val + 1) = (h j).direction.y
      ∧ entry (put_all { data := init, i := 0, assigned := [] } (hand_values distance_to h)).data
          (15 + 3 * j.val + 2) = (h j).direction.z := by
    intro j
    fin_cases j <;>
      refine ⟨?_, ?_, ?_⟩ <;>
      (rw [of_hand_entry _ _ _ _ (by decide), hand_values_eq]; rfl)
  have hdist : ∀ j : Fin 4,
      entry (put_all { data := init, i := 0, assigned := [] } (hand_values distance_to h)).data
          (30 + j.val) = distance_to (h j.castSucc).position (h j.succ).position := by
    intro j
    fin_cases j <;>
      (rw [of_hand_entry _ _ _ _ (by decide), hand_values_eq]; rfl)
  have hdiff : ∀ j : Fin 4,
      entry (put_all { data := init, i := 0, assigned := [] } (hand_values distance_to h)).data
          (34 + 3 * j.val) = (h j.castSucc).position.x - (h j.succ).position.x
      ∧ entry (put_all { data := init, i := 0, assigned := [] } (hand_values distance_to h)).data
          (34 + 3 * j.val + 1) = (h j.castSucc).position.y - (h j.succ).position.y
      ∧ entry (put_all { data := init, i := 0, assigned := [] } (hand_values distance_to h)).data
          (34 + 3 * j.val + 2) = (h j.castSucc).position.z - (h j.succ).position.z := by
    intro j
    fin_cases j <;>
      refine ⟨?_, ?_, ?_⟩ <;>
      (rw [of_hand_entry _ _ _ _ (by decide), hand_values_eq]; rfl)
  refine ⟨_, of_hand_eq distance_to init h, ?_, ?_, ?_, hvel, hdir, hdist, hdiff, ?_⟩
  · rw [put_all_i, hand_values_length]
    simp
  · rw [put_all_assigned, hand_values_length]
    simp [List.range_eq_range']
  · intro init2
    rw [of_hand_eq, Option.map_some']
    exact congrArg some (of_hand_data_init distance_to init2 init h)
  · exact fun hd => norm_of_entries distance_to h _ hdist hdiff hd

/-- C25, on the hand whose fingers are at `(j², 0, 0)`: the constructor returns, assigns the
indices 0, …, 45 in order, the distance entries are 1, 3, 5, 7, the first difference entries
are -1, 0, 0, and the first distance entry is the norm of the first three difference
entries. -/
theorem feature_vector_layout_witness :
    ∃ st, of_hand axis_distance (fun _ => 7) axis_hand = some st
      ∧ st.assigned = List.range FVN
      ∧ entry st.data 30 = 1 ∧ entry st.data 31 = 3 ∧ entry st.data 32 = 5
      ∧ entry st.data 33 = 7
      ∧ entry st.data 34 = -1 ∧ entry st.data 35 = 0 ∧ entry st.data 36 = 0
      ∧ entry st.data 30 ^ 2 = entry st.data 34 ^ 2 + entry st.data 35 ^ 2 + entry st.data 36 ^ 2 := by
  obtain ⟨st, h1, _, h3, _, _, _, h7, h8, h9⟩ :=
    feature_vector_layout axis_distance (fun _ => 7) axis_hand
  have hd : ∀ j : Fin 4,
      0 ≤ axis_distance (axis_hand j.castSucc).position (axis_hand j.succ).position
      ∧ axis_distance (axis_hand j.castSucc).position (axis_hand j.succ).position ^ 2
          = ((axis_hand j.castSucc).position.x - (axis_hand j.succ).position.x) ^ 2
            + ((axis_hand j.castSucc).position.y - (axis_hand j.succ).position.y) ^ 2
            + ((axis_hand j.castSucc).position.z - (axis_hand j.succ).position.z) ^ 2 := by
    intro j
    fin_cases j <;> norm_num [axis_distance, axis_hand]
  have e30 : entry st.data 30 = _ := h7 0
  have e31 : entry st.data 31 = _ := h7 1
  have e32 : entry st.data 32 = _ := h7 2
  have e33 : entry st.data 33 = _ := h7 3
  have e34 : entry st.data 34 = _ ∧ entry st.data 35 = _ ∧ entry st.data 36 = _ := h8 0
  have e9 : entry st.data 30 ^ 2
      = entry st.data 34 ^ 2 + entry st.data 35 ^ 2 + entry st.data 36 ^ 2 := (h9 hd 0).2
  refine ⟨st, h1, h3, ?_, ?_, ?_, ?_, ?_, ?_, ?_, e9⟩
  · rw [e30]; norm_num [axis_distance, axis_hand]
  · rw [e31]; norm_num [axis_distance, axis_hand]
  · rw [e32]; norm_num [axis_distance, axis_hand]
  · rw [e33]
    have h3 : ((3 : Fin 4) : ℕ) = 3 := rfl
    norm_num [axis_distance, axis_hand, h3]
  · rw [e34.1]; norm_num [axis_hand]
  · rw [e34.2.1]; norm_num [axis_hand]
  · rw [e34.2.2]; norm_num [axis_hand]

end feature_fill

end soma
